import Mathlib

/-!
# A verification development for the csp-solver constraint engine

This file gives a shallow embedding, in Lean 4, of the core constraint engine of
the `csp-solver` repository (`backend/src/csp_solver/solver/`): the backtracking
search of `csp.py`, the constraint factories of `constraints.py`, the bounded
LRU nogood store of `nogoods.py`, the GAC all-different propagator of
`gac_alldiff.py`, and the bitmask domain container of `bitset_domain.py`.

Modelling conventions:

* Variables and values are natural numbers, as in the Sudoku/Futoshiki adapters
  that drive the engine (`add_variables` is always called with non-negative
  integer domains there, so `_make_domain` always selects `BitsetDomain`).
  A `BitsetDomain` over Python's arbitrary-precision integers is exactly a
  natural number used as a bitmask, and its bit-trick iteration enumerates
  members in ascending order; we keep both facts.  Small CPython `set`s of
  small non-negative ints also iterate in ascending order, so sets of
  variables (`neighbors`, conflict sets, pruned sets) are bitmasks as well.
* A Python dict used as a partial assignment becomes an association list,
  most-recent binding first; the solver only ever adds a fresh key and later
  deletes that same key, so cons/erase is a faithful translation, and the
  constraint closures of the repository read the assignment only through
  key lookup.
* Mutation of `self` becomes explicit state threading: every method takes and
  returns the `CSP` record.  `random.shuffle` / `random.choice` take the
  stream of random draws as an explicit argument.
* Python `while` loops without a structural measure (`AC3`'s agenda, the
  Hopcroft-Karp phases, iterative Tarjan) are embedded with an explicit fuel
  parameter chosen at the call site generously above the loop's a-priori
  iteration bound; exhausting fuel returns the state reached so far and is
  unreachable for the bounds used.
* Constraint weights for dom/wdeg are IEEE doubles in the source but only ever
  hold `1.0 + n` and correctly-rounded quotients of such small integers; they
  are embedded as exact rationals.
-/

/-- Pointwise update of a function out of `Nat`, the translation of a Python
dict or defaultdict write `f[k] = a`. -/
def updFn {α : Type} (f : Nat → α) (k : Nat) (a : α) : Nat → α :=
  fun n => if n = k then a else f n

/-- Set membership bit: translation of `BitsetDomain.add` / `set.add`
(`bits |= 1 << v`). -/
def addBit (m v : Nat) : Nat := m ||| (1 <<< v)

/-- Remove a member: translation of `BitsetDomain.discard`
(`bits &= ~(1 << v)`). -/
def delBit (m v : Nat) : Nat := if m.testBit v then m ^^^ (1 <<< v) else m

/-- The members of a bitmask in ascending order: the order produced both by
`BitsetDomain.__iter__` (lowest set bit first) and by CPython iteration of a
small set of small non-negative ints.  Every set bit of `m` has position at
most `m`, so ranging over `0..m` is exhaustive. -/
def bitToList (m : Nat) : List Nat :=
  (List.range (m + 1)).filter (fun i => m.testBit i)

/-- `len()` of a bitmask domain (`int.bit_count` popcount). -/
def bitCard (m : Nat) : Nat := (bitToList m).length

/-- A partial assignment (`Solution = dict[Any, Any]`), most recent binding
first. -/
abbrev Sol := List (Nat × Nat)

namespace Sol

/-- Dict lookup `solution.get(v)`. -/
def get (s : Sol) (v : Nat) : Option Nat :=
  match s with
  | [] => none
  | (k, d) :: rest => if k = v then some d else get rest v

/-- Dict write `solution[v] = d` for a key that may already be present:
replace the earliest binding, else add one. -/
def setKey (s : Sol) (v d : Nat) : Sol :=
  match s with
  | [] => [(v, d)]
  | (k, e) :: rest => if k = v then (k, d) :: rest else (k, e) :: setKey rest v d

/-- Dict deletion `del solution[v]`: drop the earliest binding of `v`. -/
def eraseKey (s : Sol) (v : Nat) : Sol :=
  match s with
  | [] => []
  | (k, e) :: rest => if k = v then rest else (k, e) :: eraseKey rest v

/-- The assigned variables, in binding order. -/
def keys (s : Sol) : List Nat := s.map Prod.fst

end Sol

/-- A registered constraint: the predicate closure together with the
`_is_alldiff` marker attribute that `all_different_constraint` sets and
`add_constraint` inspects. -/
structure Constr where
  fn : Sol → Bool
  isAlldiff : Bool := false

/-! ## constraints.py -/

/-- `get_current_solution_values`: the values of the scope variables that are
currently assigned, in scope order. -/
def get_current_solution_values (vars : List Nat) (s : Sol) : List Nat :=
  vars.filterMap (fun v => s.get v)

/-- The check of `lambda_constraint`: evaluate `func` on the assigned scope
values once the whole scope is assigned, otherwise pass. -/
def lambdaCheck (func : List Nat → Bool) (vars : List Nat) (s : Sol) : Bool :=
  let current := get_current_solution_values vars s
  if vars.length = current.length then func current else true

/-- `lambda_constraint(func, *variables)`. -/
def lambda_constraint (func : List Nat → Bool) (vars : List Nat) :
    Constr × List Nat :=
  ({ fn := lambdaCheck func vars }, vars)

/-- `less_than_constraint(a, b)`. -/
def less_than_constraint (a b : Nat) : Constr × List Nat :=
  lambda_constraint (fun l => match l with | [x, y] => decide (x < y) | _ => true) [a, b]

/-- `greater_than_constraint(a, b)`. -/
def greater_than_constraint (a b : Nat) : Constr × List Nat :=
  lambda_constraint (fun l => match l with | [x, y] => decide (x > y) | _ => true) [a, b]

/-- `equals_constraint(node, value)`. -/
def equals_constraint (node value : Nat) : Constr × List Nat :=
  lambda_constraint (fun l => match l with | [x] => decide (x = value) | _ => true) [node]

/-- `map_coloring_constraint(p1, p2)`: pass unless both ends are assigned,
then require distinct values. -/
def map_coloring_constraint (p1 p2 : Nat) : Constr × List Nat :=
  ({ fn := fun s =>
      match s.get p1, s.get p2 with
      | some x, some y => decide (x ≠ y)
      | _, _ => true }, [p1, p2])

/-- The scan of `all_different_constraint.check`: walk the scope, remembering
values seen among assigned variables, failing on the first duplicate. -/
def allDiffGo (s : Sol) (seen : List Nat) : List Nat → Bool
  | [] => true
  | v :: rest =>
    match s.get v with
    | none => allDiffGo s seen rest
    | some val => if val ∈ seen then false else allDiffGo s (val :: seen) rest

/-- `all_different_constraint(*variables)`: assigned scope members must have
pairwise distinct values; the predicate carries the `_is_alldiff` tag. -/
def all_different_constraint (vars : List Nat) : Constr × List Nat :=
  ({ fn := fun s => allDiffGo s [] vars, isAlldiff := true }, vars)

/-! ## nogoods.py -/

/-- A nogood: the `frozenset` of (variable, value) pairs, kept in a canonical
sorted order so that value equality of the Lean representation coincides with
equality of the underlying frozensets. -/
abbrev Ng := List (Nat × Nat)

/-- Canonical form of a set of (variable, value) pairs: sorted. The solver
only ever records dicts, so the variable components are distinct and sorting
by the pair order gives one representative per frozenset. -/
def ngCanon (l : List (Nat × Nat)) : Ng :=
  l.insertionSort (fun p q => p.1 < q.1 ∨ (p.1 = q.1 ∧ p.2 ≤ q.2))

/-- One step of the index cleanup on eviction: drop the evicted nogood `e`
from the index list of the variable of pair `p`. -/
def idxEraseStep (e : Ng) (idx : Nat → List Ng) (p : Nat × Nat) : Nat → List Ng :=
  updFn idx p.1 ((idx p.1).erase e)

/-- One step of indexing a new nogood: append `ng0` under the variable of
pair `p`. -/
def idxAppendStep (ng0 : Ng) (idx : Nat → List Ng) (p : Nat × Nat) : Nat → List Ng :=
  updFn idx p.1 (idx p.1 ++ [ng0])

/-- The nogood store of `nogoods.py`: `_store` is the `OrderedDict` keyed by
nogoods, oldest first (so `popitem(last=False)` is the head and
`move_to_end` re-appends at the tail); `_var_index` is the per-variable list
index. -/
structure NogoodStore where
  max_length : Nat := 6
  max_entries : Nat := 1000
  store : List Ng := []
  varIndex : Nat → List Ng := fun _ => []

namespace NogoodStore

/-- `NogoodStore.record(conflict_assignments)`: skip over-long or empty
conflicts, refresh a duplicate, else evict the LRU entry at capacity (also
dropping it from the index of each of its variables) and append the new
nogood, indexing it under each variable it mentions. -/
def record (ns : NogoodStore) (conflict_assignments : List (Nat × Nat)) :
    NogoodStore :=
  if conflict_assignments.length > ns.max_length ∨ conflict_assignments = [] then
    ns
  else
    let nogood := ngCanon conflict_assignments
    if nogood ∈ ns.store then
      { ns with store := ns.store.erase nogood ++ [nogood] }
    else
      let ns :=
        if ns.store.length ≥ ns.max_entries then
          match ns.store with
          | [] => ns
          | evicted :: rest =>
            { ns with
              store := rest,
              varIndex := evicted.foldl (idxEraseStep evicted) ns.varIndex }
        else ns
      { ns with
        store := ns.store ++ [nogood],
        varIndex := nogood.foldl (idxAppendStep nogood) ns.varIndex }

/-- One candidate check inside `is_nogood`: the nogood must contain the probed
pair, and every pair for a different variable must match the current partial
assignment. -/
def ngMatches (var value : Nat) (solution : Sol) (nogood : Ng) : Bool :=
  decide ((var, value) ∈ nogood) &&
    nogood.all (fun p => p.1 = var || solution.get p.1 == some p.2)

/-- Scan of the candidate list in `is_nogood`, returning the first matching
nogood. -/
def findMatch (var value : Nat) (solution : Sol) : List Ng → Option Ng
  | [] => none
  | ng :: rest =>
    if ngMatches var value solution ng then some ng
    else findMatch var value solution rest

/-- `NogoodStore.is_nogood(variable, value, solution)`: scan the per-variable
candidate list; a hit refreshes that nogood's recency (`move_to_end`). -/
def is_nogood (ns : NogoodStore) (var value : Nat) (solution : Sol) :
    Bool × NogoodStore :=
  match findMatch var value solution (ns.varIndex var) with
  | some ng => (true, { ns with store := ns.store.erase ng ++ [ng] })
  | none => (false, ns)

/-- `NogoodStore.clear()`. -/
def clear (ns : NogoodStore) : NogoodStore :=
  { ns with store := [], varIndex := fun _ => [] }

end NogoodStore

/-! ## csp.py: state and construction -/

/-- `PruningType` enum. -/
inductive PruningType
  | FORWARD_CHECKING
  | AC3
  | AC_FC
  | NO_PRUNING
deriving DecidableEq

/-- `VariableOrdering` enum. -/
inductive VariableOrdering
  | FAIL_FIRST
  | NO_ORDERING
  | DOM_WDEG
deriving DecidableEq

/-- `_make_domain(values)`: all engine values are non-negative integers, so
this always builds a `BitsetDomain`; a bitmask of the listed values.  (The
generic-`set` fallback for an empty or non-integer list behaves identically
for every operation the solver performs on an empty domain.) -/
def makeDomain (values : List Nat) : Nat :=
  values.foldl addBit 0

/-- The solver state: every attribute `self.…` of class `CSP`.  `variables`
is spelled `vars` (a reserved word in Lean); dict-valued attributes are total
functions whose default matches the defaultdict default; `nogood_store` is
`some …` exactly when the instance was built with `use_nogoods=True`. -/
@[ext]
structure CSP where
  pruning_type : PruningType := PruningType.FORWARD_CHECKING
  variable_ordering : VariableOrdering := VariableOrdering.NO_ORDERING
  max_solutions : Nat := 1
  vars : List Nat := []
  constraints : Nat → List Constr := fun _ => []
  current_domains : Nat → Nat := fun _ => 0
  domains : Nat → List Nat := fun _ => []
  variable_stack : List Nat := []
  neighbors : Nat → Nat := fun _ => 0
  pruned_map : Nat → Nat → Nat := fun _ _ => 0
  solutions : List Sol := []
  backtrack_count : Nat := 0
  last_support : Nat × Nat × Nat → Option Nat := fun _ => none
  conflict_set : Nat → Nat := fun _ => 0
  child_conflicts : Nat := 0
  constraint_id : Nat := 0
  constraint_weights : Nat → ℚ := fun _ => 0
  var_constraint_ids : Nat → List Nat := fun _ => []
  use_gac_alldiff : Bool := false
  alldiff_groups : List (List Nat) := []
  nogood_store : Option NogoodStore := none

namespace CSP

/-- `CSP.__init__`. -/
def mk' (pruning_type : PruningType) (variable_ordering : VariableOrdering)
    (max_solutions : Nat) (use_gac_alldiff : Bool) (use_nogoods : Bool) : CSP :=
  { pruning_type := pruning_type,
    variable_ordering := variable_ordering,
    max_solutions := max_solutions,
    use_gac_alldiff := use_gac_alldiff,
    nogood_store := if use_nogoods then some {} else none }

/-- `CSP.add_variables(domain, *variables)`. -/
def add_variables (st : CSP) (domain : List Nat) (vs : List Nat) : CSP :=
  vs.foldl
    (fun st v =>
      { st with
        vars := st.vars ++ [v],
        domains := updFn st.domains v domain })
    st

/-- `CSP.add_constraint(constraint_pair)`: allot a fresh weight-tracking id,
register the predicate and the id with every scope variable, extend the
neighbor sets (excluding self), and collect tagged all-different scopes. -/
def add_constraint (st : CSP) (pair : Constr × List Nat) : CSP :=
  let constraint := pair.1
  let vs := pair.2
  let cid := st.constraint_id
  let st :=
    { st with
      constraint_id := cid + 1,
      constraint_weights := updFn st.constraint_weights cid 1 }
  let st := vs.foldl
    (fun st v =>
      { st with
        constraints := updFn st.constraints v (st.constraints v ++ [constraint]),
        neighbors := updFn st.neighbors v (delBit (vs.foldl addBit (st.neighbors v)) v),
        var_constraint_ids := updFn st.var_constraint_ids v (st.var_constraint_ids v ++ [cid]) })
    st
  if constraint.isAlldiff then
    { st with alldiff_groups := st.alldiff_groups ++ [vs] }
  else st

/-- `CSP.get_neighbors(variable)`. -/
def get_neighbors (st : CSP) (v : Nat) : Nat := st.neighbors v

/-- `CSP.is_valid(variable, solution)`: every constraint registered with the
variable accepts the partial assignment. -/
def is_valid (st : CSP) (v : Nat) (solution : Sol) : Bool :=
  (st.constraints v).all (fun c => c.fn solution)

/-- `CSP.restore_pruned_domains(variable)`: put every value pruned on behalf
of `variable` back into its neighbor's current domain and clear the log. -/
def restore_pruned_domains (st : CSP) (v : Nat) : CSP :=
  { st with
    current_domains := fun n => st.current_domains n ||| st.pruned_map v n,
    pruned_map := updFn st.pruned_map v (fun _ => 0) }

end CSP

/-! ## csp.py: propagation -/

/-- `pruned_map[v][Xi].add(x)`. -/
def pmAdd (pm : Nat → Nat → Nat) (v Xi x : Nat) : Nat → Nat → Nat :=
  updFn pm v (updFn (pm v) Xi (addBit (pm v Xi) x))

namespace CSP

/-- The support search for one value `x` of `Xi` inside `CSP.revise`: first
probe the AC-2001 cached support (re-checking it is still in `Xj`'s current
domain), then fall back to a full scan of `Xj`'s current domain, caching the
first support found.  The temporary writes `solution[Xi] = x`,
`solution[Xj] = y` and their exact restoration become evaluation on
`solution` with those keys overridden.  Returns the updated state (the
residual-support cache may change) and whether a support was found. -/
def findSupport (st : CSP) (Xi Xj : Nat) (solution : Sol) (x : Nat) :
    CSP × Bool :=
  let sol1 := solution.setKey Xi x
  let cacheKey := (Xi, x, Xj)
  let cachedHit :=
    match st.last_support cacheKey with
    | some y => (st.current_domains Xj).testBit y && st.is_valid Xj (sol1.setKey Xj y)
    | none => false
  if cachedHit then (st, true)
  else
    match (bitToList (st.current_domains Xj)).find?
        (fun y => st.is_valid Xj (sol1.setKey Xj y)) with
    | some y =>
      ({ st with
         last_support := fun k => if k = cacheKey then some y else st.last_support k },
       true)
    | none => (st, false)

/-- `CSP.revise(variable, Xi, Xj, solution)`: iterate a snapshot of `Xi`'s
current domain, discarding (and logging against `v`) every value without a
support in `Xj`; returns whether anything was removed. -/
def revise (st : CSP) (v Xi Xj : Nat) (solution : Sol) : CSP × Bool :=
  (bitToList (st.current_domains Xi)).foldl
    (fun acc x =>
      let (st, found) := findSupport acc.1 Xi Xj solution x
      if found then (st, acc.2)
      else
        ({ st with
           current_domains := updFn st.current_domains Xi (delBit (st.current_domains Xi) x),
           pruned_map := pmAdd st.pruned_map v Xi x },
         true))
    (st, false)

/-- The inner value scan of `CSP.forward_check` for one unassigned neighbor
`Xi`: discard (and log) every value of `Xi` inconsistent with the tentative
assignment. -/
def fcVar (st : CSP) (v Xi : Nat) (solution : Sol) : CSP :=
  (bitToList (st.current_domains Xi)).foldl
    (fun st x =>
      if st.is_valid Xi (solution.setKey Xi x) then st
      else
        { st with
          current_domains := updFn st.current_domains Xi (delBit (st.current_domains Xi) x),
          pruned_map := pmAdd st.pruned_map v Xi x })
    st

/-- The agenda loop of `CSP.forward_check`: stop at the first neighbor whose
domain wipes out, recording the conflict for CBJ. -/
def fcLoop (st : CSP) (v : Nat) (solution : Sol) : List Nat → CSP × Bool
  | [] => (st, false)
  | Xi :: rest =>
    let st := fcVar st v Xi solution
    if st.current_domains Xi = 0 then
      ({ st with conflict_set := updFn st.conflict_set Xi (addBit (st.conflict_set Xi) v) },
       true)
    else fcLoop st v solution rest

/-- `CSP.forward_check(variable, solution)`: returns `true` on domain
wipe-out. -/
def forward_check (st : CSP) (v : Nat) (solution : Sol) : CSP × Bool :=
  fcLoop st v solution
    ((bitToList (st.get_neighbors v)).filter (fun i => (solution.get i).isNone))

/-- The arc re-enqueue step of `CSP.AC3` after a successful revision of `Xi`:
push `(Xk, Xi)` for every unassigned neighbor `Xk` of `Xi` other than the arc
just fired from, skipping arcs already queued (the deque and its companion
membership set always hold the same arcs). -/
def ac3Enqueue (st : CSP) (solution : Sol) (Xi Xj : Nat)
    (agenda : List (Nat × Nat)) : List (Nat × Nat) :=
  (bitToList (st.get_neighbors Xi)).foldl
    (fun ag Xk =>
      if Xk ≠ Xj ∧ (Xk, Xi) ∉ ag ∧ (solution.get Xk).isNone then ag ++ [(Xk, Xi)]
      else ag)
    agenda

/-- The worklist loop of `CSP.AC3` (fuelled; `agenda.pop()` takes the right
end of the deque). -/
def ac3Loop : Nat → CSP → Nat → Sol → List (Nat × Nat) → CSP × Bool
  | 0, st, _, _, _ => (st, false)
  | fuel + 1, st, v, solution, agenda =>
    match agenda.getLast? with
    | none => (st, false)
    | some arc =>
      let agenda := agenda.dropLast
      let (st, removed) := st.revise v arc.1 arc.2 solution
      if removed then
        if st.current_domains arc.1 = 0 then
          ({ st with
             conflict_set := updFn st.conflict_set arc.1 (addBit (st.conflict_set arc.1) v) },
           true)
        else ac3Loop fuel st v solution (ac3Enqueue st solution arc.1 arc.2 agenda)
      else ac3Loop fuel st v solution agenda
  -- fuel discipline: every iteration pops one arc; at most
  -- `|neighbors(v)|` arcs are queued initially and each of the at most
  -- `Σ |current_domains|` value removals enqueues at most `|vars|` arcs,
  -- so the fuel chosen in `CSP.AC3` below strictly dominates the number of
  -- iterations of the source's `while` loop.

/-- The fuel bound for one `AC3` call (see the note in `ac3Loop`). -/
def AC3fuel (st : CSP) (v : Nat) : Nat :=
  ((st.vars.map (fun w => bitCard (st.current_domains w))).sum + 1)
      * (st.vars.length + 1)
    + bitCard (st.get_neighbors v) + 1

/-- `CSP.AC3(variable, solution)`: AC3 with DWO detection; returns `true` on
wipe-out. -/
def AC3 (st : CSP) (v : Nat) (solution : Sol) : CSP × Bool :=
  ac3Loop (AC3fuel st v) st v solution
    (((bitToList (st.get_neighbors v)).filter
        (fun Xj => (solution.get Xj).isNone)).map (fun Xj => (Xj, v)))

/-- The loop of `CSP.AC_FC`: same pops as AC3 but no re-enqueueing, and the
loop also stops as soon as the assigning variable itself becomes invalid. -/
def acfcLoop : Nat → CSP → Nat → Sol → List (Nat × Nat) → CSP × Bool
  | 0, st, _, _, _ => (st, false)
  | fuel + 1, st, v, solution, agenda =>
    if agenda.length > 0 ∧ st.is_valid v solution then
      match agenda.getLast? with
      | none => (st, false)
      | some arc =>
        let agenda := agenda.dropLast
        let (st, removed) := st.revise v arc.1 arc.2 solution
        if removed ∧ st.current_domains arc.1 = 0 then
          ({ st with
             conflict_set := updFn st.conflict_set arc.1 (addBit (st.conflict_set arc.1) v) },
           true)
        else acfcLoop fuel st v solution agenda
    else (st, false)

/-- `CSP.AC_FC(variable, solution)`: one-hop arc consistency from the newly
assigned variable; returns `true` on wipe-out. -/
def AC_FC (st : CSP) (v : Nat) (solution : Sol) : CSP × Bool :=
  let agenda := ((bitToList (st.get_neighbors v)).filter
      (fun Xj => (solution.get Xj).isNone)).map (fun Xj => (Xj, v))
  acfcLoop (agenda.length + 1) st v solution agenda

/-- `CSP._wdeg(v)`: sum of the weights of the constraints involving `v`. -/
def wdeg (st : CSP) (v : Nat) : ℚ :=
  (st.var_constraint_ids v).foldl (fun w cid => w + st.constraint_weights cid) 0

/-- `CSP._increment_weights_on_dwo(variable)`. -/
def increment_weights_on_dwo (st : CSP) (v : Nat) : CSP :=
  { st with
    constraint_weights :=
      (st.var_constraint_ids v).foldl (fun f cid => updFn f cid (f cid + 1))
        st.constraint_weights }

end CSP

/-- Python's `min(iterable, key=…)`: the first element attaining the minimal
key, `none` on an empty iterable (where CPython raises `ValueError`). -/
def pyMinBy {β : Type} [LinearOrder β] (l : List Nat) (key : Nat → β) : Option Nat :=
  l.foldl
    (fun acc x =>
      match acc with
      | none => some x
      | some b => if key x < key b then some x else acc)
    none

namespace CSP

/-- `CSP.get_next_variable()`: select and remove a variable from the pending
stack under the configured ordering; returns the variable and the new stack
(`none` when the stack is empty, where the source would raise).
`deque.remove` drops the first occurrence; `deque.pop` takes the right end. -/
def get_next_variable (st : CSP) : Option (Nat × List Nat) :=
  match st.variable_ordering with
  | VariableOrdering.FAIL_FIRST =>
    (pyMinBy st.variable_stack (fun v => bitCard (st.current_domains v))).map
      (fun best => (best, st.variable_stack.erase best))
  | VariableOrdering.DOM_WDEG =>
    (pyMinBy st.variable_stack
        (fun v => (bitCard (st.current_domains v) : ℚ) / max (st.wdeg v) (1 / 1000000000))).map
      (fun best => (best, st.variable_stack.erase best))
  | VariableOrdering.NO_ORDERING =>
    st.variable_stack.getLast?.map (fun v => (v, st.variable_stack.dropLast))

end CSP

/-! ## gac_alldiff.py -/

/-- Hopcroft-Karp working state: `(match_u, match_v, dist)`; `none` plays the
role of the `-1` sentinel `_NONE`. -/
abbrev HK := List (Option Nat) × List (Option Nat) × List Nat

/-- The edge scan of one dequeued `u` in `_hopcroft_karp.bfs`: unmatched
right-node found, or matched partner at distance `INF` gets layered and
enqueued. -/
def hkBfsVisit (matchV : List (Option Nat)) (INF u : Nat) (adjU : List Nat)
    (acc : List Nat × List Nat × Bool) : List Nat × List Nat × Bool :=
  adjU.foldl
    (fun acc v =>
      let (dist, queue, found) := acc
      match matchV.getD v none with
      | none => (dist, queue, true)
      | some mu =>
        if dist.getD mu 0 = INF then
          (dist.set mu (dist.getD u 0 + 1), queue ++ [mu], found)
        else (dist, queue, found))
    acc

/-- The FIFO queue loop of `_hopcroft_karp.bfs` (fuelled; each left node is
enqueued at most once per phase, so the fuel passed by `hkBfs` dominates the
number of dequeues). -/
def hkBfsLoop : Nat → List (Option Nat) → Nat → List (List Nat) → List Nat →
    List Nat → Bool → List Nat × Bool
  | 0, _, _, _, dist, _, found => (dist, found)
  | fuel + 1, matchV, INF, adj, dist, queue, found =>
    match queue with
    | [] => (dist, found)
    | u :: rest =>
      let (dist, extra, found) := hkBfsVisit matchV INF u (adj.getD u []) (dist, [], found)
      hkBfsLoop fuel matchV INF adj dist (rest ++ extra) found

/-- `_hopcroft_karp.bfs`: relayer the graph from the unmatched left nodes;
returns the new `dist` array and whether an augmenting path exists. -/
def hkBfs (nU INF : Nat) (adj : List (List Nat)) (s : HK) : List Nat × Bool :=
  let init := (List.range nU).foldl
    (fun (acc : List Nat × List Nat) u =>
      match s.1.getD u none with
      | none => (acc.1.set u 0, acc.2 ++ [u])
      | some _ => (acc.1.set u INF, acc.2))
    (s.2.2, [])
  hkBfsLoop ((nU + 2) * (nU + 2)) s.2.1 INF adj init.1 init.2 false

/-- The edge loop of `_hopcroft_karp.dfs` for node `u`: an unmatched value, or
a layered partner whose recursive search succeeds, rematches `u`; exhaustion
marks `dist[u] = INF` and fails.  The recursive call is supplied as `rec`. -/
def hkDfsEdges (rec : Nat → HK → Bool × HK) (u INF : Nat) :
    HK → List Nat → Bool × HK
  | s, [] => (false, (s.1, s.2.1, s.2.2.set u INF))
  | s, v :: rest =>
    match s.2.1.getD v none with
    | none => (true, (s.1.set u (some v), s.2.1.set v (some u), s.2.2))
    | some m =>
      if s.2.2.getD m 0 = s.2.2.getD u 0 + 1 then
        match rec m s with
        | (true, s') => (true, (s'.1.set u (some v), s'.2.1.set v (some u), s'.2.2))
        | (false, s') => hkDfsEdges rec u INF s' rest
      else hkDfsEdges rec u INF s rest

/-- `_hopcroft_karp.dfs` (fuelled; recursion follows strictly increasing
`dist` layers, so depth is below `INF + 2`). -/
def hkDfs : Nat → List (List Nat) → Nat → Nat → HK → Bool × HK
  | 0, _, _, _, s => (false, s)
  | fuel + 1, adj, INF, u, s =>
    hkDfsEdges (fun m s => hkDfs fuel adj INF m s) u INF s (adj.getD u [])

/-- The augmenting pass of `_hopcroft_karp`: run `dfs` from every still
unmatched left node. -/
def hkPhase (nU : Nat) (adj : List (List Nat)) (INF : Nat) (s : HK) : HK :=
  (List.range nU).foldl
    (fun s u =>
      match s.1.getD u none with
      | none => (hkDfs (INF + 2) adj INF u s).2
      | some _ => s)
    s

/-- The `while bfs()` phase loop of `_hopcroft_karp` (fuelled; every phase
with an augmenting path enlarges the matching, so at most `nU` phases succeed
before `bfs` reports `False`). -/
def hkLoop : Nat → Nat → List (List Nat) → Nat → HK → HK
  | 0, _, _, _, s => s
  | fuel + 1, nU, adj, INF, s =>
    let (dist, found) := hkBfs nU INF adj s
    let s : HK := (s.1, s.2.1, dist)
    if found then hkLoop fuel nU adj INF (hkPhase nU adj INF s) else s

/-- `_hopcroft_karp(n_u, n_v, adj)`: maximum bipartite matching; returns
`(match_u, match_v)` with `none` for unmatched nodes. -/
def hopcroft_karp (nU nV : Nat) (adj : List (List Nat)) :
    List (Option Nat) × List (Option Nat) :=
  let INF := nU + nV + 1
  let s := hkLoop (nU + 1) nU adj INF
    (List.replicate nU none, List.replicate nV none, List.replicate nU 0)
  (s.1, s.2.1)

/-- The mutable state of `_tarjan_scc_iterative`; the head of `callStack` is
the top frame (`call_stack[-1]`). -/
structure TarjanState where
  index : List (Option Nat)
  lowlink : List Nat
  onStack : List Bool
  sccId : List (Option Nat)
  stack : List Nat
  callStack : List (Nat × Nat)
  counter : Nat
  sccCounter : Nat

/-- The SCC emission loop of `_tarjan_scc_iterative`: pop the node stack down
to and including the root `v`, labelling members (fuelled by the stack
length). -/
def tarjanPop : Nat → Nat → TarjanState → TarjanState
  | 0, _, s => s
  | fuel + 1, v, s =>
    match s.stack.getLast? with
    | none => s
    | some w =>
      let s := { s with
        stack := s.stack.dropLast,
        onStack := s.onStack.set w false,
        sccId := s.sccId.set w (some s.sccCounter) }
      if w = v then s else tarjanPop fuel v s

/-- One iteration of the `while call_stack` loop of `_tarjan_scc_iterative`:
either advance the top frame across its next neighbor (visiting or updating
lowlinks) or retire the frame (emitting an SCC if it is a root and folding
its lowlink into its parent). -/
def tarjanStep (adj : List (List Nat)) (s : TarjanState) : TarjanState :=
  match s.callStack with
  | [] => s
  | (v, ni) :: frames =>
    let nbrs := adj.getD v []
    if ni < nbrs.length then
      let s := { s with callStack := (v, ni + 1) :: frames }
      let w := nbrs.getD ni 0
      match s.index.getD w none with
      | none =>
        { s with
          index := s.index.set w (some s.counter),
          lowlink := s.lowlink.set w s.counter,
          counter := s.counter + 1,
          stack := s.stack ++ [w],
          onStack := s.onStack.set w true,
          callStack := (w, 0) :: s.callStack }
      | some iw =>
        if s.onStack.getD w false then
          if iw < s.lowlink.getD v 0 then { s with lowlink := s.lowlink.set v iw }
          else s
        else s
    else
      let s :=
        if some (s.lowlink.getD v 0) = s.index.getD v none then
          let s := tarjanPop s.stack.length v s
          { s with sccCounter := s.sccCounter + 1 }
        else s
      let s := { s with callStack := frames }
      match frames with
      | [] => s
      | (parent, _) :: _ =>
        if s.lowlink.getD v 0 < s.lowlink.getD parent 0 then
          { s with lowlink := s.lowlink.set parent (s.lowlink.getD v 0) }
        else s

/-- The `while call_stack` loop (fuelled: each iteration either pushes a
frame, advances a neighbor index, or pops a frame, so iterations are bounded
by `2 * (nodes + edges + 1)`). -/
def tarjanLoop : Nat → List (List Nat) → TarjanState → TarjanState
  | 0, _, s => s
  | fuel + 1, adj, s =>
    if s.callStack = [] then s else tarjanLoop fuel adj (tarjanStep adj s)

/-- `_tarjan_scc_iterative(n_nodes, adj)`: SCC ids per node. -/
def tarjan_scc_iterative (nNodes : Nat) (adj : List (List Nat)) :
    List (Option Nat) :=
  let fuel := 2 * (nNodes + (adj.map List.length).sum + 2)
  let s0 : TarjanState :=
    { index := List.replicate nNodes none,
      lowlink := List.replicate nNodes 0,
      onStack := List.replicate nNodes false,
      sccId := List.replicate nNodes none,
      stack := [], callStack := [], counter := 0, sccCounter := 0 }
  let s := (List.range nNodes).foldl
    (fun s start =>
      match s.index.getD start none with
      | some _ => s
      | none =>
        let s := { s with
          callStack := [(start, 0)],
          index := s.index.set start (some s.counter),
          lowlink := s.lowlink.set start s.counter,
          counter := s.counter + 1,
          stack := s.stack ++ [start],
          onStack := s.onStack.set start true }
        tarjanLoop fuel adj s)
    s0
  s.sccId

/-- The bipartite graph construction at the head of `gac_alldiff_propagate`:
per unassigned variable, its still-available values (current domain minus the
values already taken inside the group), the deterministic sorted value list,
and the integer-indexed adjacency. -/
def gacAdj (unassigned : List Nat) (current_domains : Nat → Nat)
    (solution : Sol) (group : List Nat) : List (List Nat) × List Nat :=
  let assigned_vals := group.filterMap (fun v => solution.get v)
  let var_avail_raw := unassigned.map
    (fun var => (bitToList (current_domains var)).filter (fun x => x ∉ assigned_vals))
  let val_list := (var_avail_raw.flatten.dedup).insertionSort (· ≤ ·)
  (var_avail_raw.map (fun avail => avail.map (fun x => val_list.indexOf x)), val_list)

/-- `gac_alldiff_propagate(unassigned, current_domains, solution, group)`:
groups with at most two unassigned members are skipped (forward checking
handles them); a matching that fails to cover every unassigned variable means
the group is already unsatisfiable and nothing is propagated; otherwise prune
every unmatched variable-value edge whose endpoints fall in different SCCs of
the residual graph. -/
def gac_alldiff_propagate (unassigned : List Nat) (current_domains : Nat → Nat)
    (solution : Sol) (group : List Nat) : List (Nat × Nat) :=
  let n_vars := unassigned.length
  if n_vars ≤ 1 then []
  else if n_vars ≤ 2 then []
  else
    let built := gacAdj unassigned current_domains solution group
    let adj := built.1
    let val_list := built.2
    if val_list = [] then []
    else
      let n_vals := val_list.length
      let match_u := (hopcroft_karp n_vars n_vals adj).1
      if (List.range n_vars).any (fun u => match_u.getD u none = none) then []
      else
        let total_nodes := n_vars + n_vals
        let res_adj := (List.range n_vars).foldl
          (fun (r : List (List Nat)) u =>
            (adj.getD u []).foldl
              (fun (r : List (List Nat)) vi =>
                let val_node := n_vars + vi
                if match_u.getD u none = some vi then
                  r.set val_node (r.getD val_node [] ++ [u])
                else r.set u (r.getD u [] ++ [val_node]))
              r)
          (List.replicate total_nodes [])
        let scc_id := tarjan_scc_iterative total_nodes res_adj
        (List.range n_vars).foldl
          (fun removals u =>
            (adj.getD u []).foldl
              (fun removals vi =>
                if match_u.getD u none = some vi then removals
                else if scc_id.getD u none ≠ scc_id.getD (n_vars + vi) none then
                  removals ++ [(unassigned.getD u 0, val_list.getD vi 0)]
                else removals)
              removals)
          []

namespace CSP

/-- The removal application loop of `CSP._propagate_gac_alldiff`: discard each
pruned value, log it against the assigning variable, and stop with DWO the
moment a domain empties. -/
def gacApply (st : CSP) (v : Nat) : List (Nat × Nat) → CSP × Bool
  | [] => (st, false)
  | (var, val) :: rest =>
    let st := { st with
      current_domains := updFn st.current_domains var (delBit (st.current_domains var) val),
      pruned_map := pmAdd st.pruned_map v var val }
    if st.current_domains var = 0 then (st, true)
    else gacApply st v rest

/-- The group loop of `CSP._propagate_gac_alldiff`: only groups containing
the just-assigned variable and having an unassigned member are propagated. -/
def gacGroups (st : CSP) (v : Nat) (solution : Sol) :
    List (List Nat) → CSP × Bool
  | [] => (st, false)
  | group :: rest =>
    if v ∉ group then gacGroups st v solution rest
    else
      let unassigned := group.filter (fun w => (solution.get w).isNone)
      if unassigned = [] then gacGroups st v solution rest
      else
        let removals := gac_alldiff_propagate unassigned st.current_domains solution group
        match gacApply st v removals with
        | (st', true) => (st', true)
        | (st', false) => gacGroups st' v solution rest

/-- `CSP._propagate_gac_alldiff(variable, solution)`: returns `true` on DWO. -/
def propagate_gac_alldiff (st : CSP) (v : Nat) (solution : Sol) : CSP × Bool :=
  if ¬ st.use_gac_alldiff ∨ st.alldiff_groups = [] then (st, false)
  else gacGroups st v solution st.alldiff_groups

end CSP

/-! ## csp.py: search -/

namespace CSP

/-- The `self.pruning_function` dispatch fixed by `__init__` from the pruning
type (for `NO_PRUNING` the source installs `lambda x, y: False`). -/
def pruneStep (st : CSP) (v : Nat) (solution : Sol) : CSP × Bool :=
  match st.pruning_type with
  | PruningType.FORWARD_CHECKING => st.forward_check v solution
  | PruningType.AC3 => st.AC3 v solution
  | PruningType.AC_FC => st.AC_FC v solution
  | PruningType.NO_PRUNING => (st, false)

/-- The fall-through tail of one candidate-value iteration in
`CSP.backtrack`: record assigned neighbors in the conflict set, count a
backtrack, restore this variable's pruned values and unassign it. -/
def afterCandidate (st : CSP) (v : Nat) (solution : Sol) : CSP × Sol :=
  let cs := (bitToList (st.get_neighbors v)).foldl
    (fun cs peer => if (solution.get peer).isSome then addBit cs peer else cs)
    (st.conflict_set v)
  let st := { st with
    conflict_set := updFn st.conflict_set v cs,
    backtrack_count := st.backtrack_count + 1 }
  (st.restore_pruned_domains v, solution.eraseKey v)

/-- The dead-end tail after the value loop of `CSP.backtrack` (reached on
exhaustion or on a CBJ break): learn a nogood from the conflict set, publish
it as `_child_conflicts`, push the variable back on the stack, and report
failure upward. -/
def finishLevel (st : CSP) (v : Nat) (solution : Sol) : CSP × Bool × Sol :=
  let st :=
    match st.nogood_store with
    | some ns =>
      if st.conflict_set v ≠ 0 then
        let ca := (bitToList (st.conflict_set v)).filterMap
          (fun cv => (solution.get cv).map (fun val => (cv, val)))
        if ca ≠ [] then { st with nogood_store := some (ns.record ca) } else st
      else st
    | none => st
  ({ st with
     child_conflicts := st.conflict_set v,
     variable_stack := st.variable_stack ++ [v] },
   false, solution)

/-- The shared epilogue of one candidate-value iteration of `CSP.backtrack`
(reached after an invalid assignment, after a domain wipe-out, or after a
recursive descent returned `false` without a backjump): run the
`afterCandidate` undo and continue with the remaining values via `cont`. -/
def undoTail (cont : CSP → Sol → CSP × Bool × Sol) (v : Nat) (st : CSP)
    (solr : Sol) : CSP × Bool × Sol :=
  let ac := st.afterCandidate v solr
  cont ac.1 ac.2

/-- The domain-wipe-out branch of one candidate-value iteration: under
dom/wdeg ordering first charge the weights of the constraints of `v`, then
fall through to the shared undo epilogue. -/
def dwoTail (cont : CSP → Sol → CSP × Bool × Sol) (v : Nat) (st : CSP)
    (sol1 : Sol) : CSP × Bool × Sol :=
  let st :=
    if st.variable_ordering = VariableOrdering.DOM_WDEG then
      st.increment_weights_on_dwo v
    else st
  undoTail cont v st sol1

/-- The conflict-directed backjump (`break`) of one candidate-value
iteration: count a backtrack, restore the pruned values of `v`, unassign
`v`, merge the child's conflict set into that of `v`, and run the dead-end
tail of the level immediately. -/
def cbjTail (v : Nat) (st : CSP) (solr : Sol) : CSP × Bool × Sol :=
  let st := { st with backtrack_count := st.backtrack_count + 1 }
  let st := st.restore_pruned_domains v
  let sol2 := solr.eraseKey v
  let st := { st with
    conflict_set :=
      updFn st.conflict_set v (st.conflict_set v ||| st.child_conflicts) }
  st.finishLevel v sol2

/-- The recursive descent of one candidate-value iteration: recurse via
`bt`; propagate a `true` result straight up, and on `false` either backjump
(single-solution mode, when the child's conflict set is non-empty and does
not involve `v`) or undo normally and continue. -/
def descend (bt cont : CSP → Sol → CSP × Bool × Sol) (v : Nat) (st : CSP)
    (sol1 : Sol) : CSP × Bool × Sol :=
  match bt st sol1 with
  | (st, true, solr) => (st, true, solr)
  | (st, false, solr) =>
    if st.max_solutions = 1 ∧ st.child_conflicts ≠ 0 ∧
        ¬ (st.child_conflicts.testBit v) then
      cbjTail v st solr
    else
      undoTail cont v st solr

/-- One candidate value `d` for level variable `v` inside the loop of
`CSP.backtrack` (the body of one loop iteration after the nogood
pre-filter): tentatively assign, check validity, run the configured pruning
then GAC, and dispatch to the wipe-out branch, the recursive descent, or
the undo epilogue; `cont` continues with the remaining candidate values. -/
def tryCandidate (bt cont : CSP → Sol → CSP × Bool × Sol) (v d : Nat)
    (st : CSP) (solution : Sol) : CSP × Bool × Sol :=
  let sol1 : Sol := (v, d) :: solution
  if st.is_valid v sol1 then
    let pr := st.pruneStep v sol1
    let g := if pr.2 then pr else pr.1.propagate_gac_alldiff v sol1
    if g.2 then dwoTail cont v g.1 sol1
    else descend bt cont v g.1 sol1
  else undoTail cont v st sol1

/-- The candidate-value loop of `CSP.backtrack` over the snapshot of the
chosen variable's current domain.  A nogood hit skips the value
(`continue`, with the store's recency refreshed); otherwise the candidate is
tried by `tryCandidate`; exhaustion runs the dead-end tail. -/
def tryValues (bt : CSP → Sol → CSP × Bool × Sol) (st : CSP) (v : Nat)
    (solution : Sol) : List Nat → CSP × Bool × Sol
  | [] => st.finishLevel v solution
  | d :: rest =>
    let probe : Bool × CSP :=
      match st.nogood_store with
      | some ns =>
        let q := ns.is_nogood v d solution
        (q.1, { st with nogood_store := some q.2 })
      | none => (false, st)
    let st := probe.2
    if probe.1 then tryValues bt st v solution rest
    else
      tryCandidate bt (fun st2 sol2 => tryValues bt st2 v sol2 rest) v d st solution

/-- `CSP.backtrack(solution)`: record a complete assignment and report
whether enough solutions have been collected; otherwise select a variable,
reset its conflict set and iterate its candidate values.  The fuel counts
recursion depth; each level assigns one more variable, so
`len(variables) + 1` (as passed by the solve entry points) never exhausts,
and a `none` from selection models the `IndexError` of popping an empty
stack, which no reachable state triggers. -/
def backtrack : Nat → CSP → Sol → CSP × Bool × Sol
  | 0, st, solution => (st, false, solution)
  | fuel + 1, st, solution =>
    if solution.length = st.vars.length then
      let st := { st with solutions := st.solutions ++ [solution] }
      (st, decide (st.solutions.length ≥ st.max_solutions), solution)
    else
      match st.get_next_variable with
      | none => (st, false, solution)
      | some (v, stk) =>
        let st := { st with
          variable_stack := stk,
          conflict_set := updFn st.conflict_set v 0 }
        tryValues (backtrack fuel) st v solution (bitToList (st.current_domains v))

/-- `CSP._reset()`: clear all per-search mutable state.  (`pruned_map` is not
cleared here: `solve` clears the per-variable logs itself.) -/
def reset (st : CSP) : CSP :=
  { st with
    variable_stack := [],
    current_domains := fun _ => 0,
    backtrack_count := 0,
    last_support := fun _ => none,
    conflict_set := fun _ => 0,
    child_conflicts := 0,
    solutions := [],
    nogood_store := st.nogood_store.map NogoodStore.clear }

/-- The per-variable loop body of `CSP.solve`: push the variable on the
pending stack, rebuild its current domain from the static domain, and clear
its pruned log. -/
def solveInitStep (st : CSP) (v : Nat) : CSP :=
  { st with
    variable_stack := st.variable_stack ++ [v],
    current_domains := updFn st.current_domains v (makeDomain (st.domains v)),
    pruned_map := updFn st.pruned_map v (fun _ => 0) }

/-- The state `CSP.solve` starts searching from: reset, then initialise
every registered variable. -/
def solveInit (st : CSP) : CSP :=
  st.reset.vars.foldl solveInitStep st.reset

/-- `CSP.solve()`: reset, rebuild the stack and the current domains from the
static domains, clear each variable's pruned log, and run the recursive
search from the empty assignment. -/
def solve (st : CSP) : CSP × Bool :=
  let st := st.solveInit
  let r := backtrack (st.vars.length + 1) st []
  (r.1, r.2.1)

/-- The inline arc revision of `CSP.solve_with_initial_propagation` (no
residual-support cache, no pruned-value logging: these reductions are
permanent). -/
def swipRevise (st : CSP) (Xi Xj : Nat) (dummy : Sol) : CSP × Bool :=
  (bitToList (st.current_domains Xi)).foldl
    (fun acc x =>
      let st := acc.1
      let sol1 := dummy.setKey Xi x
      let found := (bitToList (st.current_domains Xj)).any
        (fun y => st.is_valid Xj (sol1.setKey Xj y))
      if found then acc
      else
        ({ st with
           current_domains := updFn st.current_domains Xi (delBit (st.current_domains Xi) x) },
         true))
    (st, false)

/-- The cascading AC3-style worklist of `CSP.solve_with_initial_propagation`
(fuelled like `ac3Loop`); the `false` component signals the early
"unsolvable after initial propagation" return. -/
def swipLoop : Nat → CSP → Sol → List (Nat × Nat) → CSP × Bool
  | 0, st, _, _ => (st, true)
  | fuel + 1, st, dummy, agenda =>
    match agenda.getLast? with
    | none => (st, true)
    | some arc =>
      let agenda := agenda.dropLast
      let (st, removed) := st.swipRevise arc.1 arc.2 dummy
      if removed then
        if st.current_domains arc.1 = 0 then (st, false)
        else
          let agenda := (bitToList (st.get_neighbors arc.1)).foldl
            (fun ag Xk =>
              if Xk ≠ arc.2 ∧ (Xk, arc.1) ∉ ag ∧ (dummy.get Xk).isNone then
                ag ++ [(Xk, arc.1)]
              else ag)
            agenda
          swipLoop fuel st dummy agenda
      else swipLoop fuel st dummy agenda

/-- The per-variable domain rebuild of `solve_with_initial_propagation`
(like `solveInitStep`, but without pushing the stack — only unassigned
variables are stacked, later). -/
def swipInitStep (st : CSP) (v : Nat) : CSP :=
  { st with
    current_domains := updFn st.current_domains v (makeDomain (st.domains v)),
    pruned_map := updFn st.pruned_map v (fun _ => 0) }

/-- Seeding one given cell in `solve_with_initial_propagation`: restrict it
to a singleton domain and strip its value from every unassigned peer's
domain, one hop out. -/
def swipSeedStep (given_values : Sol) (st : CSP) (p : Nat × Nat) : CSP :=
  let st := { st with
    current_domains := updFn st.current_domains p.1 (makeDomain [p.2]) }
  (bitToList (st.get_neighbors p.1)).foldl
    (fun st nb =>
      if (given_values.get nb).isNone ∧ (st.current_domains nb).testBit p.2 then
        { st with
          current_domains := updFn st.current_domains nb (delBit (st.current_domains nb) p.2) }
      else st)
    st

/-- Stacking one variable in `solve_with_initial_propagation`: only
variables without a given value are searched. -/
def swipStackStep (given_values : Sol) (st : CSP) (v : Nat) : CSP :=
  if (given_values.get v).isNone then
    { st with variable_stack := st.variable_stack ++ [v] }
  else st

/-- `CSP.solve_with_initial_propagation(given_values)`: seed the given cells
as singleton domains, strip the given values from peer domains one hop out,
run a cascading arc-consistency pass from the given cells (failing fast on a
wipe-out), stack only the unassigned variables and search from the givens. -/
def solve_with_initial_propagation (st : CSP) (given_values : Sol) : CSP × Bool :=
  let st := st.reset
  let st := st.vars.foldl swipInitStep st
  let st := given_values.foldl (swipSeedStep given_values) st
  let agenda := given_values.foldl
    (fun (ag : List (Nat × Nat)) p =>
      (bitToList (st.get_neighbors p.1)).foldl
        (fun ag nb =>
          if (given_values.get nb).isNone ∧ (nb, p.1) ∉ ag then ag ++ [(nb, p.1)]
          else ag)
        ag)
    []
  let fuel := ((st.vars.map (fun w => bitCard (st.current_domains w))).sum + 1)
      * (st.vars.length + 1) + agenda.length + 1
  let r := swipLoop fuel st given_values agenda
  if ¬ r.2 then (r.1, false)
  else
    let st := r.1
    let st := st.vars.foldl (swipStackStep given_values) st
    let b := backtrack (st.vars.length + 1) st given_values
    (b.1, b.2.1)

/-- `CSP.num_conflicts(v, d, solution)`: how many of `v`'s constraints the
tentative assignment `v = d` violates. -/
def num_conflicts (st : CSP) (v d : Nat) (solution : Sol) : Nat :=
  ((st.constraints v).filter (fun c => ¬ c.fn (solution.setKey v d))).length

/-- `CSP.conflicting_variables(solution)`. -/
def conflicting_variables (st : CSP) (solution : Sol) : List Nat :=
  st.vars.filter
    (fun v =>
      match solution.get v with
      | some d => st.num_conflicts v d solution > 0
      | none => false)

/-- `CSP.min_conflicting_value(v, solution)`: the first domain value (static
domain, in declaration order) with the fewest conflicts; `none` models the
`ValueError` of `min` over an empty domain. -/
def min_conflicting_value (st : CSP) (v : Nat) (solution : Sol) : Option Nat :=
  pyMinBy (st.domains v) (fun d => st.num_conflicts v d solution)

end CSP

/-- Swap two positions of a list. -/
def listSwap (l : List Nat) (i j : Nat) : List Nat :=
  let a := l.getD i 0
  let b := l.getD j 0
  (l.set i b).set j a

/-- `random.shuffle(x)` (Fisher-Yates): for `i` from `len-1` down to `1`,
swap position `i` with a random position `j ≤ i`; the random draws are the
explicit `draws` stream, reduced modulo `i + 1`. -/
def pyShuffle (draws : List Nat) (l : List Nat) : List Nat :=
  (((List.range l.length).reverse.dropLast).foldl
    (fun (acc : List Nat × List Nat) i =>
      let j := acc.2.headD 0 % (i + 1)
      (listSwap acc.1 i j, acc.2.tail))
    (l, draws)).1

/-- `random.choice(seq)` with an explicit draw: `none` on an empty sequence
(where CPython raises). -/
def pyChoice (draw : Nat) (l : List Nat) : Option Nat :=
  if l = [] then none else some (l.getD (draw % l.length) 0)

namespace CSP

/-- The hill-climbing iteration loop of `CSP.min_conflicts`: stop with
success as soon as no variable is conflicted, else reassign a random
conflicted variable to its least-conflicting value. -/
def mcLoop : Nat → CSP → Sol → List Nat → CSP × Bool
  | 0, st, _, _ => (st, false)
  | iters + 1, st, solution, choiceDraws =>
    let conflicted := st.conflicting_variables solution
    if conflicted.length = 0 then
      ({ st with solutions := st.solutions ++ [solution] }, true)
    else
      match pyChoice (choiceDraws.headD 0) conflicted with
      | none => (st, false)
      | some v =>
        match st.min_conflicting_value v solution with
        | none => (st, false)
        | some d => mcLoop iters st (solution.setKey v d) choiceDraws.tail

/-- `CSP.min_conflicts(iteration_count)` (the standalone
`local_search.min_conflicts` runs the identical algorithm against the same
instance): shuffle `self.variables` in place, greedily seed every variable
with its least-conflicting value, then hill-climb. -/
def min_conflicts (st : CSP) (shuffleDraws choiceDraws : List Nat)
    (iteration_count : Nat) : CSP × Bool :=
  let st := { st with vars := pyShuffle shuffleDraws st.vars }
  let greedy := st.vars.foldl
    (fun (sol : Sol) v =>
      match st.min_conflicting_value v sol with
      | none => sol
      | some d => sol.setKey v d)
    []
  mcLoop iteration_count st greedy choiceDraws

end CSP

/-! ## Concrete instances used to settle the claims -/

/-- The brute-force instance of testable property 2: three variables with
domain `{1,2,3}` under one all-different constraint, `max_solutions = 6`,
default forward checking and natural ordering. -/
def instC2 : CSP :=
  let st := CSP.mk' PruningType.FORWARD_CHECKING VariableOrdering.NO_ORDERING 6 false false
  let st := st.add_variables [1, 2, 3] [0, 1, 2]
  st.add_constraint (all_different_constraint [0, 1, 2])

/-- Exhaustive enumeration of all total assignments of `vs` over a shared
domain, as dictionaries in declaration order.  Modelled from the spec: the
brute-force comparator of testable property 2 ("the same solution set as
exhaustive enumeration"). -/
def allAssignments (vs : List Nat) (domain : List Nat) : List Sol :=
  match vs with
  | [] => [[]]
  | v :: rest =>
    (domain.map (fun d => (v, d))).flatMap
      (fun p => (allAssignments rest domain).map (fun s => p :: s))

/-- The exhaustive enumeration comparator for `instC2`: every total
assignment of the three variables over `{1,2,3}` accepted by the
all-different predicate. -/
def enumC2 : List Sol :=
  (allAssignments [0, 1, 2] [1, 2, 3]).filter
    (fun s => (all_different_constraint [0, 1, 2]).1.fn s)

/-- A two-variable ordering instance (`x0 < x1`, domains `{0,1}`,
`max_solutions = 2`) used to compare propagation strategies. -/
def instLt (pt : PruningType) : CSP :=
  let st := CSP.mk' pt VariableOrdering.NO_ORDERING 2 false false
  let st := st.add_variables [0, 1] [0, 1]
  st.add_constraint (less_than_constraint 0 1)

/-- An all-different instance on which GAC actually fires: two variables
with domain `{1,2}` and two with domain `{1,2,3,4}`, one all-different
constraint over all four, searched for up to ten solutions with forward
checking, optionally with GAC enabled. -/
def instGac (useGac : Bool) : CSP :=
  let st := CSP.mk' PruningType.FORWARD_CHECKING VariableOrdering.NO_ORDERING 10 useGac false
  let st := st.add_variables [1, 2] [0, 1]
  let st := st.add_variables [1, 2, 3, 4] [2, 3]
  st.add_constraint (all_different_constraint [0, 1, 2, 3])

/-- A satisfiable two-coloring instance (`x0 ≠ x1`, domains `{0,1}`,
single-solution mode): forward checking prunes on the solution path, and a
successful solve returns without restoring. -/
def instMc : CSP :=
  let st := CSP.mk' PruningType.FORWARD_CHECKING VariableOrdering.NO_ORDERING 1 false false
  let st := st.add_variables [0, 1] [0, 1]
  st.add_constraint (map_coloring_constraint 0 1)

/-- One variable with an empty domain and `max_solutions = 0`: the root
exhausts without recording anything. -/
def instC8 : CSP :=
  let st := CSP.mk' PruningType.FORWARD_CHECKING VariableOrdering.NO_ORDERING 0 false false
  st.add_variables [] [0]

/-- A constraint-free two-variable instance for exercising
`min_conflicts`. -/
def instC5 : CSP :=
  let st := CSP.mk' PruningType.FORWARD_CHECKING VariableOrdering.NO_ORDERING 1 false false
  st.add_variables [0] [0, 1]

/-- A one-variable all-different instance used to witness the soundness
theorem on a concrete solve. -/
def instC1 : CSP :=
  let st := CSP.mk' PruningType.FORWARD_CHECKING VariableOrdering.NO_ORDERING 1 false false
  let st := st.add_variables [1] [0]
  st.add_constraint (all_different_constraint [0])

/-! ## Specification predicates -/

/-- A constraint predicate is scope-local when its verdict depends only on
the assignment restricted to the scope `S` (true of every factory-built
predicate of `constraints.py`, which read the assignment only at their scope
variables). -/
def ScopeLocal (c : Constr) (S : List Nat) : Prop :=
  ∀ s t : Sol, (∀ u ∈ S, s.get u = t.get u) → c.fn s = c.fn t

/-- The registration discipline that `CSP.add_constraint` establishes: every
predicate found under a variable has a scope containing that variable, is
registered under every variable of its scope, is scope-local, and its scope
consists of registered variables. -/
def Registered (st : CSP) : Prop :=
  ∀ v, ∀ c ∈ st.constraints v,
    ∃ S : List Nat, v ∈ S ∧ (∀ u ∈ S, c ∈ st.constraints u) ∧ ScopeLocal c S ∧
      ∀ u ∈ S, u ∈ st.vars

/-- Well-formedness of a nogood store, as maintained by the operations of
`nogoods.py` from an empty store: at least one entry of capacity, stored
nogoods are distinct canonical nonempty key-distinct sets within the length
bound, the store and the per-variable index list each other exactly, and no
index list repeats an entry. -/
def NsWF (ns : NogoodStore) : Prop :=
  1 ≤ ns.max_entries ∧
  ns.store.Nodup ∧
  ns.store.length ≤ ns.max_entries ∧
  (∀ ng ∈ ns.store, (ng.map Prod.fst).Nodup) ∧
  (∀ ng ∈ ns.store, ∀ p ∈ ng, ng ∈ ns.varIndex p.1) ∧
  (∀ v, ∀ ng ∈ ns.varIndex v, ng ∈ ns.store ∧ ∃ val, (v, val) ∈ ng) ∧
  (∀ v, (ns.varIndex v).Nodup)

/-- One abstract operation against a nogood store, for stating invariants
over arbitrary operation sequences. -/
inductive NsOp
  | put (conflict_assignments : List (Nat × Nat))
  | query (var value : Nat) (solution : Sol)
  | clr

/-- Apply one operation. -/
def nsApply (ns : NogoodStore) : NsOp → NogoodStore
  | NsOp.put ca => ns.record ca
  | NsOp.query var value solution => (ns.is_nogood var value solution).2
  | NsOp.clr => ns.clear

/-- Run an operation sequence against the freshly constructed store
(`NogoodStore(max_length, max_entries)`). -/
def nsRun (max_length max_entries : Nat) (ops : List NsOp) : NogoodStore :=
  ops.foldl nsApply { max_length := max_length, max_entries := max_entries }

/-- The keys mentioned by an operation. -/
def nsOpKeys : NsOp → List Nat
  | NsOp.put ca => ca.map Prod.fst
  | _ => []

/-- Every recorded conflict assignment is dict-shaped (distinct keys), as the
dictionaries `CSP.backtrack` builds always are. -/
abbrev NsOpsOk (ops : List NsOp) : Prop :=
  ∀ op ∈ ops, (nsOpKeys op).Nodup

/-- The fields untouched by the in-level mutation helpers of one search
level (pruning, GAC propagation, restoration, the per-candidate tail):
everything except the current domains, the conflict sets, the
residual-support cache, the backtrack counter and this level's own pruned
log. -/
def PruneFrame (v : Nat) (st st' : CSP) : Prop :=
  st'.pruning_type = st.pruning_type ∧
  st'.variable_ordering = st.variable_ordering ∧
  st'.max_solutions = st.max_solutions ∧
  st'.vars = st.vars ∧
  st'.constraints = st.constraints ∧
  st'.domains = st.domains ∧
  st'.variable_stack = st.variable_stack ∧
  st'.neighbors = st.neighbors ∧
  st'.solutions = st.solutions ∧
  st'.constraint_id = st.constraint_id ∧
  st'.constraint_weights = st.constraint_weights ∧
  st'.var_constraint_ids = st.var_constraint_ids ∧
  st'.use_gac_alldiff = st.use_gac_alldiff ∧
  st'.alldiff_groups = st.alldiff_groups ∧
  st'.nogood_store = st.nogood_store ∧
  ∀ w, w ≠ v → st'.pruned_map w = st.pruned_map w

/-- What a whole backtracking call preserves: the static problem structure
and configuration, the bounds and presence of the nogood store (equal once
cleared), and — except under dom/wdeg ordering, whose failure counting
mutates them — the constraint weights. -/
def SearchFrame (st st' : CSP) : Prop :=
  st'.pruning_type = st.pruning_type ∧
  st'.variable_ordering = st.variable_ordering ∧
  st'.max_solutions = st.max_solutions ∧
  st'.vars = st.vars ∧
  st'.constraints = st.constraints ∧
  st'.domains = st.domains ∧
  st'.neighbors = st.neighbors ∧
  st'.constraint_id = st.constraint_id ∧
  st'.var_constraint_ids = st.var_constraint_ids ∧
  st'.use_gac_alldiff = st.use_gac_alldiff ∧
  st'.alldiff_groups = st.alldiff_groups ∧
  st'.nogood_store.map NogoodStore.clear = st.nogood_store.map NogoodStore.clear ∧
  (st.variable_ordering ≠ VariableOrdering.DOM_WDEG →
    st'.constraint_weights = st.constraint_weights)

/-- The conclusion bundle of the master lemma about one `CSP.backtrack`
call `r = backtrack fuel st sol`: the search frame; the pruned logs of
unregistered variables untouched; on failure the assignment restored
exactly, the pending stack restored up to order, and — when every pending
variable entered with an empty pruned log — every pruned log restored
exactly; solutions only ever appended; success means the requested count
was reached, and failure (entered below the requested count) means it still
is not reached. -/
def BktOut (st : CSP) (sol : Sol) (r : CSP × Bool × Sol) : Prop :=
  SearchFrame st r.1 ∧
  (∀ w, w ∉ st.vars → r.1.pruned_map w = st.pruned_map w) ∧
  (r.2.1 = false → r.2.2 = sol) ∧
  (r.2.1 = false → r.1.variable_stack.Perm st.variable_stack) ∧
  (r.2.1 = false → st.variable_stack.Nodup →
    (∀ w ∈ st.variable_stack, st.pruned_map w = fun _ => 0) →
    ∀ w, r.1.pruned_map w = st.pruned_map w) ∧
  (∃ extra, r.1.solutions = st.solutions ++ extra) ∧
  (r.2.1 = true → r.1.solutions.length ≥ st.max_solutions) ∧
  (st.solutions.length < st.max_solutions → r.2.1 = false →
    r.1.solutions.length < st.max_solutions)

/-- The analogous bundle for the candidate-value loop `CSP.tryValues` at
level variable `v` (which the dead-end tail pushes back on the stack). -/
def TVOut (st : CSP) (v : Nat) (sol : Sol) (r : CSP × Bool × Sol) : Prop :=
  SearchFrame st r.1 ∧
  (∀ w, w ∉ st.vars → r.1.pruned_map w = st.pruned_map w) ∧
  (r.2.1 = false → r.2.2 = sol) ∧
  (r.2.1 = false → r.1.variable_stack.Perm (st.variable_stack ++ [v])) ∧
  (r.2.1 = false → v ∉ st.variable_stack → st.variable_stack.Nodup →
    (∀ w ∈ st.variable_stack, st.pruned_map w = fun _ => 0) →
    st.pruned_map v = (fun _ => 0) →
    ∀ w, r.1.pruned_map w = st.pruned_map w) ∧
  (∃ extra, r.1.solutions = st.solutions ++ extra) ∧
  (r.2.1 = true → r.1.solutions.length ≥ st.max_solutions) ∧
  (st.solutions.length < st.max_solutions → r.2.1 = false →
    r.1.solutions.length < st.max_solutions)

/-- The invariant that carries the static structures (and the
stack-is-registered fact) through `solve_with_initial_propagation`. -/
def StaticsInv (st s : CSP) : Prop :=
  s.vars = st.vars ∧ s.domains = st.domains ∧ s.constraints = st.constraints ∧
  s.neighbors = st.neighbors ∧ ∀ w ∈ s.variable_stack, w ∈ st.vars

/-- Goodness of a complete assignment: every constraint registered under
any registered variable accepts it. -/
def GoodSol (V : List Nat) (C : Nat → List Constr) (s : Sol) : Prop :=
  ∀ v ∈ V, ∀ c ∈ C v, c.fn s = true

/-- The running soundness invariant of the search: any constraint that is
registered under a variable, registered under its whole scope, scope-local,
and whose whole scope is assigned, accepts the current partial
assignment. -/
def SolInv (C : Nat → List Constr) (sol : Sol) : Prop :=
  ∀ v c S, c ∈ C v → v ∈ S → (∀ u ∈ S, c ∈ C u) → ScopeLocal c S →
    (∀ u ∈ S, (Sol.get sol u).isSome = true) → c.fn sol = true

/-- The premises carried through the soundness induction: fixed statics, a
duplicate-free pending stack of unassigned variables, the running
invariant, and a duplicate-free assignment over registered variables. -/
def SPre (V : List Nat) (C : Nat → List Constr) (st : CSP) (sol : Sol) :
    Prop :=
  st.vars = V ∧ st.constraints = C ∧ st.variable_stack.Nodup ∧
  SolInv C sol ∧ (∀ k ∈ st.variable_stack, sol.get k = none) ∧
  sol.keys.Nodup ∧ (∀ k ∈ sol.keys, k ∈ V)

/-- The soundness conclusion: the solutions list is only ever extended with
good assignments. -/
def SOut (V : List Nat) (C : Nat → List Constr) (st : CSP)
    (r : CSP × Bool × Sol) : Prop :=
  ∀ s ∈ r.1.solutions, s ∈ st.solutions ∨ GoodSol V C s

/-! ## Claim theorems: concrete behaviour -/

/-- C9: calling `solve()` on a CSP instance with zero registered variables and
the default `max_solutions = 1` returns `true` and produces exactly one
solution, the empty assignment. -/
theorem claim9_empty_problem :
    (({} : CSP).solve).2 = true ∧ (({} : CSP).solve).1.solutions = [[]] := by
  constructor <;> rfl

/-- C2: for the brute-force-checkable instance — three variables with domain
`{1,2,3}` under one all-different constraint over all three, solved with
`max_solutions = 6` ≥ the number of valid assignments — `solve()` returns
exactly the solution set of exhaustive enumeration: the same multiset of
assignments (so none missing), with no duplicates. -/
theorem claim2_completeness_small :
    ((instC2.solve).1.solutions : Multiset Sol) = (enumC2 : Multiset Sol) ∧
      (instC2.solve).1.solutions.Nodup ∧ (instC2.solve).1.solutions.length = 6 := by
  refine ⟨by decide, by decide, by decide⟩

/-- C3 fails as stated: on the fixed instance `instLt` (variables `{0,1}`,
domains `{0,1}`, the constraint `x0 < x1`, `max_solutions = 2`, natural
ordering), running `solve()` with AC3 pruning yields backtrack count 4 while
plain forward checking yields 3 — strictly more, contradicting "AC3 … yields
a backtrack_count no greater than … plain forward checking".  (The cause:
`revise` looks for support among all values still in the assigned variable's
current domain, not just its assigned value, so AC3 prunes less than forward
checking at the first hop.) -/
theorem claim3_counterexample :
    ¬ (((instLt PruningType.AC3).solve).1.backtrack_count ≤
        ((instLt PruningType.FORWARD_CHECKING).solve).1.backtrack_count) := by
  decide

/-- C3 amended: stronger propagation does not dominate plain forward checking
in backtrack count: with AC3 on `instLt` the count is 4 against 3 for forward
checking, though the two configurations agree there on whether a solution
exists; on the all-different instance `instGac` (where the GAC propagator
actually fires), enabling GAC yields a backtrack count no greater than plain
forward checking and an identical solutions list. -/
theorem claim3_propagation_amended :
    ((instLt PruningType.AC3).solve).1.backtrack_count = 4 ∧
    ((instLt PruningType.FORWARD_CHECKING).solve).1.backtrack_count = 3 ∧
    (((instLt PruningType.AC3).solve).1.solutions = [] ↔
      ((instLt PruningType.FORWARD_CHECKING).solve).1.solutions = []) ∧
    ((instGac true).solve).1.backtrack_count ≤
      ((instGac false).solve).1.backtrack_count ∧
    ((instGac true).solve).1.solutions = ((instGac false).solve).1.solutions := by
  refine ⟨by decide, by decide, by decide, by decide, by decide⟩

/-- C4 fails as stated: after the completed, successful `solve()` call on
`instMc` (two variables `{0,1}`, domains `{0,1}`, one `x0 ≠ x1` constraint,
single-solution mode), the pruned-value log of registered variable `1` still
holds value `0` pruned from variable `0`: a child success returns through
`if self.backtrack(solution): return True` without `restore_pruned_domains`,
so logs along the solution path are not drained. -/
theorem claim4_counterexample :
    (instMc.solve).2 = true ∧ 1 ∈ instMc.vars ∧
      (instMc.solve).1.pruned_map 1 0 ≠ 0 := by
  refine ⟨rfl, by decide, by decide⟩

/-- C5 fails as stated: `min_conflicts` reorders the `variables` list in
place (`random.shuffle(self.variables)`).  On the constraint-free instance
`instC5` with a draw stream that swaps the two variables, the list after the
call differs from the list before it. -/
theorem claim5_counterexample :
    (instC5.min_conflicts [0] [] 10).1.vars ≠ instC5.vars := by decide

/-- C8 fails as stated at `max_solutions = 0`: on `instC8` (one variable with
an empty domain, `max_solutions = 0`) `solve()` exhausts the root and returns
`false` even though the number of collected solutions (zero) has reached the
requested maximum, so "returns true exactly when `len(solutions) >=
max_solutions`" is violated. -/
theorem claim8_counterexample :
    ¬ ((instC8.solve).2 = true ↔
        (instC8.solve).1.solutions.length ≥ instC8.max_solutions) := by
  decide

/-! ## Nogood store: invariants and lookup semantics -/

theorem updFn_same {α : Type} (f : Nat → α) (k : Nat) (a : α) : updFn f k a k = a := by
  simp [updFn]

theorem updFn_other {α : Type} (f : Nat → α) (k n : Nat) (a : α) (h : n ≠ k) :
    updFn f k a n = f n := by
  simp [updFn, h]


theorem idxEraseStep_eval (e : Ng) (idx : Nat → List Ng) (p : Nat × Nat) (v : Nat) :
    idxEraseStep e idx p v = if v = p.1 then (idx p.1).erase e else idx v := by
  simp [idxEraseStep, updFn]

theorem idxAppendStep_eval (ng0 : Ng) (idx : Nat → List Ng) (p : Nat × Nat) (v : Nat) :
    idxAppendStep ng0 idx p v = if v = p.1 then idx p.1 ++ [ng0] else idx v := by
  simp [idxAppendStep, updFn]

theorem idxEraseFold_mem (e : Ng) :
    ∀ (l : List (Nat × Nat)) (idx : Nat → List Ng) (v : Nat) (ng : Ng),
      ng ∈ (l.foldl (idxEraseStep e) idx) v → ng ∈ idx v := by
  intro l
  induction l with
  | nil => intro idx v ng h; exact h
  | cons p rest ih =>
    intro idx v ng h
    have h2 := ih _ v ng h
    rw [idxEraseStep_eval] at h2
    split at h2
    · next hv => exact hv ▸ List.mem_of_mem_erase h2
    · exact h2

theorem idxEraseFold_nodup (e : Ng) :
    ∀ (l : List (Nat × Nat)) (idx : Nat → List Ng), (∀ v, (idx v).Nodup) →
      ∀ v, ((l.foldl (idxEraseStep e) idx) v).Nodup := by
  intro l
  induction l with
  | nil => intro idx h v; exact h v
  | cons p rest ih =>
    intro idx h v
    refine ih _ (fun w => ?_) v
    rw [idxEraseStep_eval]
    split
    · exact (h _).erase e
    · exact h w

theorem idxEraseFold_absent_mono (e : Ng) :
    ∀ (l : List (Nat × Nat)) (idx : Nat → List Ng) (v : Nat), e ∉ idx v →
      e ∉ (l.foldl (idxEraseStep e) idx) v := by
  intro l
  induction l with
  | nil => intro idx v h; exact h
  | cons p rest ih =>
    intro idx v h
    refine ih _ v ?_
    rw [idxEraseStep_eval]
    split
    · next hv => exact fun hc => h (hv ▸ List.mem_of_mem_erase hc)
    · exact h

theorem idxEraseFold_absent (e : Ng) :
    ∀ (l : List (Nat × Nat)) (idx : Nat → List Ng), (∀ v, (idx v).Nodup) →
      ∀ p ∈ l, e ∉ (l.foldl (idxEraseStep e) idx) p.1 := by
  intro l
  induction l with
  | nil => intro idx _ p hp; cases hp
  | cons q rest ih =>
    intro idx hnd p hp
    rcases List.mem_cons.1 hp with rfl | hp
    · rw [List.foldl_cons]
      apply idxEraseFold_absent_mono
      rw [idxEraseStep_eval, if_pos rfl]
      exact (hnd p.1).not_mem_erase
    · refine ih _ (fun w => ?_) p hp
      rw [idxEraseStep_eval]
      split
      · exact (hnd _).erase e
      · exact hnd w

theorem idxEraseFold_keep (e : Ng) :
    ∀ (l : List (Nat × Nat)) (idx : Nat → List Ng) (v : Nat) (ng : Ng), ng ≠ e →
      ng ∈ idx v → ng ∈ (l.foldl (idxEraseStep e) idx) v := by
  intro l
  induction l with
  | nil => intro idx v ng _ h; exact h
  | cons p rest ih =>
    intro idx v ng hne h
    refine ih _ v ng hne ?_
    rw [idxEraseStep_eval]
    split
    · next hv => exact (List.mem_erase_of_ne hne).2 (hv ▸ h)
    · exact h

theorem idxAppendFold_mem (ng0 : Ng) :
    ∀ (l : List (Nat × Nat)) (idx : Nat → List Ng) (v : Nat) (m : Ng),
      m ∈ (l.foldl (idxAppendStep ng0) idx) v →
        m ∈ idx v ∨ (m = ng0 ∧ v ∈ l.map Prod.fst) := by
  intro l
  induction l with
  | nil => intro idx v m h; exact Or.inl h
  | cons p rest ih =>
    intro idx v m h
    rcases ih _ v m h with h2 | ⟨rfl, hv⟩
    · rw [idxAppendStep_eval] at h2
      split at h2
      · next hv =>
        rcases List.mem_append.1 h2 with h3 | h3
        · exact Or.inl (hv ▸ h3)
        · exact Or.inr ⟨List.mem_singleton.1 h3, by simp [hv]⟩
      · exact Or.inl h2
    · exact Or.inr ⟨rfl, by simp [hv]⟩

theorem idxAppendFold_keep (ng0 : Ng) :
    ∀ (l : List (Nat × Nat)) (idx : Nat → List Ng) (v : Nat) (m : Ng),
      m ∈ idx v → m ∈ (l.foldl (idxAppendStep ng0) idx) v := by
  intro l
  induction l with
  | nil => intro idx v m h; exact h
  | cons p rest ih =>
    intro idx v m h
    refine ih _ v m ?_
    rw [idxAppendStep_eval]
    split
    · next hv => exact List.mem_append_left _ (hv ▸ h)
    · exact h

theorem idxAppendFold_self (ng0 : Ng) :
    ∀ (l : List (Nat × Nat)) (idx : Nat → List Ng), ∀ p ∈ l,
      ng0 ∈ (l.foldl (idxAppendStep ng0) idx) p.1 := by
  intro l
  induction l with
  | nil => intro idx p hp; cases hp
  | cons q rest ih =>
    intro idx p hp
    rcases List.mem_cons.1 hp with rfl | hp
    · rw [List.foldl_cons]
      apply idxAppendFold_keep
      rw [idxAppendStep_eval, if_pos rfl]
      exact List.mem_append_right _ (List.mem_singleton.2 rfl)
    · exact ih _ p hp

theorem idxAppendFold_nodup (ng0 : Ng) :
    ∀ (l : List (Nat × Nat)) (idx : Nat → List Ng), (∀ v, (idx v).Nodup) →
      (∀ p ∈ l, ng0 ∉ idx p.1) → (l.map Prod.fst).Nodup →
      ∀ v, ((l.foldl (idxAppendStep ng0) idx) v).Nodup := by
  intro l
  induction l with
  | nil => intro idx h _ _ v; exact h v
  | cons p rest ih =>
    intro idx hnd habs hkeys v
    have hkey : p.1 ∉ rest.map Prod.fst := by
      simp only [List.map_cons, List.nodup_cons] at hkeys
      exact hkeys.1
    refine ih _ (fun w => ?_) (fun q hq => ?_) ?_ v
    · rw [idxAppendStep_eval]
      split
      · refine List.Nodup.append (hnd _) (List.nodup_singleton _) ?_
        intro a ha hb
        rw [List.mem_singleton.1 hb] at ha
        exact habs p (List.mem_cons_self p rest) ha
      · exact hnd w
    · have hq1 : q.1 ≠ p.1 := by
        intro hc
        exact hkey (hc ▸ List.mem_map_of_mem Prod.fst hq)
      rw [idxAppendStep_eval, if_neg hq1]
      exact habs q (List.mem_cons_of_mem _ hq)
    · simp only [List.map_cons, List.nodup_cons] at hkeys
      exact hkeys.2

theorem findMatch_mem (v val : Nat) (sol : Sol) :
    ∀ (l : List Ng) (ng : Ng), NogoodStore.findMatch v val sol l = some ng → ng ∈ l := by
  intro l
  induction l with
  | nil => intro ng h; cases h
  | cons x rest ih =>
    intro ng h
    rw [NogoodStore.findMatch] at h
    split at h
    · exact (Option.some_injective _ h) ▸ List.mem_cons_self x rest
    · exact List.mem_cons_of_mem _ (ih ng h)

theorem findMatch_matches (v val : Nat) (sol : Sol) :
    ∀ (l : List Ng) (ng : Ng), NogoodStore.findMatch v val sol l = some ng →
      NogoodStore.ngMatches v val sol ng = true := by
  intro l
  induction l with
  | nil => intro ng h; cases h
  | cons x rest ih =>
    intro ng h
    rw [NogoodStore.findMatch] at h
    split at h
    · cases h; assumption
    · exact ih ng h

theorem findMatch_isSome (v val : Nat) (sol : Sol) :
    ∀ (l : List Ng), (∃ ng ∈ l, NogoodStore.ngMatches v val sol ng = true) →
      (NogoodStore.findMatch v val sol l).isSome := by
  intro l
  induction l with
  | nil => rintro ⟨ng, h, _⟩; cases h
  | cons x rest ih =>
    rintro ⟨ng, hmem, hm⟩
    rw [NogoodStore.findMatch]
    split
    · rfl
    · next hx =>
      rcases List.mem_cons.1 hmem with rfl | hmem
      · exact absurd hm hx
      · exact ih ⟨ng, hmem, hm⟩

theorem ngMatches_iff (v val : Nat) (sol : Sol) (ng : Ng) :
    NogoodStore.ngMatches v val sol ng = true ↔
      (v, val) ∈ ng ∧ ∀ p ∈ ng, p.1 ≠ v → sol.get p.1 = some p.2 := by
  simp only [NogoodStore.ngMatches, Bool.and_eq_true, decide_eq_true_eq,
    List.all_eq_true, Bool.or_eq_true, beq_iff_eq]
  constructor
  · rintro ⟨h1, h2⟩
    exact ⟨h1, fun p hp hne => ((h2 p hp).resolve_left hne)⟩
  · rintro ⟨h1, h2⟩
    refine ⟨h1, fun p hp => ?_⟩
    by_cases hv : p.1 = v
    · exact Or.inl hv
    · exact Or.inr (h2 p hp hv)

theorem moveToEnd_perm {α : Type} [BEq α] [LawfulBEq α] {store : List α} {ng : α}
    (h : ng ∈ store) : (store.erase ng ++ [ng]).Perm store := by
  induction store with
  | nil => cases h
  | cons x rest ih =>
    rw [List.erase_cons]
    by_cases hx : (x == ng) = true
    · rw [if_pos hx]
      have : x = ng := eq_of_beq hx
      subst this
      exact List.perm_append_singleton _ _
    · rw [if_neg hx]
      have hne : x ≠ ng := fun hc => hx (beq_iff_eq.2 hc)
      have hmem : ng ∈ rest := by
        rcases List.mem_cons.1 h with rfl | h2
        · exact absurd rfl hne
        · exact h2
      exact (ih hmem).cons x

theorem nsWF_is_nogood {ns : NogoodStore} (hwf : NsWF ns) (v val : Nat) (sol : Sol) :
    NsWF (ns.is_nogood v val sol).2 := by
  obtain ⟨hme, hnd, hlen, hkeys, hsi, his, hind⟩ := hwf
  rw [NogoodStore.is_nogood]
  split
  · next ng hfm =>
    have hm : ng ∈ ns.varIndex v := findMatch_mem _ _ _ _ _ hfm
    have hst : ng ∈ ns.store := (his v ng hm).1
    have hperm := moveToEnd_perm hst
    refine ⟨hme, hperm.nodup_iff.2 hnd, ?_, ?_, ?_, ?_, hind⟩
    · rw [hperm.length_eq]; exact hlen
    · exact fun m hm2 => hkeys m (hperm.mem_iff.1 hm2)
    · exact fun m hm2 p hp => hsi m (hperm.mem_iff.1 hm2) p hp
    · exact fun w m hm2 => ⟨hperm.mem_iff.2 (his w m hm2).1, (his w m hm2).2⟩
  · exact ⟨hme, hnd, hlen, hkeys, hsi, his, hind⟩

theorem nsWF_clear {ns : NogoodStore} (hwf : NsWF ns) : NsWF ns.clear := by
  refine ⟨hwf.1, List.nodup_nil, by simp [NogoodStore.clear], ?_, ?_, ?_, ?_⟩ <;>
    simp [NogoodStore.clear]

theorem nsWF_append_core (ml me : Nat) (store1 : List Ng) (idx1 : Nat → List Ng)
    (ng : Ng) (hme : 1 ≤ me) (hnd1 : store1.Nodup) (hlen1 : store1.length + 1 ≤ me)
    (hkeys1 : ∀ m ∈ store1, (m.map Prod.fst).Nodup)
    (hngkeys : (ng.map Prod.fst).Nodup)
    (hsi1 : ∀ m ∈ store1, ∀ p ∈ m, m ∈ idx1 p.1)
    (his1 : ∀ v, ∀ m ∈ idx1 v, m ∈ store1 ∧ ∃ val, (v, val) ∈ m)
    (hind1 : ∀ v, (idx1 v).Nodup)
    (hnot : ng ∉ store1) :
    NsWF { max_length := ml, max_entries := me, store := store1 ++ [ng],
           varIndex := ng.foldl (idxAppendStep ng) idx1 } := by
  have habs : ∀ p ∈ ng, ng ∉ idx1 p.1 := by
    intro p _ hc
    exact hnot (his1 p.1 ng hc).1
  refine ⟨hme, ?_, ?_, ?_, ?_, ?_, ?_⟩
  · exact List.Nodup.append hnd1 (List.nodup_singleton _)
      (by intro a ha hb; rw [List.mem_singleton.1 hb] at ha; exact hnot ha)
  · simpa using hlen1
  · intro m hm
    rcases List.mem_append.1 hm with hm | hm
    · exact hkeys1 m hm
    · exact (List.mem_singleton.1 hm) ▸ hngkeys
  · intro m hm p hp
    rcases List.mem_append.1 hm with hm | hm
    · exact idxAppendFold_keep ng ng idx1 p.1 m (hsi1 m hm p hp)
    · exact (List.mem_singleton.1 hm) ▸ idxAppendFold_self ng ng idx1 p
        ((List.mem_singleton.1 hm) ▸ hp)
  · intro w m hm
    rcases idxAppendFold_mem ng ng idx1 w m hm with hm2 | ⟨rfl, hw⟩
    · exact ⟨List.mem_append_left _ (his1 w m hm2).1, (his1 w m hm2).2⟩
    · refine ⟨List.mem_append_right _ (List.mem_singleton.2 rfl), ?_⟩
      rcases List.mem_map.1 hw with ⟨p, hp, hpe⟩
      exact ⟨p.2, by rw [← hpe]; exact hp⟩
  · exact idxAppendFold_nodup ng ng idx1 hind1 habs hngkeys

theorem nsWF_record {ns : NogoodStore} (hwf : NsWF ns) (ca : List (Nat × Nat))
    (hca : (ca.map Prod.fst).Nodup) : NsWF (ns.record ca) := by
  obtain ⟨hme, hnd, hlen, hkeys, hsi, his, hind⟩ := hwf
  rw [NogoodStore.record]
  by_cases hguard : ca.length > ns.max_length ∨ ca = []
  · rw [if_pos hguard]; exact ⟨hme, hnd, hlen, hkeys, hsi, his, hind⟩
  · rw [if_neg hguard]
    have hngkeys : ((ngCanon ca).map Prod.fst).Nodup :=
      ((List.perm_insertionSort _ ca).map Prod.fst).nodup_iff.2 hca
    dsimp only
    by_cases hmem : ngCanon ca ∈ ns.store
    · rw [if_pos hmem]
      have hperm := moveToEnd_perm hmem
      refine ⟨hme, hperm.nodup_iff.2 hnd, ?_, ?_, ?_, ?_, hind⟩
      · rw [hperm.length_eq]; exact hlen
      · exact fun m hm2 => hkeys m (hperm.mem_iff.1 hm2)
      · exact fun m hm2 p hp => hsi m (hperm.mem_iff.1 hm2) p hp
      · exact fun w m hm2 => ⟨hperm.mem_iff.2 (his w m hm2).1, (his w m hm2).2⟩
    · rw [if_neg hmem]
      by_cases hcap : ns.store.length ≥ ns.max_entries
      · rw [if_pos hcap]
        cases hstore : ns.store with
        | nil =>
          rw [hstore] at hcap
          simp only [List.length_nil] at hcap
          omega
        | cons evicted rest =>
          rw [hstore] at hnd hlen hkeys hsi hmem
          have hev : evicted ∉ rest := (List.nodup_cons.1 hnd).1
          apply nsWF_append_core
          · exact hme
          · exact (List.nodup_cons.1 hnd).2
          · simpa using hlen
          · exact fun m hm => hkeys m (List.mem_cons_of_mem _ hm)
          · exact hngkeys
          · intro m hm p hp
            have hmne : m ≠ evicted := fun hc => hev (hc ▸ hm)
            exact idxEraseFold_keep evicted evicted ns.varIndex p.1 m hmne
              (hsi m (List.mem_cons_of_mem _ hm) p hp)
          · intro w m hm
            have hmidx : m ∈ ns.varIndex w :=
              idxEraseFold_mem evicted evicted ns.varIndex w m hm
            have h2 := his w m hmidx
            rw [hstore] at h2
            rcases List.mem_cons.1 h2.1 with rfl | hmr
            · exfalso
              rcases h2.2 with ⟨val, hval⟩
              exact idxEraseFold_absent m m ns.varIndex hind (w, val) hval hm
            · exact ⟨hmr, h2.2⟩
          · exact idxEraseFold_nodup evicted evicted ns.varIndex hind
          · exact fun hc => hmem (List.mem_cons_of_mem _ hc)
      · rw [if_neg hcap]
        apply nsWF_append_core ns.max_length ns.max_entries ns.store ns.varIndex
          (ngCanon ca) hme hnd (by omega) hkeys hngkeys hsi his hind hmem

theorem nsWF_apply {ns : NogoodStore} (hwf : NsWF ns) (op : NsOp)
    (hop : (nsOpKeys op).Nodup) : NsWF (nsApply ns op) := by
  cases op with
  | put ca => exact nsWF_record hwf ca hop
  | query v val sol => exact nsWF_is_nogood hwf v val sol
  | clr => exact nsWF_clear hwf

theorem nsWF_foldl :
    ∀ (ops : List NsOp) (ns : NogoodStore), NsWF ns → NsOpsOk ops →
      NsWF (ops.foldl nsApply ns) := by
  intro ops
  induction ops with
  | nil => intro ns h _; exact h
  | cons op rest ih =>
    intro ns h hok
    rw [List.foldl_cons]
    exact ih _ (nsWF_apply h op (hok op (List.mem_cons_self _ _)))
      (fun o ho => hok o (List.mem_cons_of_mem _ ho))

theorem nsWF_empty (ml me : Nat) (hme : 1 ≤ me) :
    NsWF { max_length := ml, max_entries := me } := by
  refine ⟨hme, List.nodup_nil, by simp, ?_, ?_, ?_, ?_⟩ <;> simp

theorem nsWF_run (ml me : Nat) (ops : List NsOp) (hme : 1 ≤ me)
    (hok : NsOpsOk ops) : NsWF (nsRun ml me ops) :=
  nsWF_foldl ops _ (nsWF_empty ml me hme) hok

theorem nsApply_fields (ns : NogoodStore) (op : NsOp) :
    (nsApply ns op).max_length = ns.max_length ∧
      (nsApply ns op).max_entries = ns.max_entries := by
  cases op with
  | put ca =>
    rw [nsApply, NogoodStore.record]
    split
    · exact ⟨rfl, rfl⟩
    · dsimp only
      split
      · exact ⟨rfl, rfl⟩
      · split <;> cases h : ns.store <;> exact ⟨rfl, rfl⟩
  | query v val sol =>
    rw [nsApply, NogoodStore.is_nogood]
    split <;> exact ⟨rfl, rfl⟩
  | clr => exact ⟨rfl, rfl⟩

theorem nsRun_fields (ml me : Nat) (ops : List NsOp) :
    (nsRun ml me ops).max_length = ml ∧ (nsRun ml me ops).max_entries = me := by
  rw [nsRun]
  generalize hns : ({ max_length := ml, max_entries := me } : NogoodStore) = ns
  have hml : ns.max_length = ml := by rw [← hns]
  have hme : ns.max_entries = me := by rw [← hns]
  clear hns
  induction ops generalizing ns with
  | nil => exact ⟨hml, hme⟩
  | cons op rest ih =>
    rw [List.foldl_cons]
    exact ih _ ((nsApply_fields ns op).1.trans hml)
      ((nsApply_fields ns op).2.trans hme)

/-- C6: `NogoodStore.is_nogood(var, val, partial_assignment)`, on any
well-formed store, returns true iff some currently stored nogood contains the
pair `(var, val)` and every pair of that nogood for another variable matches
the partial assignment's value for that variable; a true result moves the
matched nogood to the recency end of the store, and a false result (in
particular for any combination never recorded and not currently stored)
leaves the store untouched. -/
theorem claim6_is_nogood_iff (ns : NogoodStore) (hwf : NsWF ns) (v val : Nat)
    (sol : Sol) :
    ((ns.is_nogood v val sol).1 = true ↔
      ∃ ng ∈ ns.store, (v, val) ∈ ng ∧
        ∀ p ∈ ng, p.1 ≠ v → sol.get p.1 = some p.2) ∧
    (∀ ng, NogoodStore.findMatch v val sol (ns.varIndex v) = some ng →
      ng ∈ ns.store ∧
        (ns.is_nogood v val sol).2.store = ns.store.erase ng ++ [ng]) ∧
    ((ns.is_nogood v val sol).1 = false → (ns.is_nogood v val sol).2 = ns) := by
  obtain ⟨hme, hnd, hlen, hkeys, hsi, his, hind⟩ := hwf
  refine ⟨⟨?_, ?_⟩, ?_, ?_⟩
  · intro h
    rw [NogoodStore.is_nogood] at h
    rcases hfm : NogoodStore.findMatch v val sol (ns.varIndex v) with _ | ng
    · rw [hfm] at h; simp at h
    · have hmem := findMatch_mem _ _ _ _ _ hfm
      have hmatches := findMatch_matches _ _ _ _ _ hfm
      rcases (ngMatches_iff v val sol ng).1 hmatches with ⟨h1, h2⟩
      exact ⟨ng, (his v ng hmem).1, h1, h2⟩
  · rintro ⟨ng, hst, h1, h2⟩
    have hidx : ng ∈ ns.varIndex v := hsi ng hst (v, val) h1
    have hsome := findMatch_isSome v val sol (ns.varIndex v)
      ⟨ng, hidx, (ngMatches_iff v val sol ng).2 ⟨h1, h2⟩⟩
    rw [NogoodStore.is_nogood]
    rcases hfm : NogoodStore.findMatch v val sol (ns.varIndex v) with _ | ng2
    · rw [hfm] at hsome; cases hsome
    · rfl
  · intro ng hfm
    refine ⟨(his v ng (findMatch_mem _ _ _ _ _ hfm)).1, ?_⟩
    rw [NogoodStore.is_nogood, hfm]
  · intro h
    rw [NogoodStore.is_nogood] at h ⊢
    rcases hfm : NogoodStore.findMatch v val sol (ns.varIndex v) with _ | ng
    · rfl
    · rw [hfm] at h; simp at h

/-- C6 witness: a freshly recorded nogood `{0: 1, 1: 2}` reports
`is_nogood(0, 1, {1: 2})` true and `is_nogood(0, 1, {1: 3})` false. -/
theorem claim6_is_nogood_iff_witness :
    (((nsRun 6 1000 [NsOp.put [(0, 1), (1, 2)]]).is_nogood 0 1 [(1, 2)]).1 = true) ∧
    (((nsRun 6 1000 [NsOp.put [(0, 1), (1, 2)]]).is_nogood 0 1 [(1, 3)]).1 = false) := by
  have hwf : NsWF (nsRun 6 1000 [NsOp.put [(0, 1), (1, 2)]]) :=
    nsWF_run 6 1000 _ (by decide) (by decide)
  constructor
  · exact ((claim6_is_nogood_iff _ hwf 0 1 [(1, 2)]).1).2
      ⟨[(0, 1), (1, 2)], by decide, by decide, by decide⟩
  · have hiff := (claim6_is_nogood_iff _ hwf 0 1 [(1, 3)]).1
    rw [Bool.eq_false_iff]
    intro hb
    rcases hiff.1 hb with ⟨ng, hng, _, hmatch⟩
    have hstore : (nsRun 6 1000 [NsOp.put [(0, 1), (1, 2)]]).store =
        [[(0, 1), (1, 2)]] := by decide
    rw [hstore] at hng
    cases List.mem_singleton.1 hng
    exact absurd (hmatch (1, 2) (by decide) (by decide)) (by decide)

/-- C10: after any sequence of record / is_nogood / clear operations on a
freshly constructed store (capacity at least one entry, conflict assignments
dict-shaped), the number of stored nogoods never exceeds `max_entries`, the
store holds no duplicates, every stored nogood is listed in the per-variable
index of each variable it mentions and the index only lists stored nogoods;
recording a nogood whose pair set is already stored permutes (refreshes) the
store without changing its members or creating a duplicate; and a record at
capacity evicts the least recent nogood, which afterwards is absent from both
the store and every index list. -/
theorem claim10_nogood_invariants (ml me : Nat) (ops : List NsOp)
    (hme : 1 ≤ me) (hok : NsOpsOk ops) :
    (nsRun ml me ops).store.length ≤ me ∧
    (nsRun ml me ops).store.Nodup ∧
    (∀ ng ∈ (nsRun ml me ops).store, ∀ p ∈ ng,
      ng ∈ (nsRun ml me ops).varIndex p.1) ∧
    (∀ v, ∀ ng ∈ (nsRun ml me ops).varIndex v, ng ∈ (nsRun ml me ops).store) ∧
    (∀ ca, ngCanon ca ∈ (nsRun ml me ops).store →
      ((nsRun ml me ops).record ca).store.Perm (nsRun ml me ops).store ∧
        ((nsRun ml me ops).record ca).store.Nodup) ∧
    (∀ ca evicted rest, ¬ (ca.length > ml ∨ ca = []) →
      ngCanon ca ∉ (nsRun ml me ops).store →
      (nsRun ml me ops).store.length = me →
      (nsRun ml me ops).store = evicted :: rest →
      ((nsRun ml me ops).record ca).store = rest ++ [ngCanon ca] ∧
      evicted ∉ ((nsRun ml me ops).record ca).store ∧
      ∀ v, evicted ∉ ((nsRun ml me ops).record ca).varIndex v) := by
  obtain ⟨hme2, hnd, hlen, hkeys, hsi, his, hind⟩ := nsWF_run ml me ops hme hok
  obtain ⟨hml', hme'⟩ := nsRun_fields ml me ops
  refine ⟨le_of_le_of_eq hlen hme', hnd, hsi, fun v ng h => (his v ng h).1, ?_, ?_⟩
  · intro ca hmem
    rw [NogoodStore.record]
    by_cases hguard : ca.length > (nsRun ml me ops).max_length ∨ ca = []
    · rw [if_pos hguard]; exact ⟨List.Perm.refl _, hnd⟩
    · rw [if_neg hguard]
      dsimp only
      rw [if_pos hmem]
      have hperm := moveToEnd_perm hmem
      exact ⟨hperm, hperm.nodup_iff.2 hnd⟩
  · intro ca evicted rest hguard hnot hcap hstore
    have hgne : evicted ≠ ngCanon ca := by
      intro hc
      exact hnot (hc ▸ hstore ▸ List.mem_cons_self _ _)
    rw [NogoodStore.record,
      if_neg (by rw [hml']; exact hguard)]
    dsimp only
    rw [if_neg hnot, if_pos (by rw [hme', hcap]), hstore]
    have hev : evicted ∉ rest := by
      rw [hstore] at hnd
      exact (List.nodup_cons.1 hnd).1
    refine ⟨rfl, ?_, ?_⟩
    · intro hc
      rcases List.mem_append.1 hc with hc | hc
      · exact hev hc
      · exact hgne (List.mem_singleton.1 hc)
    · intro v hc
      rcases idxAppendFold_mem _ _ _ _ _ hc with hc2 | ⟨he, _⟩
      · have hc3 := idxEraseFold_mem evicted evicted ((nsRun ml me ops).varIndex) v
          evicted hc2
        rcases (his v evicted hc3).2 with ⟨w, hw⟩
        exact idxEraseFold_absent evicted evicted ((nsRun ml me ops).varIndex)
          hind (v, w) hw hc2
      · exact hgne he

/-- C10 witness: with capacity one, recording `{0: 1}` then `{1: 2}` evicts
the first nogood and keeps the store within its bound, without duplicates. -/
theorem claim10_nogood_invariants_witness :
    1 ≤ 1 ∧ NsOpsOk [NsOp.put [(0, 1)], NsOp.put [(1, 2)]] ∧
    (nsRun 6 1 [NsOp.put [(0, 1)], NsOp.put [(1, 2)]]).store.length ≤ 1 ∧
    (nsRun 6 1 [NsOp.put [(0, 1)], NsOp.put [(1, 2)]]).store.Nodup :=
  ⟨by decide, by decide,
    (claim10_nogood_invariants 6 1 _ (by decide) (by decide)).1,
    (claim10_nogood_invariants 6 1 _ (by decide) (by decide)).2.1⟩

/-! ## GAC all-different preconditions -/

/-- C7: `gac_alldiff_propagate` returns an empty removal list whenever the
all-different group has at most 2 unassigned members (such groups are left to
forward checking), and also whenever the maximum bipartite matching computed
by Hopcroft-Karp over the variable/available-value graph leaves some
unassigned variable unmatched (the group is unsatisfiable; no further
propagation); removals are only ever produced when at least 3 members are
unassigned and the computed matching covers every unassigned variable. -/
theorem claim7_gac_preconditions (unassigned : List Nat)
    (current_domains : Nat → Nat) (solution : Sol) (group : List Nat) :
    (unassigned.length ≤ 2 →
      gac_alldiff_propagate unassigned current_domains solution group = []) ∧
    ((∃ u < unassigned.length,
        ((hopcroft_karp unassigned.length
            (gacAdj unassigned current_domains solution group).2.length
            (gacAdj unassigned current_domains solution group).1).1.getD u none)
          = none) →
      gac_alldiff_propagate unassigned current_domains solution group = []) ∧
    (gac_alldiff_propagate unassigned current_domains solution group ≠ [] →
      3 ≤ unassigned.length ∧
      ∀ u < unassigned.length,
        ((hopcroft_karp unassigned.length
            (gacAdj unassigned current_domains solution group).2.length
            (gacAdj unassigned current_domains solution group).1).1.getD u none)
          ≠ none) := by
  have ha : unassigned.length ≤ 2 →
      gac_alldiff_propagate unassigned current_domains solution group = [] := by
    intro hle
    rw [gac_alldiff_propagate]
    by_cases h1 : unassigned.length ≤ 1
    · rw [if_pos h1]
    · rw [if_neg h1, if_pos hle]
  have hb : (∃ u < unassigned.length,
        ((hopcroft_karp unassigned.length
            (gacAdj unassigned current_domains solution group).2.length
            (gacAdj unassigned current_domains solution group).1).1.getD u none)
          = none) →
      gac_alldiff_propagate unassigned current_domains solution group = [] := by
    rintro ⟨u, hu, hnone⟩
    rw [gac_alldiff_propagate]
    by_cases h1 : unassigned.length ≤ 1
    · rw [if_pos h1]
    · rw [if_neg h1]
      by_cases h2 : unassigned.length ≤ 2
      · rw [if_pos h2]
      · rw [if_neg h2]
        dsimp only
        by_cases h3 : (gacAdj unassigned current_domains solution group).2 = []
        · rw [if_pos h3]
        · rw [if_neg h3]
          rw [if_pos ?_]
          rw [List.any_eq_true]
          refine ⟨u, List.mem_range.2 hu, ?_⟩
          exact decide_eq_true hnone
  refine ⟨ha, hb, ?_⟩
  intro hne
  constructor
  · by_contra h
    exact hne (ha (by omega))
  · intro u hu
    by_contra hnone
    exact hne (hb ⟨u, hu, hnone⟩)

/-- C7 witness: on the group `{0,1,2,3}` with variable 3 assigned value 3,
variables 0 and 1 restricted to `{1,2}` and variable 2 to `{1,2,4}`, all
three preconditions are concrete: three unassigned members, a complete
matching, and a nonempty removal list (values 1 and 2 leave variable 2). -/
theorem claim7_gac_preconditions_witness :
    3 ≤ ([0, 1, 2] : List Nat).length ∧
    gac_alldiff_propagate [0, 1, 2]
      (fun v => if v = 2 then makeDomain [1, 2, 4] else makeDomain [1, 2])
      [(3, 3)] [0, 1, 2, 3] = [(2, 1), (2, 2)] ∧
    (∀ u < ([0, 1, 2] : List Nat).length,
      ((hopcroft_karp ([0, 1, 2] : List Nat).length
          (gacAdj [0, 1, 2]
            (fun v => if v = 2 then makeDomain [1, 2, 4] else makeDomain [1, 2])
            [(3, 3)] [0, 1, 2, 3]).2.length
          (gacAdj [0, 1, 2]
            (fun v => if v = 2 then makeDomain [1, 2, 4] else makeDomain [1, 2])
            [(3, 3)] [0, 1, 2, 3]).1).1.getD u none) ≠ none) := by
  refine ⟨by decide, by decide, ?_⟩
  exact ((claim7_gac_preconditions [0, 1, 2]
    (fun v => if v = 2 then makeDomain [1, 2, 4] else makeDomain [1, 2])
    [(3, 3)] [0, 1, 2, 3]).2.2 (by decide)).2

/-! ## Search frame lemmas -/

theorem foldl_pres {α σ : Type} (P : σ → Prop) (f : σ → α → σ)
    (hf : ∀ s a, P s → P (f s a)) :
    ∀ (l : List α) (s : σ), P s → P (l.foldl f s) := by
  intro l
  induction l with
  | nil => intro s h; exact h
  | cons a rest ih => intro s h; rw [List.foldl_cons]; exact ih _ (hf s a h)

theorem pruneFrame_refl (v : Nat) (st : CSP) : PruneFrame v st st :=
  ⟨rfl, rfl, rfl, rfl, rfl, rfl, rfl, rfl, rfl, rfl, rfl, rfl, rfl, rfl, rfl,
    fun _ _ => rfl⟩

theorem pruneFrame_trans {v : Nat} {st1 st2 st3 : CSP}
    (g : PruneFrame v st1 st2) (h : PruneFrame v st2 st3) :
    PruneFrame v st1 st3 := by
  obtain ⟨g1, g2, g3, g4, g5, g6, g7, g8, g9, g10, g11, g12, g13, g14, g15, g16⟩ := g
  obtain ⟨h1, h2, h3, h4, h5, h6, h7, h8, h9, h10, h11, h12, h13, h14, h15, h16⟩ := h
  exact ⟨h1.trans g1, h2.trans g2, h3.trans g3, h4.trans g4, h5.trans g5,
    h6.trans g6, h7.trans g7, h8.trans g8, h9.trans g9, h10.trans g10,
    h11.trans g11, h12.trans g12, h13.trans g13, h14.trans g14, h15.trans g15,
    fun w hw => (h16 w hw).trans (g16 w hw)⟩

theorem pruneFrame_cd (v : Nat) (st : CSP) (X : Nat → Nat) :
    PruneFrame v st { st with current_domains := X } :=
  ⟨rfl, rfl, rfl, rfl, rfl, rfl, rfl, rfl, rfl, rfl, rfl, rfl, rfl, rfl, rfl,
    fun _ _ => rfl⟩

theorem pruneFrame_cd_pm (v : Nat) (st : CSP) (X : Nat → Nat) (Xi x : Nat) :
    PruneFrame v st
      { st with current_domains := X, pruned_map := pmAdd st.pruned_map v Xi x } :=
  ⟨rfl, rfl, rfl, rfl, rfl, rfl, rfl, rfl, rfl, rfl, rfl, rfl, rfl, rfl, rfl,
    fun w hw => by simp [pmAdd, updFn, hw]⟩

theorem pruneFrame_conflict (v : Nat) (st : CSP) (w0 X : Nat) :
    PruneFrame v st { st with conflict_set := updFn st.conflict_set w0 X } :=
  ⟨rfl, rfl, rfl, rfl, rfl, rfl, rfl, rfl, rfl, rfl, rfl, rfl, rfl, rfl, rfl,
    fun _ _ => rfl⟩

theorem pruneFrame_ls (v : Nat) (st : CSP) (f : Nat × Nat × Nat → Option Nat) :
    PruneFrame v st { st with last_support := f } :=
  ⟨rfl, rfl, rfl, rfl, rfl, rfl, rfl, rfl, rfl, rfl, rfl, rfl, rfl, rfl, rfl,
    fun _ _ => rfl⟩

theorem pruneFrame_restore (v : Nat) (st : CSP) :
    PruneFrame v st (st.restore_pruned_domains v) :=
  ⟨rfl, rfl, rfl, rfl, rfl, rfl, rfl, rfl, rfl, rfl, rfl, rfl, rfl, rfl, rfl,
    fun w hw => by simp [CSP.restore_pruned_domains, updFn, hw]⟩

theorem restore_pm_self (v : Nat) (st : CSP) :
    (st.restore_pruned_domains v).pruned_map v = fun _ => 0 := by
  simp [CSP.restore_pruned_domains, updFn]

theorem findSupport_frame (v : Nat) (st : CSP) (Xi Xj : Nat) (sol : Sol) (x : Nat) :
    PruneFrame v st (CSP.findSupport st Xi Xj sol x).1 := by
  rw [CSP.findSupport]
  split
  · exact pruneFrame_refl v st
  · split
    · exact pruneFrame_ls v st _
    · exact pruneFrame_refl v st

theorem revise_frame (st : CSP) (v Xi Xj : Nat) (sol : Sol) :
    PruneFrame v st (st.revise v Xi Xj sol).1 := by
  rw [CSP.revise]
  refine foldl_pres (fun acc => PruneFrame v st acc.1) _ ?_ _ (st, false)
    (pruneFrame_refl v st)
  intro s x h
  dsimp only
  rcases hfs : CSP.findSupport s.1 Xi Xj sol x with ⟨st2, found⟩
  have hf2 : PruneFrame v s.1 st2 := by
    have := findSupport_frame v s.1 Xi Xj sol x
    rwa [hfs] at this
  have hcomp : PruneFrame v st st2 := pruneFrame_trans h hf2
  split
  · exact hcomp
  · exact pruneFrame_trans hcomp (pruneFrame_cd_pm v st2 _ Xi x)

theorem fcVar_frame (st : CSP) (v Xi : Nat) (sol : Sol) :
    PruneFrame v st (CSP.fcVar st v Xi sol) := by
  rw [CSP.fcVar]
  refine foldl_pres (PruneFrame v st) _ ?_ _ st (pruneFrame_refl v st)
  intro s x h
  dsimp only
  split
  · exact h
  · exact pruneFrame_trans h (pruneFrame_cd_pm v s _ Xi x)

theorem fcLoop_frame (v : Nat) (sol : Sol) :
    ∀ (agenda : List Nat) (st : CSP),
      PruneFrame v st (CSP.fcLoop st v sol agenda).1 := by
  intro agenda
  induction agenda with
  | nil => intro st; exact pruneFrame_refl v st
  | cons Xi rest ih =>
    intro st
    rw [CSP.fcLoop]
    have h1 := fcVar_frame st v Xi sol
    split
    · exact pruneFrame_trans h1 (pruneFrame_conflict v _ Xi _)
    · exact pruneFrame_trans h1 (ih _)

theorem forward_check_frame (st : CSP) (v : Nat) (sol : Sol) :
    PruneFrame v st (st.forward_check v sol).1 := by
  rw [CSP.forward_check]
  exact fcLoop_frame v sol _ st

theorem ac3Loop_frame (v : Nat) (sol : Sol) :
    ∀ (fuel : Nat) (agenda : List (Nat × Nat)) (st : CSP),
      PruneFrame v st (CSP.ac3Loop fuel st v sol agenda).1 := by
  intro fuel
  induction fuel with
  | zero => intro agenda st; exact pruneFrame_refl v st
  | succ n ih =>
    intro agenda st
    rw [CSP.ac3Loop]
    split
    · exact pruneFrame_refl v st
    · next arc heq =>
      rcases hrv : st.revise v arc.1 arc.2 sol with ⟨st2, removed⟩
      have h1 : PruneFrame v st st2 := by
        have := revise_frame st v arc.1 arc.2 sol
        rwa [hrv] at this
      dsimp only
      split
      · split
        · exact pruneFrame_trans h1 (pruneFrame_conflict v st2 arc.1 _)
        · exact pruneFrame_trans h1 (ih _ st2)
      · exact pruneFrame_trans h1 (ih _ st2)

theorem AC3_frame (st : CSP) (v : Nat) (sol : Sol) :
    PruneFrame v st (st.AC3 v sol).1 := by
  rw [CSP.AC3]
  exact ac3Loop_frame v sol _ _ st

theorem acfcLoop_frame (v : Nat) (sol : Sol) :
    ∀ (fuel : Nat) (agenda : List (Nat × Nat)) (st : CSP),
      PruneFrame v st (CSP.acfcLoop fuel st v sol agenda).1 := by
  intro fuel
  induction fuel with
  | zero => intro agenda st; exact pruneFrame_refl v st
  | succ n ih =>
    intro agenda st
    rw [CSP.acfcLoop]
    split
    · split
      · exact pruneFrame_refl v st
      · next arc heq =>
        rcases hrv : st.revise v arc.1 arc.2 sol with ⟨st2, removed⟩
        have h1 : PruneFrame v st st2 := by
          have := revise_frame st v arc.1 arc.2 sol
          rwa [hrv] at this
        dsimp only
        split
        · exact pruneFrame_trans h1 (pruneFrame_conflict v st2 arc.1 _)
        · exact pruneFrame_trans h1 (ih _ st2)
    · exact pruneFrame_refl v st

theorem AC_FC_frame (st : CSP) (v : Nat) (sol : Sol) :
    PruneFrame v st (st.AC_FC v sol).1 := by
  rw [CSP.AC_FC]
  exact acfcLoop_frame v sol _ _ st

theorem pruneStep_frame (st : CSP) (v : Nat) (sol : Sol) :
    PruneFrame v st (st.pruneStep v sol).1 := by
  rw [CSP.pruneStep]
  split
  · exact forward_check_frame st v sol
  · exact AC3_frame st v sol
  · exact AC_FC_frame st v sol
  · exact pruneFrame_refl v st

theorem gacApply_frame (v : Nat) :
    ∀ (removals : List (Nat × Nat)) (st : CSP),
      PruneFrame v st (CSP.gacApply st v removals).1 := by
  intro removals
  induction removals with
  | nil => intro st; exact pruneFrame_refl v st
  | cons p rest ih =>
    intro st
    rw [CSP.gacApply]
    have h1 : PruneFrame v st
        { st with
          current_domains := updFn st.current_domains p.1
            (delBit (st.current_domains p.1) p.2),
          pruned_map := pmAdd st.pruned_map v p.1 p.2 } :=
      pruneFrame_cd_pm v st _ p.1 p.2
    split
    · exact h1
    · exact pruneFrame_trans h1 (ih _)

theorem gacGroups_frame (v : Nat) (sol : Sol) :
    ∀ (groups : List (List Nat)) (st : CSP),
      PruneFrame v st (CSP.gacGroups st v sol groups).1 := by
  intro groups
  induction groups with
  | nil => intro st; exact pruneFrame_refl v st
  | cons group rest ih =>
    intro st
    rw [CSP.gacGroups]
    split
    · exact ih st
    · dsimp only
      split
      · exact ih st
      · rcases hap : CSP.gacApply st v
            (gac_alldiff_propagate (List.filter (fun w => (sol.get w).isNone) group)
              st.current_domains sol group) with ⟨st2, dwo⟩
        have h1 : PruneFrame v st st2 := by
          have := gacApply_frame v
            (gac_alldiff_propagate (List.filter (fun w => (sol.get w).isNone) group)
              st.current_domains sol group) st
          rwa [hap] at this
        cases dwo
        · exact pruneFrame_trans h1 (ih _)
        · exact h1

theorem gac_frame (st : CSP) (v : Nat) (sol : Sol) :
    PruneFrame v st (st.propagate_gac_alldiff v sol).1 := by
  rw [CSP.propagate_gac_alldiff]
  split
  · exact pruneFrame_refl v st
  · exact gacGroups_frame v sol _ st

theorem searchFrame_refl (st : CSP) : SearchFrame st st :=
  ⟨rfl, rfl, rfl, rfl, rfl, rfl, rfl, rfl, rfl, rfl, rfl, rfl, fun _ => rfl⟩

theorem searchFrame_trans {st1 st2 st3 : CSP}
    (g : SearchFrame st1 st2) (h : SearchFrame st2 st3) : SearchFrame st1 st3 := by
  obtain ⟨g1, g2, g3, g4, g5, g6, g7, g8, g9, g10, g11, g12, g13⟩ := g
  obtain ⟨h1, h2, h3, h4, h5, h6, h7, h8, h9, h10, h11, h12, h13⟩ := h
  refine ⟨h1.trans g1, h2.trans g2, h3.trans g3, h4.trans g4, h5.trans g5,
    h6.trans g6, h7.trans g7, h8.trans g8, h9.trans g9, h10.trans g10,
    h11.trans g11, h12.trans g12, ?_⟩
  intro hne
  exact (h13 (g2 ▸ hne)).trans (g13 hne)

theorem PruneFrame.toSearchFrame {v : Nat} {st st' : CSP}
    (h : PruneFrame v st st') : SearchFrame st st' := by
  obtain ⟨h1, h2, h3, h4, h5, h6, _, h8, _, h10, h11, h12, h13, h14, h15, _⟩ := h
  exact ⟨h1, h2, h3, h4, h5, h6, h8, h10, h12, h13, h14, by rw [h15],
    fun _ => h11⟩

theorem afterCandidate_out (st : CSP) (v : Nat) (sol : Sol) :
    PruneFrame v st (st.afterCandidate v sol).1 ∧
    (st.afterCandidate v sol).1.pruned_map v = (fun _ => 0) ∧
    (st.afterCandidate v sol).2 = sol.eraseKey v := by
  refine ⟨?_, ?_, rfl⟩
  · rw [CSP.afterCandidate]
    dsimp only
    exact pruneFrame_trans
      (⟨rfl, rfl, rfl, rfl, rfl, rfl, rfl, rfl, rfl, rfl, rfl, rfl, rfl, rfl,
        rfl, fun _ _ => rfl⟩ :
        PruneFrame v st
          { st with
            conflict_set := updFn st.conflict_set v _,
            backtrack_count := st.backtrack_count + 1 })
      (pruneFrame_restore v _)
  · rw [CSP.afterCandidate]
    dsimp only
    exact restore_pm_self v _

theorem is_nogood_bounds (ns : NogoodStore) (v d : Nat) (sol : Sol) :
    (ns.is_nogood v d sol).2.max_length = ns.max_length ∧
      (ns.is_nogood v d sol).2.max_entries = ns.max_entries := by
  rw [NogoodStore.is_nogood]
  split <;> exact ⟨rfl, rfl⟩

theorem record_bounds (ns : NogoodStore) (ca : List (Nat × Nat)) :
    (ns.record ca).max_length = ns.max_length ∧
      (ns.record ca).max_entries = ns.max_entries :=
  nsApply_fields ns (NsOp.put ca)

theorem clear_congr {ns1 ns2 : NogoodStore} (h1 : ns1.max_length = ns2.max_length)
    (h2 : ns1.max_entries = ns2.max_entries) : ns1.clear = ns2.clear := by
  rw [NogoodStore.clear, NogoodStore.clear, h1, h2]

theorem finishLevel_out (st : CSP) (v : Nat) (sol : Sol) :
    (st.finishLevel v sol).2.1 = false ∧
    (st.finishLevel v sol).2.2 = sol ∧
    (st.finishLevel v sol).1.variable_stack = st.variable_stack ++ [v] ∧
    (st.finishLevel v sol).1.pruned_map = st.pruned_map ∧
    (st.finishLevel v sol).1.solutions = st.solutions ∧
    SearchFrame st (st.finishLevel v sol).1 := by
  rw [CSP.finishLevel]
  rcases hns : st.nogood_store with _ | ns
  · exact ⟨rfl, rfl, rfl, rfl, rfl,
      ⟨rfl, rfl, rfl, rfl, rfl, rfl, rfl, rfl, rfl, rfl, rfl, by rw [hns],
        fun _ => rfl⟩⟩
  · dsimp only
    split
    · split
      · refine ⟨rfl, rfl, rfl, rfl, rfl,
          ⟨rfl, rfl, rfl, rfl, rfl, rfl, rfl, rfl, rfl, rfl, rfl, ?_, fun _ => rfl⟩⟩
        rw [hns]
        simp only [Option.map_some]
        exact congrArg some (clear_congr (record_bounds ns _).1 (record_bounds ns _).2)
      · exact ⟨rfl, rfl, rfl, rfl, rfl,
          ⟨rfl, rfl, rfl, rfl, rfl, rfl, rfl, rfl, rfl, rfl, rfl, by rw [hns],
            fun _ => rfl⟩⟩
    · exact ⟨rfl, rfl, rfl, rfl, rfl,
        ⟨rfl, rfl, rfl, rfl, rfl, rfl, rfl, rfl, rfl, rfl, rfl, by rw [hns],
          fun _ => rfl⟩⟩

theorem eraseKey_cons_self (v d : Nat) (sol : Sol) :
    Sol.eraseKey ((v, d) :: sol) v = sol := by
  simp [Sol.eraseKey]

theorem pyMinBy_aux {β : Type} [LinearOrder β] (key : Nat → β) :
    ∀ (l : List Nat) (acc : Option Nat) (b : Nat),
      (l.foldl
        (fun acc x =>
          match acc with
          | none => some x
          | some b => if key x < key b then some x else acc)
        acc) = some b →
      b ∈ l ∨ acc = some b := by
  intro l
  induction l with
  | nil => intro acc b h; exact Or.inr h
  | cons x rest ih =>
    intro acc b h
    rw [List.foldl_cons] at h
    rcases ih _ b h with h2 | h2
    · exact Or.inl (List.mem_cons_of_mem _ h2)
    · rcases acc with _ | c
      · rw [show (match (none : Option Nat) with
            | none => some x
            | some b => if key x < key b then some x else some b) = some x from rfl] at h2
        exact Or.inl ((Option.some_injective _ h2) ▸ List.mem_cons_self x rest)
      · rw [show (match (some c : Option Nat) with
            | none => some x
            | some b => if key x < key b then some x else some b) =
            (if key x < key c then some x else some c) from rfl] at h2
        split at h2
        · exact Or.inl ((Option.some_injective _ h2) ▸ List.mem_cons_self x rest)
        · exact Or.inr h2

theorem pyMinBy_mem {β : Type} [LinearOrder β] (key : Nat → β) (l : List Nat)
    (b : Nat) (h : pyMinBy l key = some b) : b ∈ l := by
  rw [pyMinBy] at h
  rcases pyMinBy_aux key l none b h with h2 | h2
  · exact h2
  · cases h2

theorem getLast?_decomp :
    ∀ (l : List Nat) (v : Nat), l.getLast? = some v → l = l.dropLast ++ [v] := by
  intro l
  induction l with
  | nil => intro v h; cases h
  | cons x rest ih =>
    intro v h
    cases rest with
    | nil =>
      have : v = x := by
        simp [List.getLast?] at h
        exact h.symm
      subst this
      rfl
    | cons y t =>
      rw [List.getLast?_cons_cons] at h
      have h2 := ih v h
      show x :: (y :: t) = (x :: (y :: t).dropLast) ++ [v]
      rw [List.cons_append, ← h2]

theorem get_next_variable_spec (st : CSP) (v : Nat) (stk : List Nat)
    (h : st.get_next_variable = some (v, stk)) :
    st.variable_stack.Perm (v :: stk) ∧
    (∀ w ∈ stk, w ∈ st.variable_stack) ∧
    (st.variable_stack.Nodup → stk.Nodup ∧ v ∉ stk) ∧
    v ∈ st.variable_stack := by
  rw [CSP.get_next_variable] at h
  split at h
  · rcases hm : pyMinBy st.variable_stack
        (fun v => bitCard (st.current_domains v)) with _ | best
    · rw [hm] at h; cases h
    · rw [hm] at h
      injection h with h'
      injection h' with h1 h2
      subst h1
      subst h2
      have hbm : best ∈ st.variable_stack := pyMinBy_mem _ _ _ hm
      exact ⟨List.perm_cons_erase hbm, fun w hw => List.mem_of_mem_erase hw,
        fun hnd => ⟨hnd.erase _, hnd.not_mem_erase⟩, hbm⟩
  · rcases hm : pyMinBy st.variable_stack
        (fun v => (bitCard (st.current_domains v) : ℚ) /
          max (st.wdeg v) (1 / 1000000000)) with _ | best
    · rw [hm] at h; cases h
    · rw [hm] at h
      injection h with h'
      injection h' with h1 h2
      subst h1
      subst h2
      have hbm : best ∈ st.variable_stack := pyMinBy_mem _ _ _ hm
      exact ⟨List.perm_cons_erase hbm, fun w hw => List.mem_of_mem_erase hw,
        fun hnd => ⟨hnd.erase _, hnd.not_mem_erase⟩, hbm⟩
  · rcases hm : st.variable_stack.getLast? with _ | last
    · rw [hm] at h; cases h
    · rw [hm] at h
      injection h with h'
      injection h' with h1 h2
      subst h1
      subst h2
      have hd := getLast?_decomp _ _ hm
      refine ⟨?_, ?_, ?_, ?_⟩
      · conv_lhs => rw [hd]
        exact List.perm_append_singleton _ _
      · intro w hw
        rw [hd]
        exact List.mem_append_left _ hw
      · intro hnd
        rw [hd] at hnd
        have h3 := List.nodup_append.1 hnd
        exact ⟨h3.1, fun hc => h3.2.2 hc (List.mem_singleton.2 rfl)⟩
      · rw [hd]
        exact List.mem_append_right _ (List.mem_singleton.2 rfl)

/-! ## The master induction: one backtracking level -/

/-- Transport a `TVOut` bundle for the same result from a modified state
`stm` back to the entry state `st`, given that the modification respects
the search frame, permutes the pending stack, only appends solutions, and
restores every pruned log under the clean-entry hypotheses. -/
theorem tvout_transport {st stm : CSP} {v : Nat} {sol : Sol}
    {r : CSP × Bool × Sol}
    (hf : SearchFrame st stm)
    (hstack : stm.variable_stack.Perm st.variable_stack)
    (hsols6 : ∃ e, stm.solutions = st.solutions ++ e)
    (hlen8 : st.solutions.length < st.max_solutions →
      stm.solutions.length < st.max_solutions)
    (hpmOff : ∀ w, w ∉ st.vars → stm.pruned_map w = st.pruned_map w)
    (hpm5 : v ∉ st.variable_stack → st.variable_stack.Nodup →
      (∀ w ∈ st.variable_stack, st.pruned_map w = fun _ => 0) →
      st.pruned_map v = (fun _ => 0) →
      ∀ w, stm.pruned_map w = st.pruned_map w)
    (h : TVOut stm v sol r) : TVOut st v sol r := by
  obtain ⟨h1, h2, h3, h4, h5, h6, h7, h8⟩ := h
  have hvars : stm.vars = st.vars := hf.2.2.2.1
  have hmax : stm.max_solutions = st.max_solutions := hf.2.2.1
  refine ⟨searchFrame_trans hf h1, ?_, h3, ?_, ?_, ?_, ?_, ?_⟩
  · intro w hw
    rw [h2 w (by rw [hvars]; exact hw)]
    exact hpmOff w hw
  · intro hb
    exact (h4 hb).trans (hstack.append_right [v])
  · intro hb hvn hnd hz hzv
    have hpm := hpm5 hvn hnd hz hzv
    have h5' := h5 hb (fun hc => hvn (hstack.mem_iff.mp hc))
      (hstack.nodup_iff.mpr hnd)
      (fun w hw => (hpm w).trans (hz w (hstack.subset hw)))
      ((hpm v).trans hzv)
    intro w
    exact (h5' w).trans (hpm w)
  · obtain ⟨e1, he1⟩ := hsols6
    obtain ⟨e2, he2⟩ := h6
    exact ⟨e1 ++ e2, by rw [he2, he1, List.append_assoc]⟩
  · intro hb
    have h9 := h7 hb
    rwa [hmax] at h9
  · intro hlen hb
    have h9 := h8 (by rw [hmax]; exact hlen8 hlen) hb
    rwa [hmax] at h9

/-- Running the dead-end tail `finishLevel` from a modified state satisfies
`TVOut` under the same transport hypotheses. -/
theorem finish_transport {st stC : CSP} {v : Nat} {sol : Sol}
    (hf : SearchFrame st stC)
    (hstack : stC.variable_stack.Perm st.variable_stack)
    (hsols6 : ∃ e, stC.solutions = st.solutions ++ e)
    (hlen8 : st.solutions.length < st.max_solutions →
      stC.solutions.length < st.max_solutions)
    (hpmOff : ∀ w, w ∉ st.vars → stC.pruned_map w = st.pruned_map w)
    (hpm5 : v ∉ st.variable_stack → st.variable_stack.Nodup →
      (∀ w ∈ st.variable_stack, st.pruned_map w = fun _ => 0) →
      st.pruned_map v = (fun _ => 0) →
      ∀ w, stC.pruned_map w = st.pruned_map w) :
    TVOut st v sol (stC.finishLevel v sol) := by
  obtain ⟨hf1, hf2, hf3, hf4, hf5, hf6⟩ := finishLevel_out stC v sol
  refine ⟨searchFrame_trans hf hf6, ?_, fun _ => hf2, ?_, ?_, ?_, ?_, ?_⟩
  · intro w hw
    rw [hf4]
    exact hpmOff w hw
  · intro _
    rw [hf3]
    exact hstack.append_right [v]
  · intro _ hvn hnd hz hzv
    have hpm := hpm5 hvn hnd hz hzv
    intro w
    rw [hf4]
    exact hpm w
  · obtain ⟨e, he⟩ := hsols6
    exact ⟨e, by rw [hf5, he]⟩
  · intro hb
    rw [hf1] at hb
    exact Bool.noConfusion hb
  · intro hlen _
    rw [hf5]
    exact hlen8 hlen

/-- The shared undo epilogue satisfies `TVOut`: it restores the pruned log
of `v`, unassigns `v` and hands the restored partial assignment to the
continuation. -/
theorem undoTail_spec (cont : CSP → Sol → CSP × Bool × Sol) (v : Nat)
    (hcont : ∀ st1 sol1, (∀ w ∈ st1.variable_stack, w ∈ st1.vars) →
      v ∈ st1.vars → TVOut st1 v sol1 (cont st1 sol1))
    {st stX : CSP} {solr sol : Sol}
    (hv : v ∈ st.vars)
    (hstk : ∀ w ∈ st.variable_stack, w ∈ st.vars)
    (hf : SearchFrame st stX)
    (hstack : stX.variable_stack.Perm st.variable_stack)
    (hsols6 : ∃ e, stX.solutions = st.solutions ++ e)
    (hlen8 : st.solutions.length < st.max_solutions →
      stX.solutions.length < st.max_solutions)
    (hpmOff : ∀ w, w ∉ st.vars → stX.pruned_map w = st.pruned_map w)
    (hpm5 : v ∉ st.variable_stack → st.variable_stack.Nodup →
      (∀ w ∈ st.variable_stack, st.pruned_map w = fun _ => 0) →
      st.pruned_map v = (fun _ => 0) →
      ∀ w, w ≠ v → stX.pruned_map w = st.pruned_map w)
    (hsolr : Sol.eraseKey solr v = sol) :
    TVOut st v sol (CSP.undoTail cont v stX solr) := by
  rw [CSP.undoTail]
  obtain ⟨hfp, hpmv, hs2⟩ := afterCandidate_out stX v solr
  have hsf := hfp.toSearchFrame
  obtain ⟨_, _, _, hvars4, _, _, hstk7, _, hsols9, _, _, _, _, _, _, hpml⟩ := hfp
  rw [hs2, hsolr]
  have hvarsX : stX.vars = st.vars := hf.2.2.2.1
  refine tvout_transport (searchFrame_trans hf hsf)
    ((List.Perm.of_eq hstk7).trans hstack) ?_ ?_ ?_ ?_ (hcont _ sol ?_ ?_)
  · obtain ⟨e, he⟩ := hsols6
    exact ⟨e, by rw [hsols9, he]⟩
  · intro hlen
    rw [hsols9]
    exact hlen8 hlen
  · intro w hw
    have hwv : w ≠ v := fun he => hw (he ▸ hv)
    rw [hpml w hwv]
    exact hpmOff w hw
  · intro hvn hnd hz hzv
    have hX := hpm5 hvn hnd hz hzv
    intro w
    by_cases hwv : w = v
    · subst hwv
      rw [hpmv, hzv]
    · rw [hpml w hwv]
      exact hX w hwv
  · intro w hw
    rw [hstk7] at hw
    rw [hvars4, hvarsX]
    exact hstk w (hstack.subset hw)
  · rw [hvars4, hvarsX]
    exact hv

/-- The domain-wipe-out branch satisfies `TVOut`: a possible dom/wdeg
weight charge (which the search frame exempts under that ordering) followed
by the shared undo epilogue. -/
theorem dwoTail_spec (cont : CSP → Sol → CSP × Bool × Sol) (v d : Nat)
    (hcont : ∀ st1 sol1, (∀ w ∈ st1.variable_stack, w ∈ st1.vars) →
      v ∈ st1.vars → TVOut st1 v sol1 (cont st1 sol1))
    {st stX : CSP} {sol : Sol}
    (hv : v ∈ st.vars)
    (hstk : ∀ w ∈ st.variable_stack, w ∈ st.vars)
    (hfX : PruneFrame v st stX) :
    TVOut st v sol (CSP.dwoTail cont v stX ((v, d) :: sol)) := by
  rw [CSP.dwoTail]
  have hsfX := hfX.toSearchFrame
  obtain ⟨_, _, _, _, _, _, hstk7, _, hsols9, _, _, _, _, _, _, hpml⟩ := hfX
  by_cases hdw : stX.variable_ordering = VariableOrdering.DOM_WDEG
  · rw [if_pos hdw]
    refine undoTail_spec cont v hcont hv hstk
      (searchFrame_trans hsfX ⟨rfl, rfl, rfl, rfl, rfl, rfl, rfl, rfl, rfl, rfl, rfl, rfl,
        fun hne => absurd hdw hne⟩)
      (List.Perm.of_eq hstk7) ⟨[], ?_⟩ ?_ ?_ ?_ (eraseKey_cons_self v d sol)
    · rw [List.append_nil]
      exact hsols9
    · intro hlen
      have h9 : (stX.increment_weights_on_dwo v).solutions = st.solutions := hsols9
      rw [h9]
      exact hlen
    · intro w hw
      exact hpml w (fun he => hw (he ▸ hv))
    · intro _ _ _ _ w hwv
      exact hpml w hwv
  · rw [if_neg hdw]
    refine undoTail_spec cont v hcont hv hstk hsfX
      (List.Perm.of_eq hstk7) ⟨[], ?_⟩ ?_ ?_ ?_ (eraseKey_cons_self v d sol)
    · rw [List.append_nil]
      exact hsols9
    · intro hlen
      rw [hsols9]
      exact hlen
    · intro w hw
      exact hpml w (fun he => hw (he ▸ hv))
    · intro _ _ _ _ w hwv
      exact hpml w hwv

/-- The conflict-directed backjump satisfies `TVOut`: it restores the
pruned log of `v`, unassigns `v`, merges the child conflicts and runs the
dead-end tail at once. -/
theorem cbjTail_spec {st stc : CSP} {v d : Nat} {sol solc : Sol}
    (hv : v ∈ st.vars)
    (hf : SearchFrame st stc)
    (hstack : stc.variable_stack.Perm st.variable_stack)
    (hsols6 : ∃ e, stc.solutions = st.solutions ++ e)
    (hlen8 : st.solutions.length < st.max_solutions →
      stc.solutions.length < st.max_solutions)
    (hpmOff : ∀ w, w ∉ st.vars → stc.pruned_map w = st.pruned_map w)
    (hpm5 : v ∉ st.variable_stack → st.variable_stack.Nodup →
      (∀ w ∈ st.variable_stack, st.pruned_map w = fun _ => 0) →
      st.pruned_map v = (fun _ => 0) →
      ∀ w, w ≠ v → stc.pruned_map w = st.pruned_map w)
    (hsolc : solc = (v, d) :: sol) :
    TVOut st v sol (CSP.cbjTail v stc solc) := by
  rw [CSP.cbjTail]
  rw [hsolc, eraseKey_cons_self]
  refine finish_transport hf hstack hsols6 hlen8 ?_ ?_
  · intro w hw
    have hwv : w ≠ v := fun he => hw (he ▸ hv)
    show updFn stc.pruned_map v (fun _ => 0) w = st.pruned_map w
    rw [updFn_other stc.pruned_map v w (fun _ => 0) hwv]
    exact hpmOff w hw
  · intro hvn hnd hz hzv
    have hX := hpm5 hvn hnd hz hzv
    intro w
    show updFn stc.pruned_map v (fun _ => 0) w = st.pruned_map w
    by_cases hwv : w = v
    · subst hwv
      rw [updFn_same, hzv]
    · rw [updFn_other stc.pruned_map v w (fun _ => 0) hwv]
      exact hX w hwv

/-- The recursive-descent arm satisfies `TVOut`, given the `BktOut` bundle
for the child call and the `TVOut` bundle for the continuation. -/
theorem descend_spec (bt cont : CSP → Sol → CSP × Bool × Sol)
    (hbt : ∀ st1 sol1, (∀ w ∈ st1.variable_stack, w ∈ st1.vars) →
      BktOut st1 sol1 (bt st1 sol1))
    (v d : Nat)
    (hcont : ∀ st1 sol1, (∀ w ∈ st1.variable_stack, w ∈ st1.vars) →
      v ∈ st1.vars → TVOut st1 v sol1 (cont st1 sol1))
    {st stg : CSP} {sol : Sol}
    (hstk : ∀ w ∈ st.variable_stack, w ∈ st.vars) (hv : v ∈ st.vars)
    (hfg : PruneFrame v st stg) :
    TVOut st v sol (CSP.descend bt cont v stg ((v, d) :: sol)) := by
  rw [CSP.descend]
  have hsfg := hfg.toSearchFrame
  have hvarsg : stg.vars = st.vars := hfg.2.2.2.1
  have hmaxg : stg.max_solutions = st.max_solutions := hfg.2.2.1
  obtain ⟨_, _, _, _, _, _, hstkg, _, hsolsg, _, _, _, _, _, _, hpmlg⟩ := hfg
  have hstkg2 : ∀ w ∈ stg.variable_stack, w ∈ stg.vars := by
    intro w hw
    rw [hstkg] at hw
    rw [hvarsg]
    exact hstk w hw
  have hcb := hbt stg ((v, d) :: sol) hstkg2
  rcases hc : bt stg ((v, d) :: sol) with ⟨stc, bc, solc⟩
  rw [hc] at hcb
  obtain ⟨hc1, hc2, hc3, hc4, hc5, hc6, hc7, hc8⟩ := hcb
  cases bc with
  | true =>
    show TVOut st v sol (stc, true, solc)
    refine ⟨searchFrame_trans hsfg hc1, ?_, ?_, ?_, ?_, ?_, ?_, ?_⟩
    · intro w hw
      have hwv : w ≠ v := fun he => hw (he ▸ hv)
      rw [hc2 w (by rw [hvarsg]; exact hw)]
      exact hpmlg w hwv
    · intro hb
      exact Bool.noConfusion hb
    · intro hb
      exact Bool.noConfusion hb
    · intro hb
      exact Bool.noConfusion hb
    · obtain ⟨e, he⟩ := hc6
      exact ⟨e, by rw [he, hsolsg]⟩
    · intro _
      have h9 := hc7 rfl
      rwa [hmaxg] at h9
    · intro _ hb
      exact Bool.noConfusion hb
  | false =>
    have hsolc : solc = (v, d) :: sol := hc3 rfl
    have hperm : stc.variable_stack.Perm st.variable_stack :=
      (hc4 rfl).trans (List.Perm.of_eq hstkg)
    have hsols6 : ∃ e, stc.solutions = st.solutions ++ e := by
      obtain ⟨e, he⟩ := hc6
      exact ⟨e, by rw [he, hsolsg]⟩
    have hlen8 : st.solutions.length < st.max_solutions →
        stc.solutions.length < st.max_solutions := by
      intro hlen
      have h9 := hc8 (by rw [hsolsg, hmaxg]; exact hlen) rfl
      rwa [hmaxg] at h9
    have hpmOff : ∀ w, w ∉ st.vars → stc.pruned_map w = st.pruned_map w := by
      intro w hw
      have hwv : w ≠ v := fun he => hw (he ▸ hv)
      rw [hc2 w (by rw [hvarsg]; exact hw)]
      exact hpmlg w hwv
    have hpm5 : v ∉ st.variable_stack → st.variable_stack.Nodup →
        (∀ w ∈ st.variable_stack, st.pruned_map w = fun _ => 0) →
        st.pruned_map v = (fun _ => 0) →
        ∀ w, w ≠ v → stc.pruned_map w = st.pruned_map w := by
      intro hvn hnd hz hzv
      have h5c := hc5 rfl (by rw [hstkg]; exact hnd) ?_
      · intro w hwv
        rw [h5c w, hpmlg w hwv]
      · intro w hw
        rw [hstkg] at hw
        have hwv : w ≠ v := fun he => hvn (he ▸ hw)
        rw [hpmlg w hwv]
        exact hz w hw
    show TVOut st v sol
      (if stc.max_solutions = 1 ∧ stc.child_conflicts ≠ 0 ∧
          ¬stc.child_conflicts.testBit v = true then
        CSP.cbjTail v stc solc
      else CSP.undoTail cont v stc solc)
    split
    · exact cbjTail_spec hv (searchFrame_trans hsfg hc1) hperm hsols6 hlen8 hpmOff hpm5 hsolc
    · refine undoTail_spec cont v hcont hv hstk (searchFrame_trans hsfg hc1) hperm hsols6
        hlen8 hpmOff hpm5 ?_
      rw [hsolc]
      exact eraseKey_cons_self v d sol

/-- One candidate-value iteration satisfies `TVOut`. -/
theorem tryCandidate_spec (bt cont : CSP → Sol → CSP × Bool × Sol)
    (hbt : ∀ st1 sol1, (∀ w ∈ st1.variable_stack, w ∈ st1.vars) →
      BktOut st1 sol1 (bt st1 sol1))
    (v d : Nat)
    (hcont : ∀ st1 sol1, (∀ w ∈ st1.variable_stack, w ∈ st1.vars) →
      v ∈ st1.vars → TVOut st1 v sol1 (cont st1 sol1))
    (st : CSP) (sol : Sol)
    (hstk : ∀ w ∈ st.variable_stack, w ∈ st.vars) (hv : v ∈ st.vars) :
    TVOut st v sol (CSP.tryCandidate bt cont v d st sol) := by
  rw [CSP.tryCandidate]
  by_cases hval : st.is_valid v ((v, d) :: sol) = true
  · rw [if_pos hval]
    rcases hpr : st.pruneStep v ((v, d) :: sol) with ⟨stp, dwo⟩
    have hfp : PruneFrame v st stp := by
      have h0 := pruneStep_frame st v ((v, d) :: sol)
      rw [hpr] at h0
      exact h0
    cases dwo with
    | true =>
      show TVOut st v sol (CSP.dwoTail cont v stp ((v, d) :: sol))
      exact dwoTail_spec cont v d hcont hv hstk hfp
    | false =>
      show TVOut st v sol
        (if (stp.propagate_gac_alldiff v ((v, d) :: sol)).2 = true then
          CSP.dwoTail cont v (stp.propagate_gac_alldiff v ((v, d) :: sol)).1
            ((v, d) :: sol)
        else
          CSP.descend bt cont v (stp.propagate_gac_alldiff v ((v, d) :: sol)).1
            ((v, d) :: sol))
      rcases hg : stp.propagate_gac_alldiff v ((v, d) :: sol) with ⟨stg, dwog⟩
      have hfg : PruneFrame v st stg := by
        have h1 := gac_frame stp v ((v, d) :: sol)
        rw [hg] at h1
        exact pruneFrame_trans hfp h1
      cases dwog with
      | true =>
        show TVOut st v sol (CSP.dwoTail cont v stg ((v, d) :: sol))
        exact dwoTail_spec cont v d hcont hv hstk hfg
      | false =>
        show TVOut st v sol (CSP.descend bt cont v stg ((v, d) :: sol))
        exact descend_spec bt cont hbt v d hcont hstk hv hfg
  · rw [if_neg hval]
    exact undoTail_spec cont v hcont hv hstk (searchFrame_refl st)
      (List.Perm.refl _) ⟨[], (List.append_nil _).symm⟩ (fun h => h)
      (fun w _ => rfl) (fun _ _ _ _ w _ => rfl) (eraseKey_cons_self v d sol)

/-- The candidate-value loop satisfies `TVOut`. -/
theorem tryValues_spec (bt : CSP → Sol → CSP × Bool × Sol)
    (hbt : ∀ st1 sol1, (∀ w ∈ st1.variable_stack, w ∈ st1.vars) →
      BktOut st1 sol1 (bt st1 sol1)) :
    ∀ (vals : List Nat) (v : Nat) (st : CSP) (sol : Sol),
      (∀ w ∈ st.variable_stack, w ∈ st.vars) → v ∈ st.vars →
      TVOut st v sol (CSP.tryValues bt st v sol vals) := by
  intro vals
  induction vals with
  | nil =>
    intro v st sol hstk hv
    simp only [CSP.tryValues]
    exact finish_transport (searchFrame_refl st) (List.Perm.refl _)
      ⟨[], (List.append_nil _).symm⟩ (fun h => h) (fun w _ => rfl)
      (fun _ _ _ _ w => rfl)
  | cons dd rest ih =>
    intro v st sol hstk hv
    simp only [CSP.tryValues]
    rcases hns : st.nogood_store with _ | ns
    · show TVOut st v sol (CSP.tryCandidate bt
        (fun st2 sol2 => CSP.tryValues bt st2 v sol2 rest) v dd st sol)
      exact tryCandidate_spec bt _ hbt v dd
        (fun st1 sol1 h1 h2 => ih v st1 sol1 h1 h2) st sol hstk hv
    · show TVOut st v sol
        (if (ns.is_nogood v dd sol).1 = true then
          CSP.tryValues bt
            { st with nogood_store := some (ns.is_nogood v dd sol).2 } v sol rest
        else
          CSP.tryCandidate bt
            (fun st2 sol2 => CSP.tryValues bt st2 v sol2 rest) v dd
            { st with nogood_store := some (ns.is_nogood v dd sol).2 } sol)
      have hfN : SearchFrame st
          { st with nogood_store := some (ns.is_nogood v dd sol).2 } := by
        refine ⟨rfl, rfl, rfl, rfl, rfl, rfl, rfl, rfl, rfl, rfl, rfl, ?_,
          fun _ => rfl⟩
        show (some (ns.is_nogood v dd sol).2).map NogoodStore.clear =
          st.nogood_store.map NogoodStore.clear
        rw [hns]
        simp only [Option.map]
        exact congrArg some (clear_congr (is_nogood_bounds ns v dd sol).1
          (is_nogood_bounds ns v dd sol).2)
      by_cases hng : (ns.is_nogood v dd sol).1 = true
      · rw [if_pos hng]
        exact tvout_transport hfN (List.Perm.refl _)
          ⟨[], (List.append_nil _).symm⟩ (fun h => h) (fun w _ => rfl)
          (fun _ _ _ _ w => rfl) (ih v _ sol hstk hv)
      · rw [if_neg hng]
        exact tvout_transport hfN (List.Perm.refl _)
          ⟨[], (List.append_nil _).symm⟩ (fun h => h) (fun w _ => rfl)
          (fun _ _ _ _ w => rfl)
          (tryCandidate_spec bt _ hbt v dd
            (fun st1 sol1 h1 h2 => ih v st1 sol1 h1 h2) _ sol hstk hv)

/-- The master lemma: every `CSP.backtrack` call satisfies the `BktOut`
bundle, for any fuel. -/
theorem backtrack_spec :
    ∀ (fuel : Nat) (st : CSP) (sol : Sol),
      (∀ w ∈ st.variable_stack, w ∈ st.vars) →
      BktOut st sol (CSP.backtrack fuel st sol) := by
  intro fuel
  induction fuel with
  | zero =>
    intro st sol hstk
    simp only [CSP.backtrack]
    exact ⟨searchFrame_refl st, fun _ _ => rfl, fun _ => rfl,
      fun _ => List.Perm.refl _, fun _ _ _ w => rfl,
      ⟨[], (List.append_nil _).symm⟩, fun h => Bool.noConfusion h,
      fun hlen _ => hlen⟩
  | succ n ih =>
    intro st sol hstk
    simp only [CSP.backtrack]
    by_cases hleaf : sol.length = st.vars.length
    · rw [if_pos hleaf]
      refine ⟨⟨rfl, rfl, rfl, rfl, rfl, rfl, rfl, rfl, rfl, rfl, rfl, rfl,
        fun _ => rfl⟩, fun _ _ => rfl, fun _ => rfl, fun _ => List.Perm.refl _,
        fun _ _ _ w => rfl, ⟨[sol], rfl⟩, ?_, ?_⟩
      · intro hb
        exact of_decide_eq_true hb
      · intro hlen hb
        exact lt_of_not_ge (of_decide_eq_false hb)
    · rw [if_neg hleaf]
      rcases hgn : st.get_next_variable with _ | p
      · show BktOut st sol (st, false, sol)
        exact ⟨searchFrame_refl st, fun _ _ => rfl, fun _ => rfl,
          fun _ => List.Perm.refl _, fun _ _ _ w => rfl,
          ⟨[], (List.append_nil _).symm⟩, fun h => Bool.noConfusion h,
          fun hlen _ => hlen⟩
      · rcases p with ⟨v, stk⟩
        obtain ⟨hperm, hsub, hnd2, hvmem⟩ := get_next_variable_spec st v stk hgn
        show BktOut st sol (CSP.tryValues (CSP.backtrack n)
          { st with
            variable_stack := stk,
            conflict_set := updFn st.conflict_set v 0 } v sol
          (bitToList (st.current_domains v)))
        have hstk1 : ∀ w, w ∈ stk → w ∈ st.vars :=
          fun w hw => hstk w (hsub w hw)
        obtain ⟨t1, t2, t3, t4, t5, t6, t7, t8⟩ :=
          tryValues_spec (CSP.backtrack n) ih (bitToList (st.current_domains v))
            v { st with
              variable_stack := stk,
              conflict_set := updFn st.conflict_set v 0 } sol hstk1
            (hstk v hvmem)
        refine ⟨?_, t2, t3, ?_, ?_, t6, t7, t8⟩
        · exact searchFrame_trans
            ⟨rfl, rfl, rfl, rfl, rfl, rfl, rfl, rfl, rfl, rfl, rfl, rfl,
              fun _ => rfl⟩ t1
        · intro hb
          exact (t4 hb).trans
            ((List.perm_append_singleton v stk).trans hperm.symm)
        · intro hb hnd hz
          obtain ⟨hnds, hvn⟩ := hnd2 hnd
          exact t5 hb hvn hnds (fun w hw => hz w (hsub w hw)) (hz v hvmem)

/-! ## Solve-level assembly -/

theorem initFold_stack : ∀ (l : List Nat) (s : CSP),
    (l.foldl CSP.solveInitStep s).variable_stack = s.variable_stack ++ l := by
  intro l
  induction l with
  | nil =>
    intro s
    rw [List.foldl_nil, List.append_nil]
  | cons v rest ih =>
    intro s
    rw [List.foldl_cons, ih]
    show (s.variable_stack ++ [v]) ++ rest = s.variable_stack ++ v :: rest
    rw [List.append_assoc, List.singleton_append]

theorem initFold_fields : ∀ (l : List Nat) (s : CSP),
    (l.foldl CSP.solveInitStep s).pruning_type = s.pruning_type ∧
    (l.foldl CSP.solveInitStep s).variable_ordering = s.variable_ordering ∧
    (l.foldl CSP.solveInitStep s).max_solutions = s.max_solutions ∧
    (l.foldl CSP.solveInitStep s).vars = s.vars ∧
    (l.foldl CSP.solveInitStep s).constraints = s.constraints ∧
    (l.foldl CSP.solveInitStep s).domains = s.domains ∧
    (l.foldl CSP.solveInitStep s).neighbors = s.neighbors ∧
    (l.foldl CSP.solveInitStep s).solutions = s.solutions ∧
    (l.foldl CSP.solveInitStep s).backtrack_count = s.backtrack_count ∧
    (l.foldl CSP.solveInitStep s).last_support = s.last_support ∧
    (l.foldl CSP.solveInitStep s).conflict_set = s.conflict_set ∧
    (l.foldl CSP.solveInitStep s).child_conflicts = s.child_conflicts ∧
    (l.foldl CSP.solveInitStep s).constraint_id = s.constraint_id ∧
    (l.foldl CSP.solveInitStep s).constraint_weights = s.constraint_weights ∧
    (l.foldl CSP.solveInitStep s).var_constraint_ids = s.var_constraint_ids ∧
    (l.foldl CSP.solveInitStep s).use_gac_alldiff = s.use_gac_alldiff ∧
    (l.foldl CSP.solveInitStep s).alldiff_groups = s.alldiff_groups ∧
    (l.foldl CSP.solveInitStep s).nogood_store = s.nogood_store := by
  intro l
  induction l with
  | nil =>
    intro s
    exact ⟨rfl, rfl, rfl, rfl, rfl, rfl, rfl, rfl, rfl, rfl, rfl, rfl, rfl,
      rfl, rfl, rfl, rfl, rfl⟩
  | cons v rest ih =>
    intro s
    rw [List.foldl_cons]
    exact ih (CSP.solveInitStep s v)

theorem initFold_pm : ∀ (l : List Nat) (s : CSP) (w : Nat),
    (l.foldl CSP.solveInitStep s).pruned_map w =
      if w ∈ l then (fun _ => 0) else s.pruned_map w := by
  intro l
  induction l with
  | nil =>
    intro s w
    rw [List.foldl_nil, if_neg (List.not_mem_nil w)]
  | cons v rest ih =>
    intro s w
    rw [List.foldl_cons, ih]
    by_cases hw : w ∈ rest
    · rw [if_pos hw, if_pos (List.mem_cons_of_mem v hw)]
    · rw [if_neg hw]
      by_cases hwv : w = v
      · subst hwv
        rw [if_pos (List.mem_cons_self w rest)]
        show updFn s.pruned_map w (fun _ => 0) w = fun _ => 0
        rw [updFn_same]
      · rw [if_neg (fun hc => (List.mem_cons.1 hc).elim hwv hw)]
        show updFn s.pruned_map v (fun _ => 0) w = s.pruned_map w
        rw [updFn_other s.pruned_map v w (fun _ => 0) hwv]

theorem initFold_cd : ∀ (l : List Nat) (s : CSP) (w : Nat),
    (l.foldl CSP.solveInitStep s).current_domains w =
      if w ∈ l then makeDomain (s.domains w) else s.current_domains w := by
  intro l
  induction l with
  | nil =>
    intro s w
    rw [List.foldl_nil, if_neg (List.not_mem_nil w)]
  | cons v rest ih =>
    intro s w
    rw [List.foldl_cons, ih]
    have hdom : (CSP.solveInitStep s v).domains = s.domains := rfl
    rw [hdom]
    by_cases hw : w ∈ rest
    · rw [if_pos hw, if_pos (List.mem_cons_of_mem v hw)]
    · rw [if_neg hw]
      by_cases hwv : w = v
      · subst hwv
        rw [if_pos (List.mem_cons_self w rest)]
        show updFn s.current_domains w (makeDomain (s.domains w)) w =
          makeDomain (s.domains w)
        rw [updFn_same]
      · rw [if_neg (fun hc => (List.mem_cons.1 hc).elim hwv hw)]
        show updFn s.current_domains v (makeDomain (s.domains v)) w =
          s.current_domains w
        rw [updFn_other s.current_domains v w (makeDomain (s.domains v)) hwv]

/-- The characterisation of the state `CSP.solve` starts searching from. -/
theorem solveInit_fields (st : CSP) :
    st.solveInit.pruning_type = st.pruning_type ∧
    st.solveInit.variable_ordering = st.variable_ordering ∧
    st.solveInit.max_solutions = st.max_solutions ∧
    st.solveInit.vars = st.vars ∧
    st.solveInit.constraints = st.constraints ∧
    st.solveInit.domains = st.domains ∧
    st.solveInit.neighbors = st.neighbors ∧
    st.solveInit.variable_stack = st.vars ∧
    st.solveInit.solutions = [] ∧
    st.solveInit.backtrack_count = 0 ∧
    st.solveInit.last_support = (fun _ => none) ∧
    st.solveInit.conflict_set = (fun _ => 0) ∧
    st.solveInit.child_conflicts = 0 ∧
    st.solveInit.constraint_id = st.constraint_id ∧
    st.solveInit.constraint_weights = st.constraint_weights ∧
    st.solveInit.var_constraint_ids = st.var_constraint_ids ∧
    st.solveInit.use_gac_alldiff = st.use_gac_alldiff ∧
    st.solveInit.alldiff_groups = st.alldiff_groups ∧
    st.solveInit.nogood_store = st.nogood_store.map NogoodStore.clear ∧
    (∀ w, st.solveInit.pruned_map w =
      if w ∈ st.vars then (fun _ => 0) else st.pruned_map w) ∧
    (∀ w, st.solveInit.current_domains w =
      if w ∈ st.vars then makeDomain (st.domains w) else 0) := by
  obtain ⟨f1, f2, f3, f4, f5, f6, f7, f8, f9, f10, f11, f12, f13, f14, f15,
    f16, f17, f18⟩ := initFold_fields st.reset.vars st.reset
  exact ⟨f1, f2, f3, f4, f5, f6, f7, initFold_stack st.reset.vars st.reset,
    f8, f9, f10, f11, f12, f13, f14, f15, f16, f17, f18,
    fun w => initFold_pm st.reset.vars st.reset w,
    fun w => initFold_cd st.reset.vars st.reset w⟩

/-- The `BktOut` bundle of the search `CSP.solve` runs. -/
theorem solve_bkt (st : CSP) :
    BktOut st.solveInit []
      (CSP.backtrack (st.solveInit.vars.length + 1) st.solveInit []) := by
  apply backtrack_spec
  intro w hw
  rw [(solveInit_fields st).2.2.2.2.2.2.2.1] at hw
  rw [(solveInit_fields st).2.2.2.1]
  exact hw

/-- `NogoodStore.clear` is idempotent. -/
theorem clear_clear (ns : NogoodStore) : ns.clear.clear = ns.clear := rfl

/-- Two instances whose initial search states agree solve identically. -/
theorem solve_congr {A B : CSP} (h : A.solveInit = B.solveInit) :
    A.solve = B.solve := by
  rw [CSP.solve, CSP.solve, h]

/-- C8 (amended): for `max_solutions ≥ 1`, `solve()` returns `true` exactly
when the number of collected solutions has reached the requested maximum,
and a `false` return leaves the collection strictly below the maximum (so an
unsatisfiable problem is signalled by `false` with an empty list); the
original unconditional biconditional fails at `max_solutions = 0`, see
`claim8_counterexample`. -/
theorem claim8_solve_return_amended (st : CSP) (hmax : 1 ≤ st.max_solutions) :
    ((st.solve).2 = true ↔ st.max_solutions ≤ (st.solve).1.solutions.length) ∧
    ((st.solve).2 = false →
      (st.solve).1.solutions.length < st.max_solutions) := by
  obtain ⟨b1, b2, b3, b4, b5, b6, b7, b8⟩ := solve_bkt st
  have hmaxI : st.solveInit.max_solutions = st.max_solutions :=
    (solveInit_fields st).2.2.1
  have hsolsI : st.solveInit.solutions = [] :=
    (solveInit_fields st).2.2.2.2.2.2.2.2.1
  have hentry : st.solveInit.solutions.length < st.solveInit.max_solutions := by
    rw [hsolsI, hmaxI]
    exact Nat.lt_of_lt_of_le Nat.zero_lt_one hmax
  constructor
  · constructor
    · intro h
      have h9 := b7 h
      rwa [hmaxI] at h9
    · intro hge
      rcases hb : (st.solve).2 with _ | _
      · exfalso
        have h9 := b8 hentry hb
        rw [hmaxI] at h9
        exact absurd hge (Nat.not_le_of_lt h9)
      · rfl
  · intro hb
    have h9 := b8 hentry hb
    rwa [hmaxI] at h9

/-- Witness for C8 (amended) on the concrete all-different instance. -/
theorem claim8_solve_return_amended_witness :
    1 ≤ instC2.max_solutions ∧
    (((instC2.solve).2 = true ↔
        instC2.max_solutions ≤ (instC2.solve).1.solutions.length) ∧
      ((instC2.solve).2 = false →
        (instC2.solve).1.solutions.length < instC2.max_solutions)) :=
  ⟨by decide, claim8_solve_return_amended instC2 (by decide)⟩

/-- C4 (corrected, amended): a `solve()` that returns `false` drains every
registered variable's pruned log (for distinct variables), and under any
ordering other than dom/wdeg — whose constraint weights deliberately persist
across runs — a second `solve()` on the state returned by the first
reproduces it identically (equal final state, equal return flag, hence equal
solutions list and backtrack count). A `true` return can leak pruned
entries: see `claim4_counterexample`. -/
theorem claim4_undo_amended (st : CSP) (hnd : st.vars.Nodup)
    (hord : st.variable_ordering ≠ VariableOrdering.DOM_WDEG) :
    ((st.solve).2 = false →
      ∀ w ∈ st.vars, (st.solve).1.pruned_map w = fun _ => 0) ∧
    (st.solve).1.solve = st.solve := by
  obtain ⟨b1, b2, b3, b4, b5, b6, b7, b8⟩ := solve_bkt st
  obtain ⟨f1, f2, f3, f4, f5, f6, f7, f8, f9, f10, f11, f12, f13, f14, f15,
    f16, f17, f18, f19, fpm, fcd⟩ := solveInit_fields st
  constructor
  · intro hb w hw
    have hnodup : st.solveInit.variable_stack.Nodup := by
      rw [f8]
      exact hnd
    have hzero : ∀ u ∈ st.solveInit.variable_stack,
        st.solveInit.pruned_map u = fun _ => 0 := by
      intro u hu
      rw [f8] at hu
      rw [fpm u, if_pos hu]
    have h10 : (st.solve).1.pruned_map w = st.solveInit.pruned_map w :=
      b5 hb hnodup hzero w
    rw [h10, fpm w, if_pos hw]
  · obtain ⟨s1, s2, s3, s4, s5, s6, s7, s8, s9, s10, s11, s12, s13⟩ := b1
    have hvars : (st.solve).1.vars = st.vars := s4.trans f4
    have hdoms : (st.solve).1.domains = st.domains := s6.trans f6
    have hcons : (st.solve).1.constraints = st.constraints := s5.trans f5
    have hnb : (st.solve).1.neighbors = st.neighbors := s7.trans f7
    have hpt : (st.solve).1.pruning_type = st.pruning_type := s1.trans f1
    have hvo : (st.solve).1.variable_ordering = st.variable_ordering :=
      s2.trans f2
    have hmax : (st.solve).1.max_solutions = st.max_solutions := s3.trans f3
    have hcid : (st.solve).1.constraint_id = st.constraint_id := s8.trans f14
    have hvc : (st.solve).1.var_constraint_ids = st.var_constraint_ids :=
      s9.trans f16
    have hgac : (st.solve).1.use_gac_alldiff = st.use_gac_alldiff :=
      s10.trans f17
    have hgr : (st.solve).1.alldiff_groups = st.alldiff_groups := s11.trans f18
    have hordI : st.solveInit.variable_ordering ≠ VariableOrdering.DOM_WDEG := by
      rw [f2]
      exact hord
    have hweights : (st.solve).1.constraint_weights = st.constraint_weights :=
      (s13 hordI).trans f15
    have hnsI : st.solveInit.nogood_store.map NogoodStore.clear =
        st.nogood_store.map NogoodStore.clear := by
      rw [f19]
      rcases st.nogood_store with _ | ns
      · rfl
      · rfl
    have hns : (st.solve).1.nogood_store.map NogoodStore.clear =
        st.nogood_store.map NogoodStore.clear := s12.trans hnsI
    have hpmOff : ∀ w, w ∉ st.vars →
        (st.solve).1.pruned_map w = st.pruned_map w := by
      intro w hw
      have h9 : (st.solve).1.pruned_map w = st.solveInit.pruned_map w :=
        b2 w (by rw [f4]; exact hw)
      rw [h9, fpm w, if_neg hw]
    obtain ⟨g1, g2, g3, g4, g5, g6, g7, g8, g9, g10, g11, g12, g13, g14, g15,
      g16, g17, g18, g19, gpm, gcd⟩ := solveInit_fields (st.solve).1
    apply solve_congr
    apply CSP.ext
    · rw [g1, f1]
      exact hpt
    · rw [g2, f2]
      exact hvo
    · rw [g3, f3]
      exact hmax
    · rw [g4, f4]
      exact hvars
    · rw [g5, f5]
      exact hcons
    · funext w
      rw [gcd w, fcd w, hvars, hdoms]
    · rw [g6, f6]
      exact hdoms
    · rw [g8, f8]
      exact hvars
    · rw [g7, f7]
      exact hnb
    · funext w
      rw [gpm w, fpm w, hvars]
      by_cases hw : w ∈ st.vars
      · rw [if_pos hw, if_pos hw]
      · rw [if_neg hw, if_neg hw]
        exact hpmOff w hw
    · rw [g9, f9]
    · rw [g10, f10]
    · rw [g11, f11]
    · rw [g12, f12]
    · rw [g13, f13]
    · rw [g14, f14]
      exact hcid
    · rw [g15, f15]
      exact hweights
    · rw [g16, f16]
      exact hvc
    · rw [g17, f17]
      exact hgac
    · rw [g18, f18]
      exact hgr
    · rw [g19, f19]
      exact hns

/-- Witness for C4 (amended) on the concrete two-coloring instance. -/
theorem claim4_undo_amended_witness :
    instMc.vars.Nodup ∧
    instMc.variable_ordering ≠ VariableOrdering.DOM_WDEG ∧
    (((instMc.solve).2 = false →
        ∀ w ∈ instMc.vars, (instMc.solve).1.pruned_map w = fun _ => 0) ∧
      (instMc.solve).1.solve = instMc.solve) :=
  ⟨by decide, by decide, claim4_undo_amended instMc (by decide) (by decide)⟩

/-! ## Frame facts for the other search entry points (claim 5) -/

theorem set_getD_perm : ∀ (t : List Nat) (m x : Nat), m < t.length →
    (t.getD m 0 :: t.set m x).Perm (x :: t) := by
  intro t
  induction t with
  | nil =>
    intro m x hm
    cases hm
  | cons y u ih =>
    intro m x hm
    cases m with
    | zero =>
      show (y :: x :: u).Perm (x :: y :: u)
      exact List.Perm.swap x y u
    | succ k =>
      have hk : k < u.length := Nat.lt_of_succ_lt_succ hm
      show (u.getD k 0 :: y :: u.set k x).Perm (x :: y :: u)
      exact ((List.Perm.swap y (u.getD k 0) (u.set k x)).trans
        ((ih k x hk).cons y)).trans (List.Perm.swap x y u)

theorem listSwap_perm : ∀ (l : List Nat) (i j : Nat), i < l.length →
    j < l.length → (listSwap l i j).Perm l := by
  intro l
  induction l with
  | nil =>
    intro i j hi _
    cases hi
  | cons x t ih =>
    intro i j hi hj
    cases i with
    | zero =>
      cases j with
      | zero =>
        exact List.Perm.refl (x :: t)
      | succ m =>
        have hm : m < t.length := Nat.lt_of_succ_lt_succ hj
        show (t.getD m 0 :: t.set m x).Perm (x :: t)
        exact set_getD_perm t m x hm
    | succ s =>
      cases j with
      | zero =>
        have hs : s < t.length := Nat.lt_of_succ_lt_succ hi
        show (t.getD s 0 :: t.set s x).Perm (x :: t)
        exact set_getD_perm t s x hs
      | succ m =>
        have hs : s < t.length := Nat.lt_of_succ_lt_succ hi
        have hm : m < t.length := Nat.lt_of_succ_lt_succ hj
        show (x :: listSwap t s m).Perm (x :: t)
        exact (ih s m hs hm).cons x

theorem shuffleFold_perm :
    ∀ (idxs : List Nat) (acc : List Nat × List Nat) (l : List Nat),
      (∀ i ∈ idxs, i < l.length) → acc.1.Perm l →
      ((idxs.foldl
        (fun (acc : List Nat × List Nat) i =>
          let j := acc.2.headD 0 % (i + 1)
          (listSwap acc.1 i j, acc.2.tail))
        acc).1).Perm l := by
  intro idxs
  induction idxs with
  | nil =>
    intro acc l _ hp
    exact hp
  | cons i rest ih =>
    intro acc l hb hp
    rw [List.foldl_cons]
    refine ih _ l (fun i2 h2 => hb i2 (List.mem_cons_of_mem i h2)) ?_
    have hi : i < l.length := hb i (List.mem_cons_self i rest)
    have hlen : acc.1.length = l.length := hp.length_eq
    refine (listSwap_perm acc.1 i (acc.2.headD 0 % (i + 1)) ?_ ?_).trans hp
    · rw [hlen]
      exact hi
    · rw [hlen]
      exact lt_of_le_of_lt
        (Nat.le_of_lt_succ (Nat.mod_lt _ (Nat.succ_pos i))) hi

/-- `random.shuffle` permutes the list. -/
theorem pyShuffle_perm (draws : List Nat) (l : List Nat) :
    (pyShuffle draws l).Perm l := by
  rw [pyShuffle]
  refine shuffleFold_perm _ (l, draws) l ?_ (List.Perm.refl l)
  intro i hi
  have h2 : i ∈ (List.range l.length).reverse :=
    (List.dropLast_sublist _).subset hi
  rw [List.mem_reverse] at h2
  exact List.mem_range.1 h2

theorem mcLoop_fields : ∀ (iters : Nat) (s : CSP) (sol : Sol)
    (draws : List Nat),
    (CSP.mcLoop iters s sol draws).1.vars = s.vars ∧
    (CSP.mcLoop iters s sol draws).1.domains = s.domains ∧
    (CSP.mcLoop iters s sol draws).1.constraints = s.constraints ∧
    (CSP.mcLoop iters s sol draws).1.neighbors = s.neighbors := by
  intro iters
  induction iters with
  | zero =>
    intro s sol draws
    exact ⟨rfl, rfl, rfl, rfl⟩
  | succ n ih =>
    intro s sol draws
    simp only [CSP.mcLoop]
    split
    · exact ⟨rfl, rfl, rfl, rfl⟩
    · split
      · exact ⟨rfl, rfl, rfl, rfl⟩
      · split
        · exact ⟨rfl, rfl, rfl, rfl⟩
        · exact ih s _ draws.tail

theorem min_conflicts_fields (st : CSP) (sdraws cdraws : List Nat)
    (iters : Nat) :
    (st.min_conflicts sdraws cdraws iters).1.vars = pyShuffle sdraws st.vars ∧
    (st.min_conflicts sdraws cdraws iters).1.domains = st.domains ∧
    (st.min_conflicts sdraws cdraws iters).1.constraints = st.constraints ∧
    (st.min_conflicts sdraws cdraws iters).1.neighbors = st.neighbors := by
  rw [CSP.min_conflicts]
  exact mcLoop_fields iters _ _ cdraws

theorem foldl_pres_mem {α σ : Type} (P : σ → Prop) (f : σ → α → σ) :
    ∀ (l : List α) (s : σ), (∀ s2 a, a ∈ l → P s2 → P (f s2 a)) → P s →
      P (l.foldl f s) := by
  intro l
  induction l with
  | nil =>
    intro s _ hp
    exact hp
  | cons a rest ih =>
    intro s hf hp
    rw [List.foldl_cons]
    exact ih (f s a) (fun s2 b hb h2 => hf s2 b (List.mem_cons_of_mem a hb) h2)
      (hf s a (List.mem_cons_self a rest) hp)

theorem swipRevise_pres (P : CSP → Prop)
    (hcd : ∀ s f, P s → P { s with current_domains := f }) :
    ∀ (s : CSP) (Xi Xj : Nat) (dummy : Sol), P s →
      P (s.swipRevise Xi Xj dummy).1 := by
  intro s Xi Xj dummy hp
  rw [CSP.swipRevise]
  refine foldl_pres (fun acc => P acc.1) _ ?_ _ (s, false) hp
  intro acc x h
  dsimp only
  split
  · exact h
  · exact hcd acc.1 _ h

theorem swipLoop_pres (P : CSP → Prop)
    (hcd : ∀ s f, P s → P { s with current_domains := f }) :
    ∀ (fuel : Nat) (s : CSP) (dummy : Sol) (agenda : List (Nat × Nat)),
      P s → P (CSP.swipLoop fuel s dummy agenda).1 := by
  intro fuel
  induction fuel with
  | zero =>
    intro s dummy agenda hp
    exact hp
  | succ n ih =>
    intro s dummy agenda hp
    simp only [CSP.swipLoop]
    rcases hl : agenda.getLast? with _ | arc
    · exact hp
    · dsimp only
      rcases hr : s.swipRevise arc.1 arc.2 dummy with ⟨s2, removed⟩
      have hp2 : P s2 := by
        have h0 := swipRevise_pres P hcd s arc.1 arc.2 dummy hp
        rwa [hr] at h0
      dsimp only
      cases removed with
      | false => exact ih s2 dummy _ hp2
      | true =>
        by_cases hz : s2.current_domains arc.1 = 0
        · rw [if_pos hz]
          exact hp2
        · rw [if_neg hz]
          exact ih s2 dummy _ hp2

theorem statics_stackFold (st : CSP) (gv : Sol) (s : CSP)
    (h : StaticsInv st s) :
    StaticsInv st (s.vars.foldl (CSP.swipStackStep gv) s) := by
  refine foldl_pres_mem (StaticsInv st) (CSP.swipStackStep gv) s.vars s ?_ h
  intro s2 a ha h2
  rw [CSP.swipStackStep]
  split
  · refine ⟨h2.1, h2.2.1, h2.2.2.1, h2.2.2.2.1, ?_⟩
    intro w hw
    rcases List.mem_append.1 hw with hw1 | hw2
    · exact h2.2.2.2.2 w hw1
    · rw [List.mem_singleton.1 hw2, ← h.1]
      exact ha
  · exact h2

theorem statics_backtrack (st s : CSP) (fuel : Nat) (gv : Sol)
    (h : StaticsInv st s) :
    (CSP.backtrack fuel s gv).1.vars = st.vars ∧
    (CSP.backtrack fuel s gv).1.domains = st.domains ∧
    (CSP.backtrack fuel s gv).1.constraints = st.constraints ∧
    (CSP.backtrack fuel s gv).1.neighbors = st.neighbors := by
  have hstk : ∀ w ∈ s.variable_stack, w ∈ s.vars := by
    intro w hw
    rw [h.1]
    exact h.2.2.2.2 w hw
  obtain ⟨⟨_, _, _, sv, sc, sd, sn, _, _, _, _, _, _⟩, _, _, _, _, _, _, _⟩ :=
    backtrack_spec fuel s gv hstk
  exact ⟨sv.trans h.1, sd.trans h.2.1, sc.trans h.2.2.1, sn.trans h.2.2.2.1⟩

/-- The static-structure frame of `solve_with_initial_propagation`. -/
theorem swip_statics (st : CSP) (gv : Sol) :
    (st.solve_with_initial_propagation gv).1.vars = st.vars ∧
    (st.solve_with_initial_propagation gv).1.domains = st.domains ∧
    (st.solve_with_initial_propagation gv).1.constraints = st.constraints ∧
    (st.solve_with_initial_propagation gv).1.neighbors = st.neighbors := by
  have hP0 : StaticsInv st st.reset :=
    ⟨rfl, rfl, rfl, rfl, fun w hw => absurd hw (List.not_mem_nil w)⟩
  have hPB : StaticsInv st (st.reset.vars.foldl CSP.swipInitStep st.reset) :=
    foldl_pres (StaticsInv st) CSP.swipInitStep (fun s a h => h) _ _ hP0
  have hPC : StaticsInv st (gv.foldl (CSP.swipSeedStep gv)
      (st.reset.vars.foldl CSP.swipInitStep st.reset)) := by
    refine foldl_pres (StaticsInv st) (CSP.swipSeedStep gv) ?_ _ _ hPB
    intro s p h
    rw [CSP.swipSeedStep]
    refine foldl_pres (StaticsInv st) _ ?_ _ _ h
    intro s2 nb h2
    dsimp only
    split
    · exact h2
    · exact h2
  have hPr : ∀ (fuel : Nat) (agenda : List (Nat × Nat)),
      StaticsInv st (CSP.swipLoop fuel (gv.foldl (CSP.swipSeedStep gv)
        (st.reset.vars.foldl CSP.swipInitStep st.reset)) gv agenda).1 :=
    fun fuel agenda =>
      swipLoop_pres (StaticsInv st) (fun s f h => h) fuel _ gv agenda hPC
  have hPD : ∀ (fuel : Nat) (agenda : List (Nat × Nat)),
      StaticsInv st
        ((CSP.swipLoop fuel (gv.foldl (CSP.swipSeedStep gv)
            (st.reset.vars.foldl CSP.swipInitStep st.reset)) gv agenda).1.vars.foldl
          (CSP.swipStackStep gv)
          (CSP.swipLoop fuel (gv.foldl (CSP.swipSeedStep gv)
            (st.reset.vars.foldl CSP.swipInitStep st.reset)) gv agenda).1) :=
    fun fuel agenda => statics_stackFold st gv _ (hPr fuel agenda)
  have hQ := fun (fuel : Nat) (agenda : List (Nat × Nat)) (fuel2 : Nat) =>
    statics_backtrack st _ fuel2 gv (hPD fuel agenda)
  rw [CSP.solve_with_initial_propagation]
  split
  · exact ⟨(hPr _ _).1, (hPr _ _).2.1, (hPr _ _).2.2.1, (hPr _ _).2.2.2.1⟩
  · exact ⟨(hQ _ _ _).1, (hQ _ _ _).2.1, (hQ _ _ _).2.2.1, (hQ _ _ _).2.2.2⟩

/-- C5 (corrected, amended): `solve` and `solve_with_initial_propagation`
leave the variables list, the static domains, the constraints and the
neighbor graph unchanged; `min_conflicts`, by contrast, shuffles
`self.variables` in place (see `claim5_counterexample`), leaving a
permutation of the variables list while preserving the other static
structures. -/
theorem claim5_frame_amended (st : CSP) (gv : Sol)
    (sdraws cdraws : List Nat) (iters : Nat) :
    ((st.solve).1.vars = st.vars ∧ (st.solve).1.domains = st.domains ∧
      (st.solve).1.constraints = st.constraints ∧
      (st.solve).1.neighbors = st.neighbors) ∧
    ((st.solve_with_initial_propagation gv).1.vars = st.vars ∧
      (st.solve_with_initial_propagation gv).1.domains = st.domains ∧
      (st.solve_with_initial_propagation gv).1.constraints = st.constraints ∧
      (st.solve_with_initial_propagation gv).1.neighbors = st.neighbors) ∧
    ((st.min_conflicts sdraws cdraws iters).1.vars.Perm st.vars ∧
      (st.min_conflicts sdraws cdraws iters).1.domains = st.domains ∧
      (st.min_conflicts sdraws cdraws iters).1.constraints = st.constraints ∧
      (st.min_conflicts sdraws cdraws iters).1.neighbors = st.neighbors) := by
  refine ⟨?_, swip_statics st gv, ?_⟩
  · obtain ⟨⟨_, _, _, sv, sc, sd, sn, _, _, _, _, _, _⟩, _, _, _, _, _, _, _⟩ :=
      solve_bkt st
    obtain ⟨_, _, _, f4, f5, f6, f7, _⟩ := solveInit_fields st
    exact ⟨sv.trans f4, sd.trans f6, sc.trans f5, sn.trans f7⟩
  · obtain ⟨m1, m2, m3, m4⟩ := min_conflicts_fields st sdraws cdraws iters
    refine ⟨?_, m2, m3, m4⟩
    rw [m1]
    exact pyShuffle_perm sdraws st.vars

/-! ## Soundness of the systematic search (claim 1) -/

theorem get_cons_self (v d : Nat) (s : Sol) :
    Sol.get ((v, d) :: s) v = some d := by
  show (if v = v then some d else Sol.get s v) = some d
  rw [if_pos rfl]

theorem get_cons_ne (v d u : Nat) (s : Sol) (h : v ≠ u) :
    Sol.get ((v, d) :: s) u = Sol.get s u := by
  show (if v = u then some d else Sol.get s u) = Sol.get s u
  rw [if_neg h]

theorem get_isSome_iff_mem : ∀ (s : Sol) (u : Nat),
    (Sol.get s u).isSome = true ↔ u ∈ s.keys := by
  intro s
  induction s with
  | nil =>
    intro u
    constructor
    · intro h
      exact Bool.noConfusion h
    · intro h
      exact absurd h (List.not_mem_nil u)
  | cons p rest ih =>
    intro u
    rcases p with ⟨k, d⟩
    show ((if k = u then some d else Sol.get rest u).isSome = true) ↔
      u ∈ k :: Sol.keys rest
    by_cases hk : k = u
    · subst hk
      rw [if_pos rfl]
      constructor
      · intro _
        exact List.mem_cons_self k (Sol.keys rest)
      · intro _
        rfl
    · rw [if_neg hk, ih u]
      constructor
      · intro h
        exact List.mem_cons_of_mem k h
      · intro h
        rcases List.mem_cons.1 h with h1 | h2
        · exact absurd h1.symm hk
        · exact h2

theorem not_mem_keys_of_get_none {s : Sol} {v : Nat}
    (h : Sol.get s v = none) : v ∉ Sol.keys s := by
  intro hmem
  have h2 := (get_isSome_iff_mem s v).2 hmem
  rw [h] at h2
  exact Bool.noConfusion h2

/-- Extending the assignment with a value that passes `is_valid` preserves
the running soundness invariant. -/
theorem solInv_extend (C : Nat → List Constr) (sol : Sol) (v d : Nat)
    (hInv : SolInv C sol)
    (hval : ∀ c ∈ C v, c.fn ((v, d) :: sol) = true) :
    SolInv C ((v, d) :: sol) := by
  intro u c S hc huS hSreg hSL hassigned
  by_cases hvS : v ∈ S
  · exact hval c (hSreg v hvS)
  · have hpoint : ∀ w ∈ S, Sol.get ((v, d) :: sol) w = Sol.get sol w := by
      intro w hw
      refine get_cons_ne v d w sol ?_
      intro he
      rw [he] at hvS
      exact hvS hw
    have h1 : ∀ w ∈ S, (Sol.get sol w).isSome = true := by
      intro w hw
      have h2 := hassigned w hw
      rw [hpoint w hw] at h2
      exact h2
    rw [hSL ((v, d) :: sol) sol hpoint]
    exact hInv u c S hc huS hSreg hSL h1

/-- Transport of the soundness premises along a state change that keeps the
statics and permutes the stack. -/
theorem spre_transport {V : List Nat} {C : Nat → List Constr} {st stm : CSP}
    {sol : Sol} (h : SPre V C st sol)
    (hvars : stm.vars = st.vars) (hcons : stm.constraints = st.constraints)
    (hstack : stm.variable_stack.Perm st.variable_stack) :
    SPre V C stm sol :=
  ⟨hvars.trans h.1, hcons.trans h.2.1, hstack.nodup_iff.mpr h.2.2.1,
    h.2.2.2.1, fun k hk => h.2.2.2.2.1 k (hstack.subset hk),
    h.2.2.2.2.2.1, h.2.2.2.2.2.2⟩

/-- Soundness of the shared undo epilogue. -/
theorem undoTail_sound (V : List Nat) (C : Nat → List Constr)
    (cont : CSP → Sol → CSP × Bool × Sol) (v : Nat)
    (hcontS : ∀ st1 sol1, SPre V C st1 sol1 →
      (∀ w ∈ st1.variable_stack, w ∈ st1.vars) → v ∉ st1.variable_stack →
      v ∈ st1.vars → Sol.get sol1 v = none → SOut V C st1 (cont st1 sol1))
    {st stX : CSP} {solr sol : Sol}
    (hpre : SPre V C st sol)
    (hstk : ∀ w ∈ st.variable_stack, w ∈ st.vars)
    (hvstk : v ∉ st.variable_stack)
    (hv : v ∈ st.vars)
    (hvfresh : Sol.get sol v = none)
    (hvars : stX.vars = st.vars) (hcons : stX.constraints = st.constraints)
    (hstack : stX.variable_stack.Perm st.variable_stack)
    (hSC : ∀ s ∈ stX.solutions, s ∈ st.solutions ∨ GoodSol V C s)
    (hsolr : Sol.eraseKey solr v = sol) :
    SOut V C st (CSP.undoTail cont v stX solr) := by
  rw [CSP.undoTail]
  obtain ⟨hfp, _, hs2⟩ := afterCandidate_out stX v solr
  obtain ⟨_, _, _, hv4, hc5, _, hstk7, _, hsols9, _, _, _, _, _, _, _⟩ := hfp
  rw [hs2, hsolr]
  have hpre2 : SPre V C (stX.afterCandidate v solr).1 sol :=
    spre_transport hpre (hv4.trans hvars) (hc5.trans hcons)
      ((List.Perm.of_eq hstk7).trans hstack)
  have hstk2 : ∀ w ∈ (stX.afterCandidate v solr).1.variable_stack,
      w ∈ (stX.afterCandidate v solr).1.vars := by
    intro w hw
    rw [hstk7] at hw
    rw [hv4, hvars]
    exact hstk w (hstack.subset hw)
  have hvstk2 : v ∉ (stX.afterCandidate v solr).1.variable_stack := by
    rw [hstk7]
    intro hc
    exact hvstk (hstack.subset hc)
  have hv2 : v ∈ (stX.afterCandidate v solr).1.vars := by
    rw [hv4, hvars]
    exact hv
  have hout := hcontS _ sol hpre2 hstk2 hvstk2 hv2 hvfresh
  intro s hs
  rcases hout s hs with h1 | h2
  · rw [hsols9] at h1
    exact hSC s h1
  · exact Or.inr h2

/-- Soundness of the domain-wipe-out branch. -/
theorem dwoTail_sound (V : List Nat) (C : Nat → List Constr)
    (cont : CSP → Sol → CSP × Bool × Sol) (v d : Nat)
    (hcontS : ∀ st1 sol1, SPre V C st1 sol1 →
      (∀ w ∈ st1.variable_stack, w ∈ st1.vars) → v ∉ st1.variable_stack →
      v ∈ st1.vars → Sol.get sol1 v = none → SOut V C st1 (cont st1 sol1))
    {st stX : CSP} {sol : Sol}
    (hpre : SPre V C st sol)
    (hstk : ∀ w ∈ st.variable_stack, w ∈ st.vars)
    (hvstk : v ∉ st.variable_stack)
    (hv : v ∈ st.vars)
    (hvfresh : Sol.get sol v = none)
    (hfX : PruneFrame v st stX) :
    SOut V C st (CSP.dwoTail cont v stX ((v, d) :: sol)) := by
  rw [CSP.dwoTail]
  obtain ⟨_, _, _, hv4, hc5, _, hstk7, _, hsols9, _, _, _, _, _, _, _⟩ := hfX
  have hSC : ∀ s ∈ stX.solutions, s ∈ st.solutions ∨ GoodSol V C s := by
    intro s hs
    rw [hsols9] at hs
    exact Or.inl hs
  by_cases hdw : stX.variable_ordering = VariableOrdering.DOM_WDEG
  · rw [if_pos hdw]
    exact undoTail_sound V C cont v hcontS hpre hstk hvstk hv hvfresh hv4 hc5
      (List.Perm.of_eq hstk7) hSC (eraseKey_cons_self v d sol)
  · rw [if_neg hdw]
    exact undoTail_sound V C cont v hcontS hpre hstk hvstk hv hvfresh hv4 hc5
      (List.Perm.of_eq hstk7) hSC (eraseKey_cons_self v d sol)

/-- The backjump tail does not touch the solutions list. -/
theorem cbjTail_sols (v : Nat) (stc : CSP) (solc : Sol) :
    (CSP.cbjTail v stc solc).1.solutions = stc.solutions := by
  rw [CSP.cbjTail]
  exact ((finishLevel_out _ v _).2.2.2.2.1).trans rfl

/-- Soundness of the recursive-descent arm. -/
theorem descend_sound (V : List Nat) (C : Nat → List Constr)
    (bt cont : CSP → Sol → CSP × Bool × Sol)
    (hbt : ∀ st1 sol1, (∀ w ∈ st1.variable_stack, w ∈ st1.vars) →
      BktOut st1 sol1 (bt st1 sol1))
    (hbtS : ∀ st1 sol1, SPre V C st1 sol1 →
      (∀ w ∈ st1.variable_stack, w ∈ st1.vars) → SOut V C st1 (bt st1 sol1))
    (v d : Nat)
    (hcontS : ∀ st1 sol1, SPre V C st1 sol1 →
      (∀ w ∈ st1.variable_stack, w ∈ st1.vars) → v ∉ st1.variable_stack →
      v ∈ st1.vars → Sol.get sol1 v = none → SOut V C st1 (cont st1 sol1))
    {st stg : CSP} {sol : Sol}
    (hpre : SPre V C st sol)
    (hstk : ∀ w ∈ st.variable_stack, w ∈ st.vars)
    (hvstk : v ∉ st.variable_stack)
    (hv : v ∈ st.vars)
    (hvfresh : Sol.get sol v = none)
    (hval : ∀ c ∈ C v, c.fn ((v, d) :: sol) = true)
    (hfg : PruneFrame v st stg) :
    SOut V C st (CSP.descend bt cont v stg ((v, d) :: sol)) := by
  rw [CSP.descend]
  obtain ⟨_, _, _, hv4, hc5, _, hstkg, _, hsolsg, _, _, _, _, _, _, _⟩ := hfg
  have hpre1 : SPre V C stg ((v, d) :: sol) := by
    obtain ⟨p1, p2, p3, p4, p5, p6, p7⟩ := hpre
    refine ⟨hv4.trans p1, hc5.trans p2, ?_, ?_, ?_, ?_, ?_⟩
    · rw [hstkg]
      exact p3
    · exact solInv_extend C sol v d p4 hval
    · intro k hk
      rw [hstkg] at hk
      have hkv : v ≠ k := by
        intro he
        rw [he] at hvstk
        exact hvstk hk
      rw [get_cons_ne v d k sol hkv]
      exact p5 k hk
    · show (v :: Sol.keys sol).Nodup
      exact List.Nodup.cons (not_mem_keys_of_get_none hvfresh) p6
    · intro k hk
      rcases List.mem_cons.1 hk with h1 | h2
      · rw [h1, ← p1]
        exact hv
      · exact p7 k h2
  have hstkg2 : ∀ w ∈ stg.variable_stack, w ∈ stg.vars := by
    intro w hw
    rw [hstkg] at hw
    rw [hv4]
    exact hstk w hw
  have hcb := hbt stg ((v, d) :: sol) hstkg2
  have hcs := hbtS stg ((v, d) :: sol) hpre1 hstkg2
  rcases hc : bt stg ((v, d) :: sol) with ⟨stc, bc, solc⟩
  rw [hc] at hcb hcs
  obtain ⟨hc1, _, hc3, hc4, _, _, _, _⟩ := hcb
  have hSC : ∀ s ∈ stc.solutions, s ∈ st.solutions ∨ GoodSol V C s := by
    intro s hs
    rcases hcs s hs with h1 | h2
    · rw [hsolsg] at h1
      exact Or.inl h1
    · exact Or.inr h2
  cases bc with
  | true =>
    show SOut V C st (stc, true, solc)
    exact fun s hs => hSC s hs
  | false =>
    have hsolc : solc = (v, d) :: sol := hc3 rfl
    have hperm : stc.variable_stack.Perm st.variable_stack :=
      (hc4 rfl).trans (List.Perm.of_eq hstkg)
    obtain ⟨_, _, _, sv, sc, _, _, _, _, _, _, _, _⟩ := hc1
    show SOut V C st
      (if stc.max_solutions = 1 ∧ stc.child_conflicts ≠ 0 ∧
          ¬stc.child_conflicts.testBit v = true then
        CSP.cbjTail v stc solc
      else CSP.undoTail cont v stc solc)
    split
    · intro s hs
      rw [cbjTail_sols] at hs
      exact hSC s hs
    · refine undoTail_sound V C cont v hcontS hpre hstk hvstk hv hvfresh
        (sv.trans hv4) (sc.trans hc5) hperm hSC ?_
      rw [hsolc]
      exact eraseKey_cons_self v d sol

/-- Soundness of one candidate-value iteration. -/
theorem tryCandidate_sound (V : List Nat) (C : Nat → List Constr)
    (bt cont : CSP → Sol → CSP × Bool × Sol)
    (hbt : ∀ st1 sol1, (∀ w ∈ st1.variable_stack, w ∈ st1.vars) →
      BktOut st1 sol1 (bt st1 sol1))
    (hbtS : ∀ st1 sol1, SPre V C st1 sol1 →
      (∀ w ∈ st1.variable_stack, w ∈ st1.vars) → SOut V C st1 (bt st1 sol1))
    (v d : Nat)
    (hcontS : ∀ st1 sol1, SPre V C st1 sol1 →
      (∀ w ∈ st1.variable_stack, w ∈ st1.vars) → v ∉ st1.variable_stack →
      v ∈ st1.vars → Sol.get sol1 v = none → SOut V C st1 (cont st1 sol1))
    (st : CSP) (sol : Sol)
    (hpre : SPre V C st sol)
    (hstk : ∀ w ∈ st.variable_stack, w ∈ st.vars)
    (hvstk : v ∉ st.variable_stack)
    (hv : v ∈ st.vars)
    (hvfresh : Sol.get sol v = none) :
    SOut V C st (CSP.tryCandidate bt cont v d st sol) := by
  rw [CSP.tryCandidate]
  by_cases hval : st.is_valid v ((v, d) :: sol) = true
  · rw [if_pos hval]
    have hvalC : ∀ c ∈ C v, c.fn ((v, d) :: sol) = true := by
      intro c hc
      have h2 := hval
      rw [CSP.is_valid, List.all_eq_true] at h2
      refine h2 c ?_
      rw [hpre.2.1]
      exact hc
    rcases hpr : st.pruneStep v ((v, d) :: sol) with ⟨stp, dwo⟩
    have hfp : PruneFrame v st stp := by
      have h0 := pruneStep_frame st v ((v, d) :: sol)
      rw [hpr] at h0
      exact h0
    cases dwo with
    | true =>
      show SOut V C st (CSP.dwoTail cont v stp ((v, d) :: sol))
      exact dwoTail_sound V C cont v d hcontS hpre hstk hvstk hv hvfresh hfp
    | false =>
      show SOut V C st
        (if (stp.propagate_gac_alldiff v ((v, d) :: sol)).2 = true then
          CSP.dwoTail cont v (stp.propagate_gac_alldiff v ((v, d) :: sol)).1
            ((v, d) :: sol)
        else
          CSP.descend bt cont v
            (stp.propagate_gac_alldiff v ((v, d) :: sol)).1 ((v, d) :: sol))
      rcases hg : stp.propagate_gac_alldiff v ((v, d) :: sol) with ⟨stg, dwog⟩
      have hfg : PruneFrame v st stg := by
        have h1 := gac_frame stp v ((v, d) :: sol)
        rw [hg] at h1
        exact pruneFrame_trans hfp h1
      cases dwog with
      | true =>
        show SOut V C st (CSP.dwoTail cont v stg ((v, d) :: sol))
        exact dwoTail_sound V C cont v d hcontS hpre hstk hvstk hv hvfresh hfg
      | false =>
        show SOut V C st (CSP.descend bt cont v stg ((v, d) :: sol))
        exact descend_sound V C bt cont hbt hbtS v d hcontS hpre hstk hvstk hv
          hvfresh hvalC hfg
  · rw [if_neg hval]
    exact undoTail_sound V C cont v hcontS hpre hstk hvstk hv hvfresh rfl rfl
      (List.Perm.refl _) (fun s hs => Or.inl hs) (eraseKey_cons_self v d sol)

/-- Soundness of the candidate-value loop. -/
theorem tryValues_sound (V : List Nat) (C : Nat → List Constr)
    (bt : CSP → Sol → CSP × Bool × Sol)
    (hbt : ∀ st1 sol1, (∀ w ∈ st1.variable_stack, w ∈ st1.vars) →
      BktOut st1 sol1 (bt st1 sol1))
    (hbtS : ∀ st1 sol1, SPre V C st1 sol1 →
      (∀ w ∈ st1.variable_stack, w ∈ st1.vars) → SOut V C st1 (bt st1 sol1)) :
    ∀ (vals : List Nat) (v : Nat) (st : CSP) (sol : Sol),
      SPre V C st sol → (∀ w ∈ st.variable_stack, w ∈ st.vars) →
      v ∉ st.variable_stack → v ∈ st.vars → Sol.get sol v = none →
      SOut V C st (CSP.tryValues bt st v sol vals) := by
  intro vals
  induction vals with
  | nil =>
    intro v st sol _ _ _ _ _
    simp only [CSP.tryValues]
    intro s hs
    rw [(finishLevel_out st v sol).2.2.2.2.1] at hs
    exact Or.inl hs
  | cons dd rest ih =>
    intro v st sol hpre hstk hvstk hv hvfresh
    simp only [CSP.tryValues]
    rcases hns : st.nogood_store with _ | ns
    · show SOut V C st (CSP.tryCandidate bt
        (fun st2 sol2 => CSP.tryValues bt st2 v sol2 rest) v dd st sol)
      exact tryCandidate_sound V C bt _ hbt hbtS v dd
        (fun st1 sol1 h1 h2 h3 h4 h5 => ih v st1 sol1 h1 h2 h3 h4 h5)
        st sol hpre hstk hvstk hv hvfresh
    · show SOut V C st
        (if (ns.is_nogood v dd sol).1 = true then
          CSP.tryValues bt
            { st with nogood_store := some (ns.is_nogood v dd sol).2 } v sol
            rest
        else
          CSP.tryCandidate bt
            (fun st2 sol2 => CSP.tryValues bt st2 v sol2 rest) v dd
            { st with nogood_store := some (ns.is_nogood v dd sol).2 } sol)
      have hpre2 : SPre V C
          { st with nogood_store := some (ns.is_nogood v dd sol).2 } sol :=
        spre_transport hpre rfl rfl (List.Perm.refl _)
      by_cases hng : (ns.is_nogood v dd sol).1 = true
      · rw [if_pos hng]
        exact ih v _ sol hpre2 hstk hvstk hv hvfresh
      · rw [if_neg hng]
        exact tryCandidate_sound V C bt _ hbt hbtS v dd
          (fun st1 sol1 h1 h2 h3 h4 h5 => ih v st1 sol1 h1 h2 h3 h4 h5)
          _ sol hpre2 hstk hvstk hv hvfresh

/-- Soundness of a whole `CSP.backtrack` call: every solution it appends is
good. -/
theorem backtrack_sound (V : List Nat) (C : Nat → List Constr)
    (hreg : ∀ v c, c ∈ C v →
      ∃ S, v ∈ S ∧ (∀ u ∈ S, c ∈ C u) ∧ ScopeLocal c S ∧ ∀ u ∈ S, u ∈ V) :
    ∀ (fuel : Nat) (st : CSP) (sol : Sol),
      SPre V C st sol → (∀ w ∈ st.variable_stack, w ∈ st.vars) →
      SOut V C st (CSP.backtrack fuel st sol) := by
  intro fuel
  induction fuel with
  | zero =>
    intro st sol _ _
    intro s hs
    exact Or.inl hs
  | succ n ih =>
    intro st sol hpre hstk
    simp only [CSP.backtrack]
    by_cases hleaf : sol.length = st.vars.length
    · rw [if_pos hleaf]
      intro s hs
      rcases List.mem_append.1 hs with h1 | h2
      · exact Or.inl h1
      · rw [List.mem_singleton.1 h2]
        refine Or.inr ?_
        obtain ⟨p1, p2, p3, p4, p5, p6, p7⟩ := hpre
        have hklen : (Sol.keys sol).length = V.length := by
          rw [Sol.keys, List.length_map, hleaf, p1]
        have hsp : (Sol.keys sol).Subperm V :=
          p6.subperm (fun k hk => p7 k hk)
        have hperm : (Sol.keys sol).Perm V :=
          hsp.perm_of_length_le (le_of_eq hklen.symm)
        intro u hu c hc
        obtain ⟨S, huS, hSreg, hSL, hSV⟩ := hreg u c hc
        refine p4 u c S hc huS hSreg hSL ?_
        intro w hw
        exact (get_isSome_iff_mem sol w).2 (hperm.mem_iff.mpr (hSV w hw))
    · rw [if_neg hleaf]
      rcases hgn : st.get_next_variable with _ | p
      · intro s hs
        exact Or.inl hs
      · rcases p with ⟨v, stk⟩
        obtain ⟨_, hsub, hnd2, hvmem⟩ := get_next_variable_spec st v stk hgn
        show SOut V C st (CSP.tryValues (CSP.backtrack n)
          { st with
            variable_stack := stk,
            conflict_set := updFn st.conflict_set v 0 } v sol
          (bitToList (st.current_domains v)))
        obtain ⟨hnds, hvn⟩ := hnd2 hpre.2.2.1
        have hpre1 : SPre V C
            { st with
              variable_stack := stk,
              conflict_set := updFn st.conflict_set v 0 } sol :=
          ⟨hpre.1, hpre.2.1, hnds, hpre.2.2.2.1,
            fun k hk => hpre.2.2.2.2.1 k (hsub k hk),
            hpre.2.2.2.2.2.1, hpre.2.2.2.2.2.2⟩
        have hstk1 : ∀ w, w ∈ stk → w ∈ st.vars :=
          fun w hw => hstk w (hsub w hw)
        exact tryValues_sound V C (CSP.backtrack n)
          (fun st1 sol1 h1 => backtrack_spec n st1 sol1 h1)
          (fun st1 sol1 h1 h2 => ih st1 sol1 h1 h2)
          (bitToList (st.current_domains v)) v _ sol hpre1 hstk1 hvn
          (hstk v hvmem) (hpre.2.2.2.2.1 v hvmem)

/-- C1: soundness of the systematic search — every solution mapping that
`solve()` appends to the solutions list satisfies every registered
constraint predicate when evaluated against the full solution.  The
hypotheses are the registration discipline that `add_constraint`
establishes (`Registered`, which includes scope-locality of the factory
predicates of `constraints.py`) and distinctness of the registered
variables. -/
theorem claim1_soundness (st : CSP) (hreg : Registered st)
    (hnd : st.vars.Nodup) :
    ∀ s ∈ (st.solve).1.solutions, ∀ v ∈ st.vars, ∀ c ∈ st.constraints v,
      c.fn s = true := by
  obtain ⟨f1, f2, f3, f4, f5, f6, f7, f8, f9, _⟩ := solveInit_fields st
  have hpre : SPre st.vars st.constraints st.solveInit [] := by
    refine ⟨f4, f5, ?_, ?_, fun k _ => rfl, List.nodup_nil,
      fun k hk => absurd hk (List.not_mem_nil k)⟩
    · rw [f8]
      exact hnd
    · intro v c S hc hvS hSreg hSL hassigned
      exact absurd (hassigned v hvS) (fun h => Bool.noConfusion h)
  have hstk : ∀ w ∈ st.solveInit.variable_stack, w ∈ st.solveInit.vars := by
    intro w hw
    rw [f8] at hw
    rw [f4]
    exact hw
  have hout := backtrack_sound st.vars st.constraints hreg
    (st.solveInit.vars.length + 1) st.solveInit [] hpre hstk
  intro s hs v hv c hc
  rcases hout s hs with h1 | h2
  · rw [f9] at h1
    exact absurd h1 (List.not_mem_nil s)
  · exact h2 v hv c hc

theorem allDiffGo_congr (s t : Sol) : ∀ (scope : List Nat) (seen : List Nat),
    (∀ u ∈ scope, Sol.get s u = Sol.get t u) →
    allDiffGo s seen scope = allDiffGo t seen scope := by
  intro scope
  induction scope with
  | nil =>
    intro seen _
    rfl
  | cons v rest ih =>
    intro seen h
    have hrest : ∀ u ∈ rest, Sol.get s u = Sol.get t u :=
      fun u hu => h u (List.mem_cons_of_mem v hu)
    show (match Sol.get s v with
      | none => allDiffGo s seen rest
      | some val =>
        if val ∈ seen then false else allDiffGo s (val :: seen) rest) =
      (match Sol.get t v with
      | none => allDiffGo t seen rest
      | some val =>
        if val ∈ seen then false else allDiffGo t (val :: seen) rest)
    rw [h v (List.mem_cons_self v rest)]
    rcases Sol.get t v with _ | val
    · exact ih seen hrest
    · show (if val ∈ seen then false else allDiffGo s (val :: seen) rest) =
        (if val ∈ seen then false else allDiffGo t (val :: seen) rest)
      by_cases hmem : val ∈ seen
      · rw [if_pos hmem, if_pos hmem]
      · rw [if_neg hmem, if_neg hmem]
        exact ih (val :: seen) hrest

/-- The all-different predicate only reads its scope. -/
theorem scopeLocal_alldiff (scope : List Nat) :
    ScopeLocal (all_different_constraint scope).1 scope := by
  intro s t h
  show allDiffGo s [] scope = allDiffGo t [] scope
  exact allDiffGo_congr s t scope [] h

/-- The concrete witness instance satisfies the registration discipline. -/
theorem registered_instC1 : Registered instC1 := by
  intro v c hc
  by_cases hv : v = 0
  · subst hv
    have h0 : instC1.constraints 0 = [(all_different_constraint [0]).1] := rfl
    rw [h0] at hc
    rw [List.mem_singleton.1 hc]
    refine ⟨[0], List.mem_singleton.2 rfl, ?_, scopeLocal_alldiff [0], ?_⟩
    · intro u hu
      rw [List.mem_singleton.1 hu, h0]
      exact List.mem_singleton.2 rfl
    · intro u hu
      rw [List.mem_singleton.1 hu]
      show (0 : Nat) ∈ instC1.vars
      exact List.mem_singleton.2 rfl
  · exfalso
    have h0 : instC1.constraints v =
        updFn (fun _ => ([] : List Constr)) 0
          ([] ++ [(all_different_constraint [0]).1]) v := rfl
    rw [h0, updFn_other _ _ _ _ hv] at hc
    exact absurd hc (List.not_mem_nil c)

/-- Witness for C1 on the concrete one-variable all-different instance. -/
theorem claim1_soundness_witness :
    Registered instC1 ∧ instC1.vars.Nodup ∧
    (∀ s ∈ (instC1.solve).1.solutions, ∀ v ∈ instC1.vars,
      ∀ c ∈ instC1.constraints v, c.fn s = true) :=
  ⟨registered_instC1, by decide,
    claim1_soundness instC1 registered_instC1 (by decide)⟩
